import Mathlib

/-!
# ECS-System: object store, filters, engine reconciliation and scene

A shallow embedding of `Component.hpp`, `Object.hpp`, `EngineFilter.hpp`,
`Engine.hpp`, `Scene.hpp` and `Notifier.hpp`.

Modelling conventions.

* Pointers are natural numbers: `ObjId` stands for a `dn::Object *`, `Addr` for
  the address of a heap-allocated `dn::Component`, `TypeTag` for the
  `const std::type_info *` returned by `dn::getType<T>()`.
* `std::map<const std::type_info *, dn::Component *>` is an association list
  with one node per key; a map iterator is the key of the node it points to.
  Using an iterator whose node has been erased is undefined behaviour and is
  modelled by `none`.
* `std::vector<T_Filter *>` is a list; a vector iterator is a position.
  `erase` shifts the tail one position down, so a stored position past the
  erased one then designates the next element.  Dereferencing a position
  past the end is undefined behaviour and is modelled by `none`.  Capacity and
  reallocation are not modelled.
* The overridable hooks `onObjectComing`, `onObjectAdded`, `onObjectRemoved`,
  `onStart`, `onUpdate` are observers: each call is recorded in the event log,
  and the verdict of `onObjectComing` is a function of the engine type, the
  position of the requirement in `T_Filters...` and the filter it is given.
  Hooks do not call back into the scene.
* Notifications are synchronous.  An `Object` member function returns the
  notifications it raises, in order; the engines only read the component
  mapping, which is final when the generic notification is raised.
* In the scene the edges of the notifiers are counted (`Object.notifiers`,
  `World.notifiers`); the graph of `Notifier.hpp` itself is the type `Net`,
  where `notify` and `notifyLast` carry a bound on the depth of the recursion
  and return `none` when it is exhausted.  Arguments of a notification are
  values that are copied.
-/

namespace dn

/-- The key `dn::getType<T>()` of a component type or an engine type. -/
abbrev TypeTag := Nat

/-- The address of a heap-allocated component. -/
abbrev Addr := Nat

/-- A `dn::Object *`. -/
abbrev ObjId := Nat

/-! ## Component.hpp -/

/-- A `dn::Component`: the `_active` flag, with the address that identifies the
instance and the state of the derived class (`payload`). -/
structure Component where
  addr : Addr
  active : Bool
  payload : Nat
deriving DecidableEq, Repr

/-- The assignment of `Component::setActive`; the notification it raises is
delivered by the caller. -/
def Component.setActive (c : Component) (p_active : Bool) : Component :=
  { c with active := p_active }

/-! ## Object.hpp -/

/-- A notification raised by an object: `changed` is `notifier().notify(this)`,
`trash b` is `_trashNotifier.notify(this, b)`. -/
inductive Notice where
  | changed
  | trash (removed : Bool)
deriving DecidableEq, Repr

/-- A `dn::Object`: `_components`, `_trash`, and the number of outgoing edges of
its notifier and of its trash notifier (every edge leads to the scene). -/
structure Object where
  components : List (TypeTag × Component)
  trash : List TypeTag
  notifiers : Nat
  trashNotifiers : Nat
deriving DecidableEq, Repr

/-- The lookup `_components.find(key)`; `none` is `end()`. -/
def find (t : TypeTag) : List (TypeTag × Component) → Option Component
  | [] => none
  | (k, c) :: cs => if k = t then some c else find t cs

/-- The write `it->second->setActive(b)` through the node found for `t`. -/
def setActiveAt (t : TypeTag) (b : Bool) :
    List (TypeTag × Component) → List (TypeTag × Component)
  | [] => []
  | (k, c) :: cs =>
    if k = t then (k, c.setActive b) :: cs else (k, c) :: setActiveAt t b cs

/-- The erasure `_components.erase(it)` of the node found for `t`. -/
def eraseKey (t : TypeTag) : List (TypeTag × Component) → List (TypeTag × Component)
  | [] => []
  | (k, c) :: cs => if k = t then cs else (k, c) :: eraseKey t cs

/-- The member `Object::getComponent<T>()`; `none` is `nullptr`. -/
def Object.getComponent (o : Object) (t : TypeTag) : Option Component :=
  find t o.components

/-- The member `Object::addComponent<T>(args...)`.  `fresh` is the address
returned by `new` and `payload` the state built from `args`; the result is the
object, the instance returned and the notifications raised.  A stored pointer
is never null, the only insertion being that of a new instance, so the test
`it->second` holds for every node found. -/
def Object.addComponent (o : Object) (t : TypeTag) (fresh : Addr) (payload : Nat) :
    Object × Component × List Notice :=
  match find t o.components with
  | some c =>
    if c.active then (o, c, [])
    else
      let o1 := { o with components := setActiveAt t true o.components }
      if t ∈ o.trash then
        ({ o1 with trash := o.trash.erase t }, c.setActive true,
          [Notice.changed, Notice.trash false])
      else (o1, c.setActive true, [Notice.changed])
  | none =>
    let comp : Component := { addr := fresh, active := true, payload := payload }
    ({ o with components := o.components ++ [(t, comp)] }, comp, [Notice.changed])

/-- The member `Object::removeComponent<T>()`. -/
def Object.removeComponent (o : Object) (t : TypeTag) : Object × Bool × List Notice :=
  match find t o.components with
  | none => (o, false, [])
  | some _ =>
    ({ o with components := setActiveAt t false o.components, trash := o.trash ++ [t] },
      true, [Notice.trash true, Notice.changed])

/-- A call `getComponent<T>()->setActive(b)` made by application code; `none`
when there is no instance to call it on. -/
def Object.setActive (o : Object) (t : TypeTag) (b : Bool) : Option (Object × List Notice) :=
  match find t o.components with
  | none => none
  | some _ => some ({ o with components := setActiveAt t b o.components }, [Notice.changed])

/-- The loop of `Object::cleanTrash`: `delete c->second; _components.erase(c)`
for each queued iterator; `none` when an iterator designates an erased node. -/
def eraseNodes : List (TypeTag × Component) → List TypeTag → Option (List (TypeTag × Component))
  | cs, [] => some cs
  | cs, t :: ts =>
    match find t cs with
    | some _ => eraseNodes (eraseKey t cs) ts
    | none => none

/-- The member `Object::cleanTrash()`. -/
def Object.cleanTrash (o : Object) : Option Object :=
  match eraseNodes o.components o.trash with
  | some cs => some { o with components := cs, trash := [] }
  | none => none

/-! ## EngineFilter.hpp -/

/-- An instance of `dn::EngineFilter<T_Components...>`: `_object`, `_active` and
the tuple `_components` of captured pointers (`none` is `nullptr`). -/
structure Filter where
  object : ObjId
  active : Bool
  components : List (Option Addr)
deriving DecidableEq, Repr

/-- The static `EngineFilter::passFilterComponent`. -/
def passFilterComponent : Option Component → Bool
  | none => false
  | some c => c.active

/-- The static `EngineFilter::passFilter`, the fold of `&&` over `T_Components...`. -/
def passFilter (req : List TypeTag) (o : Object) : Bool :=
  req.all fun t => passFilterComponent (o.getComponent t)

/-- The static `EngineFilter::makeFilter`. -/
def makeFilter (req : List TypeTag) (p : ObjId) (o : Object) : Filter :=
  { object := p, active := true,
    components := req.map fun t => (o.getComponent t).map Component.addr }

/-! ## Engine.hpp -/

/-- A call observed from outside: the three per-requirement hooks (engine type,
position of the requirement, filter passed), the scene-driven hooks, and the
two flush calls. -/
inductive Event where
  | coming (engine : TypeTag) (slot : Nat) (f : Filter)
  | added (engine : TypeTag) (slot : Nat) (f : Filter)
  | removed (engine : TypeTag) (slot : Nat) (f : Filter)
  | onStart (engine : TypeTag)
  | onUpdate (engine : TypeTag)
  | engineCleanTrash (engine : TypeTag)
  | objectCleanTrash (p : ObjId)
deriving DecidableEq, Repr

/-- The part of an engine that belongs to one `T_Filter`: the component types
it requires, its vector in `_filters` and its vector of iterators in `_trash`. -/
structure Slot where
  req : List TypeTag
  filters : List Filter
  trash : List Nat
deriving DecidableEq, Repr

/-- The predicate given to `std::find_if` in `testFilter`. -/
def isActiveFor (p : ObjId) (pf : Filter) : Bool :=
  decide (pf.object = p) && pf.active

/-- The body of `Engine::testFilter<T_Filter, T_Others...>` before the
recursive call.  The iterator `it` is a position, `end()` being the length.
The last component of the result tells whether control reaches the recursive
call: it is `false` for the `return` taken when the coming hook refuses. -/
def Slot.testFilter (coming : Filter → Bool) (e : TypeTag) (i : Nat) (s : Slot)
    (p : ObjId) (o : Object) (p_remove : Bool) : Slot × List Event × Bool :=
  let it := s.filters.findIdx (isActiveFor p)
  if !p_remove && passFilter s.req o then
    if it = s.filters.length then
      let filter := makeFilter s.req p o
      if coming filter then
        ({ s with filters := s.filters ++ [filter] },
          [Event.coming e i filter, Event.added e i filter], true)
      else (s, [Event.coming e i filter], false)
    else (s, [], true)
  else
    match s.filters[it]? with
    | some f =>
      let f1 : Filter := { f with active := false }
      ({ s with filters := s.filters.set it f1, trash := s.trash ++ [it] },
        [Event.removed e i f1], true)
    | none => (s, [], true)

/-- The recursion of `Engine::testFilter` over `T_Filters...`; `i` is the
position of the head requirement. -/
def testFilter (coming : Nat → Filter → Bool) (e : TypeTag) (p : ObjId) (o : Object)
    (p_remove : Bool) : Nat → List Slot → List Slot × List Event
  | _, [] => ([], [])
  | i, s :: rest =>
    let r := s.testFilter (coming i) e i p o p_remove
    if r.2.2 then
      let r1 := testFilter coming e p o p_remove (i + 1) rest
      (r.1 :: r1.1, r.2.1 ++ r1.2)
    else (r.1 :: rest, r.2.1)

/-- The loop of `Engine::cleanTrashOne`: `delete *it; erase(it)` for each queued
position; `none` when a position is past the end. -/
def eraseIters : List Filter → List Nat → Option (List Filter)
  | fs, [] => some fs
  | fs, it :: rest => if it < fs.length then eraseIters (fs.eraseIdx it) rest else none

/-- The body of `Engine::cleanTrashOne<T_Filter, T_Others...>` before the
recursive call. -/
def Slot.cleanTrashOne (s : Slot) : Option Slot :=
  match eraseIters s.filters s.trash with
  | some fs => some { s with filters := fs, trash := [] }
  | none => none

/-- The recursion of `Engine::cleanTrashOne` over `T_Filters...`. -/
def cleanTrashOne : List Slot → Option (List Slot)
  | [] => some []
  | s :: rest =>
    match s.cleanTrashOne with
    | some s1 =>
      match cleanTrashOne rest with
      | some rest1 => some (s1 :: rest1)
      | none => none
    | none => none

/-- An instance of `dn::Engine<T_Filters...>`: its type and one slot per
`T_Filter`, in the order of the template arguments. -/
structure Engine where
  tag : TypeTag
  slots : List Slot
deriving DecidableEq, Repr

/-- The member `EngineHelper<>::updateObject`, which calls
`testFilter<T_Filters...>`. -/
def Engine.updateObject (coming : TypeTag → Nat → Filter → Bool) (en : Engine)
    (p : ObjId) (o : Object) (p_remove : Bool) : Engine × List Event :=
  let r := testFilter (coming en.tag) en.tag p o p_remove 0 en.slots
  ({ en with slots := r.1 }, r.2)

/-- The member `EngineHelper<>::cleanTrash`, which calls
`cleanTrashOne<T_Filters...>`. -/
def Engine.cleanTrash (en : Engine) : Option Engine :=
  match cleanTrashOne en.slots with
  | some ss => some { en with slots := ss }
  | none => none

/-- The member `Engine::getEntities<T_Filter>()` for the requirement at
position `i`. -/
def Engine.getEntities (en : Engine) (i : Nat) : List Filter :=
  match en.slots[i]? with
  | some s => s.filters
  | none => []

/-! ## Scene.hpp -/

/-- The state of a program with one `dn::Scene`: the objects created by the
application (`heap`, an object that was never touched being empty and
unconnected), the members `_engines`, `_objects`, `_objectsNeedClean`,
`_started` of the scene, the outgoing edges of the scene notifier (the engine
notifiers, in connection order), the log of observed calls and the next
address `new` hands out for a component. -/
structure World where
  heap : ObjId → Object
  engines : List Engine
  notifiers : List TypeTag
  objects : List ObjId
  objectsNeedClean : List ObjId
  started : Bool
  log : List Event
  nextAddr : Addr

/-- A freshly constructed scene, no object having been touched. -/
def World.empty : World :=
  { heap := fun _ => { components := [], trash := [], notifiers := 0, trashNotifiers := 0 },
    engines := [], notifiers := [], objects := [], objectsNeedClean := [],
    started := false, log := [], nextAddr := 0 }

/-- The store of `o` at the address `p`. -/
def World.setObject (w : World) (p : ObjId) (o : Object) : World :=
  { w with heap := fun q => if q = p then o else w.heap q }

/-- A loop `for (auto &&engine : this->_engines)` whose body is `f`. -/
def forEngines (f : Engine → Engine × List Event) : List Engine → List Engine × List Event
  | [] => ([], [])
  | en :: es => ((f en).1 :: (forEngines f es).1, (f en).2 ++ (forEngines f es).2)

/-- The call of `f` on the engine an edge of the scene notifier leads to. -/
def atEngine (f : Engine → Engine × List Event) (t : TypeTag) :
    List Engine → List Engine × List Event
  | [] => ([], [])
  | en :: es =>
    if en.tag = t then ((f en).1 :: es, (f en).2)
    else (en :: (atEngine f t es).1, (atEngine f t es).2)

/-- The call `notify(p)` on the scene notifier: it has no callback of its own
and forwards to the engine notifiers in connection order, whose callback is
`updateObject(p)`. -/
def notifyScene (coming : TypeTag → Nat → Filter → Bool) (p : ObjId) (o : Object) :
    List TypeTag → List Engine → List Engine × List Event
  | [], es => (es, [])
  | t :: ts, es =>
    let r := atEngine (fun en => en.updateObject coming p o false) t es
    let r1 := notifyScene coming p o ts r.1
    (r1.1, r.2 ++ r1.2)

/-- The call `notifier().notify(this)` on an object whose notifier has `n`
edges to the scene notifier. -/
def notifyObject (coming : TypeTag → Nat → Filter → Bool) (p : ObjId) (o : Object)
    (ns : List TypeTag) : Nat → List Engine → List Engine × List Event
  | 0, es => (es, [])
  | n + 1, es =>
    let r := notifyScene coming p o ns es
    let r1 := notifyObject coming p o ns n r.1
    (r1.1, r.2 ++ r1.2)

/-- The callback the constructor of `Scene` registers on `_trashNotifier`. -/
def trashCallback (p : ObjId) (p_state : Bool) (l : List ObjId) : List ObjId :=
  if p_state then l ++ [p] else l.erase p

/-- The call `_trashNotifier.notify(this, p_state)` on an object whose trash
notifier has `n` edges to the trash notifier of the scene. -/
def notifyTrash (p : ObjId) (p_state : Bool) : Nat → List ObjId → List ObjId
  | 0, l => l
  | n + 1, l => notifyTrash p p_state n (trashCallback p p_state l)

/-- Delivery, in order, of the notifications raised by the object at `p`. -/
def World.deliver (coming : TypeTag → Nat → Filter → Bool) (w : World) (p : ObjId) :
    List Notice → World
  | [] => w
  | Notice.changed :: ns =>
    let r := notifyObject coming p (w.heap p) w.notifiers (w.heap p).notifiers w.engines
    World.deliver coming { w with engines := r.1, log := w.log ++ r.2 } p ns
  | Notice.trash b :: ns =>
    World.deliver coming
      { w with objectsNeedClean :=
          notifyTrash p b (w.heap p).trashNotifiers w.objectsNeedClean } p ns

/-- A call `p->addComponent<T>(args...)`. -/
def World.addComponent (coming : TypeTag → Nat → Filter → Bool) (w : World) (p : ObjId)
    (t : TypeTag) (payload : Nat) : World × Component :=
  let r := (w.heap p).addComponent t w.nextAddr payload
  (({ w.setObject p r.1 with nextAddr := w.nextAddr + 1 }).deliver coming p r.2.2, r.2.1)

/-- A call `p->removeComponent<T>()`. -/
def World.removeComponent (coming : TypeTag → Nat → Filter → Bool) (w : World) (p : ObjId)
    (t : TypeTag) : World × Bool :=
  let r := (w.heap p).removeComponent t
  ((w.setObject p r.1).deliver coming p r.2.2, r.2.1)

/-- A call `p->getComponent<T>()->setActive(b)`. -/
def World.setActive (coming : TypeTag → Nat → Filter → Bool) (w : World) (p : ObjId)
    (t : TypeTag) (b : Bool) : Option World :=
  match (w.heap p).setActive t b with
  | none => none
  | some r => some ((w.setObject p r.1).deliver coming p r.2)

/-- The member `Scene::addObject`. -/
def World.addObject (coming : TypeTag → Nat → Filter → Bool) (w : World) (p : ObjId) : World :=
  if p ∈ w.objects then w
  else
    let o := w.heap p
    let o1 : Object :=
      { o with notifiers := o.notifiers + 1, trashNotifiers := o.trashNotifiers + 1 }
    let r := forEngines (fun en => en.updateObject coming p o1 false) w.engines
    { w.setObject p o1 with
      objects := w.objects ++ [p], engines := r.1, log := w.log ++ r.2 }

/-- The member `Scene::removeObject`. -/
def World.removeObject (coming : TypeTag → Nat → Filter → Bool) (w : World) (p : ObjId) :
    World :=
  if p ∈ w.objects then
    let r := forEngines (fun en => en.updateObject coming p (w.heap p) true) w.engines
    { w with engines := r.1, log := w.log ++ r.2, objects := w.objects.erase p }
  else w

/-- A default-constructed `T_Engine` with the requirements `reqs`. -/
def newEngine (tag : TypeTag) (reqs : List (List TypeTag)) : Engine :=
  { tag := tag, slots := reqs.map fun r => { req := r, filters := [], trash := [] } }

/-- The insertion `_engines.emplace(key, engine)` into the map, kept in key
order. -/
def insertEngine (en : Engine) : List Engine → List Engine
  | [] => [en]
  | x :: xs => if en.tag < x.tag then en :: x :: xs else x :: insertEngine en xs

/-- The loop `for (auto &&obj : this->_objects) engine->updateObject(obj)` of
`Scene::addEngine`. -/
def updateObjects (coming : TypeTag → Nat → Filter → Bool) (heap : ObjId → Object) :
    List ObjId → Engine → Engine × List Event
  | [], en => (en, [])
  | p :: ps, en =>
    let r := en.updateObject coming p (heap p) false
    let r1 := updateObjects coming heap ps r.1
    (r1.1, r.2 ++ r1.2)

/-- The member `Scene::addEngine<T_Engine>`. -/
def World.addEngine (coming : TypeTag → Nat → Filter → Bool) (w : World) (tag : TypeTag)
    (reqs : List (List TypeTag)) : World :=
  if w.engines.any (fun en => decide (en.tag = tag)) then w
  else
    let r := updateObjects coming w.heap w.objects (newEngine tag reqs)
    { w with
      notifiers := w.notifiers ++ [tag], engines := insertEngine r.1 w.engines,
      log := w.log ++ r.2 ++ (if w.started then [Event.onStart tag] else []) }

/-- The member `Scene::start`. -/
def World.start (w : World) : World :=
  if w.started then w
  else { w with log := w.log ++ w.engines.map (fun en => Event.onStart en.tag), started := true }

/-- The first loop of `Scene::update`: `onUpdate()` then `cleanTrash()` for each
engine. -/
def flushEngines : List Engine → Option (List Engine × List Event)
  | [] => some ([], [])
  | en :: es =>
    match en.cleanTrash with
    | none => none
    | some en1 =>
      match flushEngines es with
      | none => none
      | some r => some (en1 :: r.1, Event.onUpdate en.tag :: Event.engineCleanTrash en.tag :: r.2)

/-- The second loop of `Scene::update`: `object->cleanTrash()` for each entry
of `_objectsNeedClean`. -/
def cleanObjects (heap : ObjId → Object) :
    List ObjId → Option ((ObjId → Object) × List Event)
  | [] => some (heap, [])
  | p :: ps =>
    match (heap p).cleanTrash with
    | none => none
    | some o =>
      match cleanObjects (fun q => if q = p then o else heap q) ps with
      | none => none
      | some r => some (r.1, Event.objectCleanTrash p :: r.2)

/-- The member `Scene::update`. -/
def World.update (w : World) : Option World :=
  if !w.started then some w
  else
    match flushEngines w.engines with
    | none => none
    | some r =>
      match cleanObjects w.heap w.objectsNeedClean with
      | none => none
      | some r1 =>
        some { w with
          engines := r.1, heap := r1.1, objectsNeedClean := [], log := w.log ++ r.2 ++ r1.2 }

/-- The calls application code makes on the scene and on its objects. -/
inductive Op where
  | addEngine (tag : TypeTag) (reqs : List (List TypeTag))
  | start
  | update
  | addObject (p : ObjId)
  | removeObject (p : ObjId)
  | addComponent (p : ObjId) (t : TypeTag) (payload : Nat)
  | removeComponent (p : ObjId) (t : TypeTag)
  | setActive (p : ObjId) (t : TypeTag) (b : Bool)
deriving DecidableEq, Repr

/-- One call; `none` when it runs into undefined behaviour. -/
def World.step (coming : TypeTag → Nat → Filter → Bool) (w : World) : Op → Option World
  | Op.addEngine tag reqs => some (w.addEngine coming tag reqs)
  | Op.start => some w.start
  | Op.update => w.update
  | Op.addObject p => some (w.addObject coming p)
  | Op.removeObject p => some (w.removeObject coming p)
  | Op.addComponent p t payload => some (w.addComponent coming p t payload).1
  | Op.removeComponent p t => some (w.removeComponent coming p t).1
  | Op.setActive p t b => w.setActive coming p t b

/-- A sequence of calls, left to right. -/
def World.run (coming : TypeTag → Nat → Filter → Bool) (w : World) : List Op → Option World
  | [] => some w
  | op :: ops =>
    match w.step coming op with
    | none => none
    | some w1 => World.run coming w1 ops

/-- The engine of type `tag` in the scene, as `Scene::getEngine<T_Engine>`
looks it up. -/
def World.getEngine (w : World) (tag : TypeTag) : Option Engine :=
  w.engines.find? fun en => decide (en.tag = tag)

/-- The result of `getEngine<T_Engine>()->getEntities<T_Filter>()` for the
requirement at position `i`; empty when there is no such engine. -/
def World.getEntities (w : World) (tag : TypeTag) (i : Nat) : List Filter :=
  match w.getEngine tag with
  | some en => en.getEntities i
  | none => []

/-! ## Vocabulary of the statements and concrete inputs -/

/-- The engine type and requirement position a per-requirement hook call
belongs to. -/
def Event.site : Event → Option (TypeTag × Nat)
  | Event.coming e i _ => some (e, i)
  | Event.added e i _ => some (e, i)
  | Event.removed e i _ => some (e, i)
  | _ => none

/-- No filter of the slot was generated for the object `p`. -/
def Slot.noObject (p : ObjId) (s : Slot) : Prop :=
  ∀ f ∈ s.filters, f.object ≠ p

/-- The event is neither an added nor a removed call of requirement `i` of
engine `e` for a filter of the object `p`. -/
def Event.silentFor (e : TypeTag) (i : Nat) (p : ObjId) (ev : Event) : Prop :=
  ∀ f : Filter, f.object = p → ev ≠ Event.added e i f ∧ ev ≠ Event.removed e i f

/-- Requirement `R` of an engine of type `E` holds no filter of the object `O`. -/
def Engine.noObjectAt (E : TypeTag) (R : Nat) (O : ObjId) (en : Engine) : Prop :=
  en.tag = E → ∀ s, en.slots[R]? = some s → s.noObject O

/-- No engine of type `E` holds a filter of `O` for its requirement `R`, and no
added or removed call of that requirement for a filter of `O` is in the log. -/
def World.vetoed (E : TypeTag) (R : Nat) (O : ObjId) (w : World) : Prop :=
  (∀ en ∈ w.engines, en.noObjectAt E R O) ∧ ∀ ev ∈ w.log, ev.silentFor E R O

/-- The added calls of requirement `i` of the engine of type `e`. -/
def Event.isAdded (e : TypeTag) (i : Nat) : Event → Bool
  | Event.added e1 i1 _ => decide (e1 = e ∧ i1 = i)
  | _ => false

/-- The removed calls of requirement `i` of the engine of type `e`. -/
def Event.isRemoved (e : TypeTag) (i : Nat) : Event → Bool
  | Event.removed e1 i1 _ => decide (e1 = e ∧ i1 = i)
  | _ => false

/-- The default hooks: `onObjectComing` returns `true`. -/
def acceptAll : TypeTag → Nat → Filter → Bool :=
  fun _ _ _ => true

/-- An engine whose `onObjectComing` override for its first requirement returns
`false`, the other requirements keeping the default. -/
def vetoFirst : TypeTag → Nat → Filter → Bool :=
  fun _ i _ => decide (i ≠ 0)

/-- An engine whose `onObjectComing` overrides return `false` for the filters of
object `0` and `true` for the others. -/
def vetoObjectZero : TypeTag → Nat → Filter → Bool :=
  fun _ _ f => decide (f.object ≠ 0)

/-- An engine of type `7` over the requirements `{1}` and `{2}`, and an object
`0` of the scene that receives a component of type `1`, then one of type `2`. -/
def twoRequirementOps : List Op :=
  [Op.addEngine 7 [[1], [2]], Op.addObject 0, Op.addComponent 0 1 0, Op.addComponent 0 2 0]

/-- An engine of type `7` over the requirements `{1}` and `{1, 2}`, and an object
`0` of the scene that holds only a component of type `1`. -/
def reactivityOps : List Op :=
  [Op.addEngine 7 [[1], [1, 2]], Op.addObject 0, Op.addComponent 0 1 0]

/-- A started scene with an engine of type `7` over the requirement `{1}` and
three objects holding a component of type `1`; the component is then removed
from object `0`, then from object `1`. -/
def twoRetiredOps : List Op :=
  [Op.addEngine 7 [[1]], Op.start, Op.addObject 0, Op.addObject 1, Op.addObject 2,
   Op.addComponent 0 1 0, Op.addComponent 1 1 0, Op.addComponent 2 1 0,
   Op.removeComponent 0 1, Op.removeComponent 1 1]

/-- An object that holds a component of type `1` whose removal is queued: a
new object after `addComponent<T>()` and `removeComponent<T>()`. -/
def queuedObject : Object :=
  (((⟨[], [], 0, 0⟩ : Object).addComponent 1 10 42).1.removeComponent 1).1

/-- The started scene with one engine of type `e` whose only requirement is
the single component type `a`. -/
def scenarioScene (coming : TypeTag → Nat → Filter → Bool) (e a : TypeTag) : World :=
  (World.empty.addEngine coming e [[a]]).start

/-- The keys of the map are pairwise distinct, as in a `std::map`. -/
def keysDistinct (cs : List (TypeTag × Component)) : Prop :=
  (cs.map Prod.fst).Nodup

/-- The object list has no repetition and no two engines have the same type. -/
def World.registeredOnce (w : World) : Prop :=
  w.objects.Nodup ∧ (w.engines.map Engine.tag).Nodup

/-- The slot holds at most one active filter for each object. -/
def Slot.atMostOne (s : Slot) : Prop :=
  ∀ p : ObjId, s.filters.countP (isActiveFor p) ≤ 1

/-- Each requirement of the engine holds at most one active filter for each
object. -/
def Engine.atMostOne (en : Engine) : Prop :=
  ∀ s ∈ en.slots, s.atMostOne

/-- The captured pointer `a` is non-null and designates the instance stored in
`o` for the type `t`, and that instance is active. -/
def slotIntact (o : Object) (t : TypeTag) (a : Option Addr) : Bool :=
  match a, o.getComponent t with
  | some x, some c => decide (c.addr = x) && c.active
  | _, _ => false

/-- Every captured slot of the filter is non-null, still stored in the object
`o` and active; `req` lists the component types of the slots. -/
def Filter.intact (o : Object) (req : List TypeTag) (f : Filter) : Bool :=
  decide (f.components.length = req.length) &&
    (List.zip req f.components).all fun x => slotIntact o x.1 x.2

/-- A started scene with two engines, of types `7` and `8`. -/
def twoEngineOps : List Op :=
  [Op.addEngine 7 [[1]], Op.addEngine 8 [[1]], Op.start]

/-- A started scene with an engine of type `7` over the requirement `{1}` and
an object `0` whose component of type `1` is removed twice, attached again,
and the scene updated. -/
def reattachOps : List Op :=
  [Op.addEngine 7 [[1]], Op.start, Op.addObject 0, Op.addComponent 0 1 0,
   Op.removeComponent 0 1, Op.removeComponent 0 1, Op.addComponent 0 1 0, Op.update]

/-- A started scene with an engine of type `7` over the requirements `{3}` and
`{1, 2}` and an object `0` that receives components of types `1`, `2`, `3`;
the component of type `2` is then removed and the scene updated. -/
def staleFilterOps : List Op :=
  [Op.addEngine 7 [[3], [1, 2]], Op.start, Op.addObject 0, Op.addComponent 0 1 0,
   Op.addComponent 0 2 0, Op.addComponent 0 3 0, Op.removeComponent 0 2, Op.update]

/-- The call is made by application code on an object or on the object list:
it is none of `addEngine`, `start`, `update`. -/
def Op.onObject : Op → Bool
  | Op.addEngine _ _ => false
  | Op.start => false
  | Op.update => false
  | _ => true

/-- The state of the scene-driven hooks: the engine types are pairwise
distinct; before `start` no `onStart` and no `onUpdate` call is in the log;
once started, each registered engine type has exactly one `onStart` call in
the log; and every `onStart` call in the log is that of a registered engine. -/
def World.lifecycle (w : World) : Prop :=
  (w.engines.map Engine.tag).Nodup ∧
  (w.started = false → ∀ ev ∈ w.log, ∀ e, ev ≠ Event.onStart e ∧ ev ≠ Event.onUpdate e) ∧
  (w.started = true → ∀ t ∈ w.engines.map Engine.tag, w.log.count (Event.onStart t) = 1) ∧
  (∀ e, Event.onStart e ∈ w.log → e ∈ w.engines.map Engine.tag)

/-! ### What `removeObject` is to achieve, as the specification words it -/

/-- Every active filter of the object `p` deactivated, the others as they
were. -/
def retireAll (p : ObjId) (fs : List Filter) : List Filter :=
  fs.map fun f => if isActiveFor p f then { f with active := false } else f

/-- The positions, from `k` on, of the active filters of the object `p`. -/
def activePositions (p : ObjId) : Nat → List Filter → List Nat
  | _, [] => []
  | k, f :: fs => (if isActiveFor p f then [k] else []) ++ activePositions p (k + 1) fs

/-- The slot once the object `p` is retired from it: its active filters are
deactivated and their positions queued. -/
def Slot.retired (p : ObjId) (s : Slot) : Slot :=
  { s with filters := retireAll p s.filters, trash := s.trash ++ activePositions p 0 s.filters }

/-- One removed call for each active filter of the object `p` in the slot,
given the deactivated filter. -/
def Slot.removedCalls (e : TypeTag) (i : Nat) (p : ObjId) (s : Slot) : List Event :=
  (s.filters.filter (isActiveFor p)).map fun f => Event.removed e i { f with active := false }

/-- The removed calls of the slots of an engine, the head slot being the
requirement at position `i`. -/
def removedCallsFrom (e : TypeTag) (p : ObjId) : Nat → List Slot → List Event
  | _, [] => []
  | i, s :: rest => s.removedCalls e i p ++ removedCallsFrom e p (i + 1) rest

/-- The engine once the object `p` is retired from each of its requirements. -/
def Engine.retired (p : ObjId) (en : Engine) : Engine :=
  { en with slots := en.slots.map (Slot.retired p) }

/-- The removed calls an engine makes when the object `p` is retired from it. -/
def Engine.removedCalls (p : ObjId) (en : Engine) : List Event :=
  removedCallsFrom en.tag p 0 en.slots

/-! ## Notifier.hpp -/

/-- A `dn::Notifier<T_Args...>`: whether `_notifyCallback` is set, the vector
`_notifiers` of the notifiers it notifies and the vector `_notifiedBy` of those
that notify it, a pointer to a notifier being its number. -/
structure Notifier where
  callback : Bool
  notifiers : List Nat
  notifiedBy : List Nat
deriving DecidableEq, Repr

/-- The notifiers of a program, by address. -/
abbrev Net := Nat → Notifier

/-- No notifier has a callback or an edge. -/
def Net.empty : Net :=
  fun _ => { callback := false, notifiers := [], notifiedBy := [] }

/-- The store of the notifier `x` at the address `n`. -/
def Net.set (g : Net) (n : Nat) (x : Notifier) : Net :=
  fun m => if m = n then x else g m

/-- The member `Notifier::connect`, called on `a` with `p_notifier = b`. -/
def Net.connect (g : Net) (a b : Nat) : Net :=
  let g1 := g.set a { g a with notifiers := (g a).notifiers ++ [b] }
  g1.set b { g1 b with notifiedBy := (g1 b).notifiedBy ++ [a] }

/-- The member `Notifier::disconnect`, called on `a` with `p_notifier = b`.
The iterator `it` is a position in `_notifiers`.  The expression
`it->_notifiedBy` of the source, `it` being an iterator over pointers, is read
as `(*it)->_notifiedBy`; it is evaluated after `_notifiers.erase(it)`, when `it`
designates the element that followed the erased one, and the result is `none`
when `it` is then past the end. -/
def Net.disconnect (g : Net) (a b : Nat) : Option Net :=
  let it := (g a).notifiers.findIdx (fun x => decide (x = b))
  if it = (g a).notifiers.length then some g
  else
    let g1 := g.set a { g a with notifiers := (g a).notifiers.eraseIdx it }
    match (g1 a).notifiers[it]? with
    | none => none
    | some c => some (g1.set c { g1 c with notifiedBy := (g1 c).notifiedBy.erase a })

/-- The loop of the destructor `Notifier::~Notifier`: for each entry of
`_notifiedBy`, the first occurrence of `this` is erased from `_notifiers` of
that notifier. -/
def unregisterFrom (n : Nat) : List Nat → Net → Net
  | [], g => g
  | m :: ms, g => unregisterFrom n ms (g.set m { g m with notifiers := (g m).notifiers.erase n })

/-- The destructor `Notifier::~Notifier` of the notifier `n`; the entry of `n`
itself is what the destructor leaves behind and belongs to no surviving
notifier. -/
def Net.destroy (g : Net) (n : Nat) : Net :=
  unregisterFrom n (g n).notifiedBy g

/-- The call of `_notifyCallback` of the notifier `n` with the argument `a`,
when it is set. -/
def ownCall {α : Type} (g : Net) (a : α) (n : Nat) : List (Nat × α) :=
  if (g n).callback then [(n, a)] else []

/-- A loop `for (auto &&notifier : this->_notifiers)` whose body `f` returns the
callback calls it makes, or `none` when it does not return. -/
def forEachEdge {β : Type} (f : Nat → Option (List β)) : List Nat → Option (List β)
  | [] => some []
  | m :: ms =>
    match f m with
    | none => none
    | some t =>
      match forEachEdge f ms with
      | none => none
      | some ts => some (t ++ ts)

/-- The member `Notifier::notify` called on `n` with the argument `a`: the
callback calls made, in order, each with the notifier that owns the callback
and the argument passed.  The first argument bounds the depth of the
recursion; `none` when it is exhausted. -/
def notify {α : Type} (g : Net) (a : α) : Nat → Nat → Option (List (Nat × α))
  | 0, _ => none
  | fuel + 1, n =>
    match forEachEdge (notify g a fuel) (g n).notifiers with
    | none => none
    | some t => some (ownCall g a n ++ t)

/-- The member `Notifier::notifyLast`, as `notify`. -/
def notifyLast {α : Type} (g : Net) (a : α) : Nat → Nat → Option (List (Nat × α))
  | 0, _ => none
  | fuel + 1, n =>
    match forEachEdge (notifyLast g a fuel) (g n).notifiers with
    | none => none
    | some t => some (t ++ ownCall g a n)

mutual
/-- The order the specification gives to `notify`: the callback of the node
first, then the whole sequence of each outgoing edge, in insertion order. -/
inductive PreOrder {α : Type} (g : Net) (a : α) : Nat → List (Nat × α) → Prop
  | node (n : Nat) (ts : List (Nat × α)) :
      PreOrderEach g a (g n).notifiers ts → PreOrder g a n (ownCall g a n ++ ts)
/-- The sequences of a list of edge targets, one after the other. -/
inductive PreOrderEach {α : Type} (g : Net) (a : α) : List Nat → List (Nat × α) → Prop
  | nil : PreOrderEach g a [] []
  | cons (m : Nat) (ms : List Nat) (t ts : List (Nat × α)) :
      PreOrder g a m t → PreOrderEach g a ms ts → PreOrderEach g a (m :: ms) (t ++ ts)
end

mutual
/-- The order the specification gives to `notifyLast`: the whole sequence of
each outgoing edge first, in insertion order, the callback of the node last. -/
inductive PostOrder {α : Type} (g : Net) (a : α) : Nat → List (Nat × α) → Prop
  | node (n : Nat) (ts : List (Nat × α)) :
      PostOrderEach g a (g n).notifiers ts → PostOrder g a n (ts ++ ownCall g a n)
/-- The sequences of a list of edge targets, one after the other. -/
inductive PostOrderEach {α : Type} (g : Net) (a : α) : List Nat → List (Nat × α) → Prop
  | nil : PostOrderEach g a [] []
  | cons (m : Nat) (ms : List Nat) (t ts : List (Nat × α)) :
      PostOrder g a m t → PostOrderEach g a ms ts → PostOrderEach g a (m :: ms) (t ++ ts)
end

/-- The number of paths from `n` to `m` that follow fewer than `fuel` edges, an
edge that is stored twice counting twice. -/
def pathCount (g : Net) : Nat → Nat → Nat → Nat
  | 0, _, _ => 0
  | fuel + 1, n, m =>
    (if n = m then 1 else 0) + ((g n).notifiers.map fun b => pathCount g fuel b m).sum

/-- The notifiers `0`, `1`, `2` after `0.connect(1)` and `0.connect(2)`. -/
def fanNet : Net :=
  (Net.empty.connect 0 1).connect 0 2

/-- A diamond `0 → 1 → 3`, `0 → 2 → 3` in which every notifier has a callback. -/
def diamondNet : Net :=
  let g : Net := fun _ => { callback := true, notifiers := [], notifiedBy := [] }
  (((g.connect 0 1).connect 0 2).connect 1 3).connect 2 3

/-! ## Calls made when components are freed -/

/-- A call made by `Object::cleanTrash` or by the destructor of an object: the
virtual `Object::onDestroy`, the virtual `Component::onDestroy`, and `delete`
of a component, whose destructor body is empty. -/
inductive Call where
  | objectOnDestroy (p : ObjId)
  | componentOnDestroy (a : Addr)
  | deleteComponent (a : Addr)
deriving DecidableEq, Repr

/-- The calls made by the loop of `Object::cleanTrash`, along `eraseNodes`. -/
def eraseNodesCalls : List (TypeTag × Component) → List TypeTag → Option (List Call)
  | _, [] => some []
  | cs, t :: ts =>
    match find t cs with
    | some c =>
      match eraseNodesCalls (eraseKey t cs) ts with
      | some calls => some (Call.deleteComponent c.addr :: calls)
      | none => none
    | none => none

/-- The calls made by `Object::cleanTrash()`. -/
def Object.cleanTrashCalls (o : Object) : Option (List Call) :=
  eraseNodesCalls o.components o.trash

/-- The calls made by the destructor `Object::~Object` of the object at `p`:
`this->onDestroy()`, then `delete` of each stored component. -/
def Object.destroyCalls (p : ObjId) (o : Object) : List Call :=
  Call.objectOnDestroy p :: o.components.map fun x => Call.deleteComponent x.2.addr

/-- The edge relation is mutually consistent: `b` is in `_notifiers` of `a` as
many times as `a` is in `_notifiedBy` of `b`. -/
def Net.consistent (g : Net) : Prop :=
  ∀ a b : Nat, (g a).notifiers.count b = (g b).notifiedBy.count a

/-- A rank for `diamondNet` that every edge goes down. -/
def diamondRank : Nat → Nat :=
  fun n => if n = 0 then 2 else if n = 3 then 0 else 1

/-! ### The calls on one object -/

/-- The calls application code makes on one object and on its components;
`fresh` is the address `new` returns when `addComponent` builds an instance. -/
inductive ObjectOp where
  | addComponent (t : TypeTag) (fresh : Addr) (payload : Nat)
  | removeComponent (t : TypeTag)
  | cleanTrash
  | setActive (t : TypeTag) (b : Bool)
deriving DecidableEq, Repr

/-- A default-constructed `dn::Object`, connected to nothing. -/
def Object.created : Object :=
  { components := [], trash := [], notifiers := 0, trashNotifiers := 0 }

/-- One call on the object; `none` when it runs into undefined behaviour. -/
def Object.step (o : Object) : ObjectOp → Option Object
  | ObjectOp.addComponent t fresh payload => some (o.addComponent t fresh payload).1
  | ObjectOp.removeComponent t => some (o.removeComponent t).1
  | ObjectOp.cleanTrash => o.cleanTrash
  | ObjectOp.setActive t b =>
    match o.setActive t b with
    | some r => some r.1
    | none => none

/-- A sequence of calls on the object, left to right. -/
def Object.run (o : Object) : List ObjectOp → Option Object
  | [] => some o
  | op :: ops =>
    match o.step op with
    | none => none
    | some o1 => Object.run o1 ops

/-- The component of type `t`, when it is stored and inactive, is queued in the
trash. -/
def Object.inactiveQueuedAt (t : TypeTag) (o : Object) : Prop :=
  ∀ c : Component, o.getComponent t = some c → c.active = false → t ∈ o.trash

/-- Every component that is stored and inactive is queued in the trash. -/
def Object.inactiveQueued (o : Object) : Prop :=
  ∀ t : TypeTag, o.inactiveQueuedAt t

/-- Every entry of the trash refers to a component that is stored. -/
def Object.trashStored (o : Object) : Prop :=
  ∀ t ∈ o.trash, o.getComponent t ≠ none

/-- A scene with an engine of type `7` over the requirement `{1}` and an object
`0` that holds a component of type `1`, is added to the scene and then removed
from it. -/
def removedObjectOps : List Op :=
  [Op.addEngine 7 [[1]], Op.addObject 0, Op.addComponent 0 1 0, Op.removeObject 0]

/-- An object `0` that is added to the scene, removed, added again, and whose
component of type `1` is then attached and removed. -/
def reAddedOps : List Op :=
  [Op.addObject 0, Op.removeObject 0, Op.addObject 0, Op.addComponent 0 1 0,
   Op.removeComponent 0 1]

/-- A started scene and an object `0` that is added to it once and whose
component of type `1` is attached, then removed twice. -/
def doubleRemoveOps : List Op :=
  [Op.start, Op.addObject 0, Op.addComponent 0 1 0, Op.removeComponent 0 1,
   Op.removeComponent 0 1]

/-- The effect on `_objectsNeedClean` of the trash notifications among `ns`,
raised by the object `p` whose trash notifier has `n` edges to the scene. -/
def trashNotices (p : ObjId) (n : Nat) : List Notice → List ObjId → List ObjId
  | [], l => l
  | Notice.changed :: ns, l => trashNotices p n ns l
  | Notice.trash b :: ns, l => trashNotices p n ns (notifyTrash p b n l)

/-- The object `O` has not been added to the scene yet: it is not in the
object list, its trash notifier has no edge, its trash is empty and it is not
in the pending-cleanup list. -/
def World.unregistered (O : ObjId) (w : World) : Prop :=
  O ∉ w.objects ∧ (w.heap O).trashNotifiers = 0 ∧ (w.heap O).trash = [] ∧
    w.objectsNeedClean.count O = 0

/-- The object `O` is registered, its trash notifier has one edge to the
scene, and it occurs in the pending-cleanup list as many times as its trash
has entries. -/
def World.trashBalanced (O : ObjId) (w : World) : Prop :=
  O ∈ w.objects ∧ (w.heap O).trashNotifiers = 1 ∧
    w.objectsNeedClean.count O = (w.heap O).trash.length

/-! ## Theorems -/

/-! ### The object store -/

theorem find_setActiveAt_self (t : TypeTag) (b : Bool) (cs : List (TypeTag × Component)) :
    find t (setActiveAt t b cs) = (find t cs).map fun c => c.setActive b := by
  induction cs with
  | nil => rfl
  | cons x cs ih =>
    obtain ⟨k, c⟩ := x
    by_cases hk : k = t
    · simp [find, setActiveAt, hk]
    · simp [find, setActiveAt, hk, ih]

theorem find_setActiveAt_other (t u : TypeTag) (b : Bool) (cs : List (TypeTag × Component))
    (h : u ≠ t) : find u (setActiveAt t b cs) = find u cs := by
  induction cs with
  | nil => rfl
  | cons x cs ih =>
    obtain ⟨k, c⟩ := x
    by_cases hk : k = t
    · subst hk
      simp [find, setActiveAt, Ne.symm h]
    · by_cases hu : k = u
      · subst hu
        simp [find, setActiveAt, hk]
      · simp [find, setActiveAt, hk, hu, ih]

/-- C7. Idempotent attach: when the object holds an active component of type
`t`, `addComponent` returns that stored instance, leaves the object as it was
(component mapping, component state and trash queue), and raises no
notification, neither on the notifier nor on the trash notifier. -/
theorem addComponent_active_noop (o : Object) (t : TypeTag) (c : Component)
    (fresh : Addr) (payload : Nat)
    (hc : o.getComponent t = some c) (ha : c.active = true) :
    o.addComponent t fresh payload = (o, c, []) := by
  unfold Object.getComponent at hc
  simp [Object.addComponent, hc, ha]

theorem addComponent_active_noop_witness :
    (⟨[(3, ⟨10, true, 42⟩)], [], 1, 1⟩ : Object).addComponent 3 11 7
      = (⟨[(3, ⟨10, true, 42⟩)], [], 1, 1⟩, ⟨10, true, 42⟩, []) :=
  addComponent_active_noop ⟨[(3, ⟨10, true, 42⟩)], [], 1, 1⟩ 3 ⟨10, true, 42⟩ 11 7
    (by decide) (by decide)

/-- C9. `removeComponent` reports `true` exactly when an entry of type `t` is
stored, and on an object with no such entry it returns `false`, leaves the
object as it was (component mapping and trash queue) and raises no
notification, neither on the notifier nor on the trash notifier. -/
theorem removeComponent_absent_noop (o : Object) (t : TypeTag) :
    ((o.removeComponent t).2.1 = true ↔ ∃ c, o.getComponent t = some c) ∧
    (o.getComponent t = none → o.removeComponent t = (o, false, [])) := by
  unfold Object.getComponent Object.removeComponent
  cases h : find t o.components <;> simp

theorem removeComponent_absent_noop_witness :
    (((⟨[(3, ⟨10, true, 42⟩)], [], 1, 1⟩ : Object).removeComponent 4).2.1 = true ↔
      ∃ c, (⟨[(3, ⟨10, true, 42⟩)], [], 1, 1⟩ : Object).getComponent 4 = some c) ∧
    ((⟨[(3, ⟨10, true, 42⟩)], [], 1, 1⟩ : Object).getComponent 4 = none →
      (⟨[(3, ⟨10, true, 42⟩)], [], 1, 1⟩ : Object).removeComponent 4
        = (⟨[(3, ⟨10, true, 42⟩)], [], 1, 1⟩, false, [])) :=
  removeComponent_absent_noop ⟨[(3, ⟨10, true, 42⟩)], [], 1, 1⟩ 4

/-- C10. `passFilter` holds exactly when every required component type has an
instance stored in the object that is active; it holds for the empty
requirement, and it fails once a required component has been removed, flushed
or not. -/
theorem passFilter_iff (req : List TypeTag) (o : Object) :
    (passFilter req o = true ↔
      ∀ t ∈ req, ∃ c, o.getComponent t = some c ∧ c.active = true) ∧
    passFilter [] o = true ∧
    (∀ t ∈ req, passFilter req (o.removeComponent t).1 = false) := by
  have key : ∀ (o1 : Object), passFilter req o1 = true ↔
      ∀ t ∈ req, ∃ c, o1.getComponent t = some c ∧ c.active = true := by
    intro o1
    unfold passFilter
    rw [List.all_eq_true]
    constructor
    · intro h t ht
      have := h t ht
      cases hg : o1.getComponent t with
      | none => simp [hg, passFilterComponent] at this
      | some c => exact ⟨c, rfl, by simpa [hg, passFilterComponent] using this⟩
    · intro h t ht
      obtain ⟨c, hc, ha⟩ := h t ht
      simp [hc, passFilterComponent, ha]
  refine ⟨key o, rfl, ?_⟩
  intro t ht
  rw [Bool.eq_false_iff]
  intro hp
  obtain ⟨c, hc, ha⟩ := (key _).1 hp t ht
  unfold Object.getComponent Object.removeComponent at hc
  cases hf : find t o.components with
  | none => simp [hf] at hc
  | some c0 =>
    simp [hf, find_setActiveAt_self, Component.setActive] at hc
    rw [← hc] at ha
    simp at ha

theorem passFilter_iff_witness :
    3 ∈ [3, 4] ∧
    passFilter [3, 4]
      ((⟨[(3, ⟨10, true, 42⟩), (4, ⟨11, true, 0⟩)], [], 1, 1⟩ : Object).removeComponent 3).1
      = false :=
  ⟨by decide,
   (passFilter_iff [3, 4] ⟨[(3, ⟨10, true, 42⟩), (4, ⟨11, true, 0⟩)], [], 1, 1⟩).2.2 3
     (by decide)⟩

theorem find_eq_none_of_not_mem_keys (t : TypeTag) (cs : List (TypeTag × Component))
    (h : t ∉ cs.map Prod.fst) : find t cs = none := by
  induction cs with
  | nil => rfl
  | cons x cs ih =>
    obtain ⟨k, c⟩ := x
    simp only [List.map_cons, List.mem_cons, not_or] at h
    simp [find, Ne.symm h.1, ih h.2]

theorem mem_keys_eraseKey (t u : TypeTag) (cs : List (TypeTag × Component))
    (h : u ∈ (eraseKey t cs).map Prod.fst) : u ∈ cs.map Prod.fst := by
  induction cs with
  | nil => simp [eraseKey] at h
  | cons x cs ih =>
    obtain ⟨k, c⟩ := x
    by_cases hk : k = t
    · simp only [eraseKey, hk, if_true] at h
      exact List.mem_cons_of_mem _ h
    · simp only [eraseKey, hk, if_false, List.map_cons, List.mem_cons] at h
      rcases h with h | h
      · simp [h]
      · exact List.mem_cons_of_mem _ (ih h)

theorem keysDistinct_eraseKey (t : TypeTag) (cs : List (TypeTag × Component))
    (h : keysDistinct cs) : keysDistinct (eraseKey t cs) := by
  induction cs with
  | nil => simpa [eraseKey] using h
  | cons x cs ih =>
    obtain ⟨k, c⟩ := x
    unfold keysDistinct at h ih ⊢
    simp only [List.map_cons, List.nodup_cons] at h
    by_cases hk : k = t
    · simpa [eraseKey, hk] using h.2
    · simp only [eraseKey, hk, if_false, List.map_cons, List.nodup_cons]
      exact ⟨fun hm => h.1 (mem_keys_eraseKey t k cs hm), ih h.2⟩

theorem find_eraseKey_self (t : TypeTag) (cs : List (TypeTag × Component))
    (h : keysDistinct cs) : find t (eraseKey t cs) = none := by
  induction cs with
  | nil => rfl
  | cons x cs ih =>
    obtain ⟨k, c⟩ := x
    unfold keysDistinct at h ih
    simp only [List.map_cons, List.nodup_cons] at h
    by_cases hk : k = t
    · subst hk
      simp only [eraseKey, if_true]
      exact find_eq_none_of_not_mem_keys _ _ h.1
    · simp [eraseKey, find, hk, ih h.2]

theorem find_eraseKey_other (t u : TypeTag) (cs : List (TypeTag × Component))
    (h : u ≠ t) : find u (eraseKey t cs) = find u cs := by
  induction cs with
  | nil => rfl
  | cons x cs ih =>
    obtain ⟨k, c⟩ := x
    by_cases hk : k = t
    · subst hk
      simp [eraseKey, find, Ne.symm h]
    · by_cases hu : k = u
      · subst hu
        simp [eraseKey, find, hk]
      · simp [eraseKey, find, hk, hu, ih]

theorem keys_setActiveAt (t : TypeTag) (b : Bool) (cs : List (TypeTag × Component)) :
    (setActiveAt t b cs).map Prod.fst = cs.map Prod.fst := by
  induction cs with
  | nil => rfl
  | cons x cs ih =>
    obtain ⟨k, c⟩ := x
    by_cases hk : k = t
    · simp [setActiveAt, hk]
    · simp [setActiveAt, hk, ih]

/-- The loop of `cleanTrash` on a queue without repetition whose entries are
all stored: it ends, the queued types are gone and the others are untouched. -/
theorem eraseNodes_of_nodup (ts : List TypeTag) (cs : List (TypeTag × Component))
    (hk : keysDistinct cs) (hts : ts.Nodup) (hst : ∀ t ∈ ts, find t cs ≠ none) :
    ∃ cs1, eraseNodes cs ts = some cs1 ∧ keysDistinct cs1 ∧
      ∀ u, find u cs1 = if u ∈ ts then none else find u cs := by
  induction ts generalizing cs with
  | nil => exact ⟨cs, rfl, hk, by simp⟩
  | cons t ts ih =>
    simp only [List.nodup_cons] at hts
    have hft := hst t (List.mem_cons_self _ _)
    cases hf : find t cs with
    | none => exact absurd hf hft
    | some c =>
      have hst1 : ∀ u ∈ ts, find u (eraseKey t cs) ≠ none := by
        intro u hu
        have hne : u ≠ t := fun h => hts.1 (h ▸ hu)
        rw [find_eraseKey_other t u cs hne]
        exact hst u (List.mem_cons_of_mem _ hu)
      obtain ⟨cs1, h1, h2, h3⟩ := ih (eraseKey t cs) (keysDistinct_eraseKey t cs hk) hts.2 hst1
      refine ⟨cs1, by simp [eraseNodes, hf, h1], h2, ?_⟩
      intro u
      rw [h3 u]
      by_cases hut : u = t
      · subst hut
        simp [hts.1, find_eraseKey_self u cs hk]
      · by_cases hmem : u ∈ ts
        · simp [hmem]
        · simp [hmem, hut, find_eraseKey_other t u cs hut]

/-- Deferred deletion on an object whose queue has no repetition, holds only
stored types and does not hold `t` yet: after `removeComponent` the instance is
inactive and still stored; `cleanTrash` then ends, `getComponent` finds
nothing for `t`, the queue is empty and the types that were not queued keep
their instance. -/
theorem deferred_deletion_of_fresh_queue (o : Object) (t : TypeTag) (c : Component)
    (hk : keysDistinct o.components) (hts : o.trash.Nodup)
    (hst : ∀ u ∈ o.trash, o.getComponent u ≠ none)
    (hc : o.getComponent t = some c) (hq : t ∉ o.trash) :
    (o.removeComponent t).2.1 = true ∧
    (o.removeComponent t).1.getComponent t = some (c.setActive false) ∧
    ∃ o1, (o.removeComponent t).1.cleanTrash = some o1 ∧
      o1.getComponent t = none ∧ o1.trash = [] ∧
      ∀ u, u ≠ t → u ∉ o.trash → o1.getComponent u = o.getComponent u := by
  unfold Object.getComponent at hc hst
  have hrm : o.removeComponent t =
      ({ o with components := setActiveAt t false o.components, trash := o.trash ++ [t] },
        true, [Notice.trash true, Notice.changed]) := by
    simp [Object.removeComponent, hc]
  rw [hrm]
  refine ⟨rfl, ?_, ?_⟩
  · simp [Object.getComponent, find_setActiveAt_self, hc]
  · have hk1 : keysDistinct (setActiveAt t false o.components) := by
      unfold keysDistinct
      rw [keys_setActiveAt]
      exact hk
    have hts1 : (o.trash ++ [t]).Nodup := by
      rw [List.nodup_append]
      refine ⟨hts, by simp, ?_⟩
      intro a ha hb
      simp only [List.mem_singleton] at hb
      exact hq (hb ▸ ha)
    have hst1 : ∀ u ∈ o.trash ++ [t], find u (setActiveAt t false o.components) ≠ none := by
      intro u hu
      by_cases hut : u = t
      · subst hut
        simp [find_setActiveAt_self, hc]
      · rw [find_setActiveAt_other t u false _ hut]
        simp only [List.mem_append, List.mem_singleton] at hu
        rcases hu with hu | hu
        · exact hst u hu
        · exact absurd hu hut
    obtain ⟨cs1, h1, _, h3⟩ := eraseNodes_of_nodup _ _ hk1 hts1 hst1
    refine ⟨{ o with components := cs1, trash := [] }, by simp [Object.cleanTrash, h1], ?_, rfl, ?_⟩
    · simp [Object.getComponent, h3]
    · intro u hut hu
      simp [Object.getComponent, h3, hut, hu, find_setActiveAt_other t u false _ hut]

/-- Reactivation on an object whose queue does not hold `t` yet:
`removeComponent` followed by `addComponent` returns the stored instance with
its address and state, active again, and leaves the queue as it was. -/
theorem reactivation_of_fresh_queue (o : Object) (t : TypeTag) (c : Component)
    (fresh : Addr) (payload : Nat)
    (hc : o.getComponent t = some c) (hq : t ∉ o.trash) :
    ((o.removeComponent t).1.addComponent t fresh payload).2.1 = c.setActive true ∧
    ((o.removeComponent t).1.addComponent t fresh payload).1.getComponent t
      = some (c.setActive true) ∧
    ((o.removeComponent t).1.addComponent t fresh payload).1.trash = o.trash := by
  unfold Object.getComponent at hc
  have hrm : o.removeComponent t =
      ({ o with components := setActiveAt t false o.components, trash := o.trash ++ [t] },
        true, [Notice.trash true, Notice.changed]) := by
    simp [Object.removeComponent, hc]
  rw [hrm]
  have herase : (o.trash ++ [t]).erase t = o.trash := by
    rw [List.erase_append_right _ hq]
    simp
  simp [Object.addComponent, Object.getComponent, find_setActiveAt_self, hc,
    Component.setActive, herase]

/-! ### Traversals of the engine list -/

theorem forEngines_preserves {P : Engine → Prop} {G : Event → Prop}
    {f : Engine → Engine × List Event}
    (hf : ∀ en, P en → P (f en).1 ∧ ∀ ev ∈ (f en).2, G ev) (es : List Engine)
    (h : ∀ en ∈ es, P en) :
    (∀ en ∈ (forEngines f es).1, P en) ∧ ∀ ev ∈ (forEngines f es).2, G ev := by
  induction es with
  | nil => simp [forEngines]
  | cons en es ih =>
    have h1 := hf en (h en (List.mem_cons_self _ _))
    have h2 := ih (fun x hx => h x (List.mem_cons_of_mem _ hx))
    constructor
    · intro x hx
      simp only [forEngines, List.mem_cons] at hx
      rcases hx with rfl | hx
      · exact h1.1
      · exact h2.1 x hx
    · intro ev hev
      simp only [forEngines, List.mem_append] at hev
      rcases hev with hev | hev
      · exact h1.2 ev hev
      · exact h2.2 ev hev

theorem atEngine_preserves {P : Engine → Prop} {G : Event → Prop}
    {f : Engine → Engine × List Event}
    (hf : ∀ en, P en → P (f en).1 ∧ ∀ ev ∈ (f en).2, G ev) (t : TypeTag) (es : List Engine)
    (h : ∀ en ∈ es, P en) :
    (∀ en ∈ (atEngine f t es).1, P en) ∧ ∀ ev ∈ (atEngine f t es).2, G ev := by
  induction es with
  | nil => simp [atEngine]
  | cons en es ih =>
    have h1 := hf en (h en (List.mem_cons_self _ _))
    have h2 := ih (fun x hx => h x (List.mem_cons_of_mem _ hx))
    by_cases ht : en.tag = t
    · simp only [atEngine, ht, if_true]
      refine ⟨?_, h1.2⟩
      intro x hx
      rcases List.mem_cons.1 hx with rfl | hx
      · exact h1.1
      · exact h x (List.mem_cons_of_mem _ hx)
    · simp only [atEngine, ht, if_false]
      refine ⟨?_, h2.2⟩
      intro x hx
      rcases List.mem_cons.1 hx with rfl | hx
      · exact h _ (List.mem_cons_self _ _)
      · exact h2.1 x hx

theorem notifyScene_preserves {P : Engine → Prop} {G : Event → Prop}
    (coming : TypeTag → Nat → Filter → Bool) (p : ObjId) (o : Object)
    (hf : ∀ en, P en → P (en.updateObject coming p o false).1 ∧
      ∀ ev ∈ (en.updateObject coming p o false).2, G ev)
    (ts : List TypeTag) (es : List Engine) (h : ∀ en ∈ es, P en) :
    (∀ en ∈ (notifyScene coming p o ts es).1, P en) ∧
      ∀ ev ∈ (notifyScene coming p o ts es).2, G ev := by
  induction ts generalizing es with
  | nil => simpa [notifyScene] using h
  | cons t ts ih =>
    have h1 := atEngine_preserves hf t es h
    have h2 := ih _ h1.1
    refine ⟨h2.1, ?_⟩
    intro ev hev
    simp only [notifyScene, List.mem_append] at hev
    rcases hev with hev | hev
    · exact h1.2 ev hev
    · exact h2.2 ev hev

theorem notifyObject_preserves {P : Engine → Prop} {G : Event → Prop}
    (coming : TypeTag → Nat → Filter → Bool) (p : ObjId) (o : Object)
    (hf : ∀ en, P en → P (en.updateObject coming p o false).1 ∧
      ∀ ev ∈ (en.updateObject coming p o false).2, G ev)
    (ts : List TypeTag) (n : Nat) (es : List Engine) (h : ∀ en ∈ es, P en) :
    (∀ en ∈ (notifyObject coming p o ts n es).1, P en) ∧
      ∀ ev ∈ (notifyObject coming p o ts n es).2, G ev := by
  induction n generalizing es with
  | zero => simpa [notifyObject] using h
  | succ n ih =>
    have h1 := notifyScene_preserves coming p o hf ts es h
    have h2 := ih _ h1.1
    refine ⟨h2.1, ?_⟩
    intro ev hev
    simp only [notifyObject, List.mem_append] at hev
    rcases hev with hev | hev
    · exact h1.2 ev hev
    · exact h2.2 ev hev

theorem updateObjects_preserves {P : Engine → Prop} {G : Event → Prop}
    (coming : TypeTag → Nat → Filter → Bool) (heap : ObjId → Object)
    (hf : ∀ p en, P en → P (en.updateObject coming p (heap p) false).1 ∧
      ∀ ev ∈ (en.updateObject coming p (heap p) false).2, G ev)
    (ps : List ObjId) (en : Engine) (h : P en) :
    P (updateObjects coming heap ps en).1 ∧
      ∀ ev ∈ (updateObjects coming heap ps en).2, G ev := by
  induction ps generalizing en with
  | nil => simpa [updateObjects] using h
  | cons p ps ih =>
    have h1 := hf p en h
    have h2 := ih _ h1.1
    refine ⟨h2.1, ?_⟩
    intro ev hev
    simp only [updateObjects, List.mem_append] at hev
    rcases hev with hev | hev
    · exact h1.2 ev hev
    · exact h2.2 ev hev

theorem mem_insertEngine (en x : Engine) (es : List Engine) :
    x ∈ insertEngine en es ↔ x = en ∨ x ∈ es := by
  induction es with
  | nil => simp [insertEngine]
  | cons y ys ih =>
    by_cases hlt : en.tag < y.tag
    · simp [insertEngine, hlt]
    · simp only [insertEngine, hlt, if_false, List.mem_cons, ih]
      tauto

theorem flushEngines_preserves {P : Engine → Prop}
    (hf : ∀ en en1, en.cleanTrash = some en1 → P en → P en1) (es : List Engine)
    (r : List Engine × List Event) (hr : flushEngines es = some r) (h : ∀ en ∈ es, P en) :
    (∀ en ∈ r.1, P en) ∧ ∀ ev ∈ r.2, ev.site = none := by
  induction es generalizing r with
  | nil =>
    simp only [flushEngines, Option.some.injEq] at hr
    subst hr
    simp
  | cons en es ih =>
    simp only [flushEngines] at hr
    cases hc : en.cleanTrash with
    | none => simp [hc] at hr
    | some en1 =>
      cases hfl : flushEngines es with
      | none => simp [hc, hfl] at hr
      | some r1 =>
        simp only [hc, hfl, Option.some.injEq] at hr
        subst hr
        have h2 := ih r1 hfl (fun x hx => h x (List.mem_cons_of_mem _ hx))
        constructor
        · intro x hx
          rcases List.mem_cons.1 hx with rfl | hx
          · exact hf en _ hc (h en (List.mem_cons_self _ _))
          · exact h2.1 x hx
        · intro ev hev
          simp only [List.mem_cons] at hev
          rcases hev with rfl | rfl | hev
          · rfl
          · rfl
          · exact h2.2 ev hev

theorem cleanObjects_events (heap : ObjId → Object) (ps : List ObjId)
    (r : (ObjId → Object) × List Event) (hr : cleanObjects heap ps = some r) :
    ∀ ev ∈ r.2, ev.site = none := by
  induction ps generalizing heap r with
  | nil =>
    simp only [cleanObjects, Option.some.injEq] at hr
    subst hr
    simp
  | cons p ps ih =>
    simp only [cleanObjects] at hr
    cases hc : (heap p).cleanTrash with
    | none => simp [hc] at hr
    | some o1 =>
      cases hcl : cleanObjects (fun q => if q = p then o1 else heap q) ps with
      | none => simp [hc, hcl] at hr
      | some r1 =>
        simp only [hc, hcl, Option.some.injEq] at hr
        subst hr
        intro ev hev
        simp only [List.mem_cons] at hev
        rcases hev with rfl | hev
        · rfl
        · exact ih _ r1 hcl ev hev

/-! ### One notification inside an engine -/

theorem testFilter_slots (coming : Nat → Filter → Bool) (e : TypeTag) (p : ObjId)
    (o : Object) (rm : Bool) (i : Nat) (slots : List Slot) (j : Nat) (s1 : Slot)
    (h : (testFilter coming e p o rm i slots).1[j]? = some s1) :
    ∃ s, slots[j]? = some s ∧
      (s1 = s ∨ s1 = (s.testFilter (coming (i + j)) e (i + j) p o rm).1) := by
  induction slots generalizing i j with
  | nil => simp [testFilter] at h
  | cons s rest ih =>
    simp only [testFilter] at h
    cases j with
    | zero =>
      refine ⟨s, by simp, ?_⟩
      split at h <;> simp at h <;> simp [h]
    | succ j =>
      split at h
      · simp only [List.getElem?_cons_succ] at h
        obtain ⟨s0, hs0, hs1⟩ := ih (i + 1) j h
        refine ⟨s0, by simpa using hs0, ?_⟩
        have : i + 1 + j = i + (j + 1) := by omega
        rw [this] at hs1
        exact hs1
      · simp only [List.getElem?_cons_succ] at h
        exact ⟨s1, by simpa using h, Or.inl rfl⟩

theorem testFilter_events (coming : Nat → Filter → Bool) (e : TypeTag) (p : ObjId)
    (o : Object) (rm : Bool) (i : Nat) (slots : List Slot) (ev : Event)
    (h : ev ∈ (testFilter coming e p o rm i slots).2) :
    ∃ (j : Nat) (s : Slot), slots[j]? = some s ∧
      ev ∈ (s.testFilter (coming (i + j)) e (i + j) p o rm).2.1 := by
  induction slots generalizing i with
  | nil => simp [testFilter] at h
  | cons s rest ih =>
    simp only [testFilter] at h
    split at h
    · simp only [List.mem_append] at h
      rcases h with h | h
      · exact ⟨0, s, by simp, by simpa using h⟩
      · obtain ⟨j, s0, hs0, hev⟩ := ih (i + 1) h
        refine ⟨j + 1, s0, by simpa using hs0, ?_⟩
        have : i + 1 + j = i + (j + 1) := by omega
        rw [this] at hev
        exact hev
    · exact ⟨0, s, by simp, by simpa using h⟩

theorem Slot.testFilter_site (c : Filter → Bool) (e : TypeTag) (i : Nat) (s : Slot)
    (p : ObjId) (o : Object) (rm : Bool) (ev : Event)
    (h : ev ∈ (s.testFilter c e i p o rm).2.1) : ev.site = some (e, i) := by
  unfold Slot.testFilter at h
  simp only at h
  split at h
  · split at h
    · split at h
      · simp only [List.mem_cons, List.mem_singleton, List.not_mem_nil, or_false] at h
        rcases h with rfl | rfl <;> rfl
      · simp only [List.mem_singleton] at h
        subst h
        rfl
    · simp at h
  · split at h
    · simp only [List.mem_singleton] at h
      subst h
      rfl
    · simp at h

theorem Event.silentFor_of_site (E : TypeTag) (R : Nat) (O : ObjId) (ev : Event)
    (h : ev.site ≠ some (E, R)) : ev.silentFor E R O := by
  intro f _
  constructor <;> rintro rfl <;> exact h rfl

theorem Slot.testFilter_veto (c : Filter → Bool) (e : TypeTag) (i : Nat) (s : Slot)
    (p : ObjId) (o : Object) (rm : Bool) (O : ObjId)
    (hs : s.noObject O) (hc : ∀ f, f.object = O → c f = false) :
    (s.testFilter c e i p o rm).1.noObject O ∧
      ∀ ev ∈ (s.testFilter c e i p o rm).2.1, ev.silentFor e i O := by
  unfold Slot.testFilter
  simp only
  split
  · split
    · by_cases hcm : c (makeFilter s.req p o) = true
      · have hpO : p ≠ O := by
          intro hp
          have := hc (makeFilter s.req p o) (by simp [makeFilter, hp])
          simp [hcm] at this
        simp only [hcm, if_true]
        constructor
        · intro f hf
          simp only [List.mem_append, List.mem_singleton] at hf
          rcases hf with hf | rfl
          · exact hs f hf
          · simpa [makeFilter] using hpO
        · intro ev hev f hfO
          simp only [List.mem_cons, List.mem_singleton, List.not_mem_nil, or_false] at hev
          rcases hev with rfl | rfl
          · simp
          · constructor
            · intro heq
              injection heq with _ _ hff
              rw [← hff] at hfO
              exact hpO (by simpa [makeFilter] using hfO)
            · simp
      · simp only [hcm]
        refine ⟨hs, ?_⟩
        intro ev hev f _
        simp only [Bool.false_eq_true, if_false, List.mem_singleton] at hev
        subst hev
        simp
    · exact ⟨hs, by simp⟩
  · split
    · rename_i f0 hf0
      have hmem : f0 ∈ s.filters := List.getElem?_mem hf0
      constructor
      · intro f hf
        rcases List.mem_or_eq_of_mem_set hf with hf | rfl
        · exact hs f hf
        · exact hs f0 hmem
      · intro ev hev f hfO
        simp only [List.mem_singleton] at hev
        subst hev
        constructor
        · simp
        · intro heq
          injection heq with _ _ hff
          rw [← hff] at hfO
          exact hs f0 hmem hfO
    · exact ⟨hs, by simp⟩

theorem Engine.updateObject_veto (coming : TypeTag → Nat → Filter → Bool)
    (E : TypeTag) (R : Nat) (O : ObjId) (hveto : ∀ f, f.object = O → coming E R f = false)
    (p : ObjId) (o : Object) (rm : Bool) (en : Engine) (h : en.noObjectAt E R O) :
    (en.updateObject coming p o rm).1.noObjectAt E R O ∧
      ∀ ev ∈ (en.updateObject coming p o rm).2, ev.silentFor E R O := by
  constructor
  · intro htag s1 hs1
    simp only [Engine.updateObject] at htag hs1
    obtain ⟨s, hs, hor⟩ := testFilter_slots _ _ _ _ _ _ _ _ _ hs1
    have hno := h htag s hs
    rcases hor with rfl | rfl
    · exact hno
    · simp only [Nat.zero_add, htag]
      exact (Slot.testFilter_veto _ _ _ _ _ _ _ O hno hveto).1
  · intro ev hev
    simp only [Engine.updateObject] at hev
    obtain ⟨j, s, hs, hin⟩ := testFilter_events _ _ _ _ _ _ _ _ hev
    simp only [Nat.zero_add] at hin
    by_cases hsite : en.tag = E ∧ j = R
    · obtain ⟨htag, rfl⟩ := hsite
      have hno := h htag s hs
      rw [htag] at hin
      exact (Slot.testFilter_veto _ _ _ _ _ _ _ O hno hveto).2 ev hin
    · apply Event.silentFor_of_site
      rw [Slot.testFilter_site _ _ _ _ _ _ _ _ hin]
      intro heq
      injection heq with heq
      injection heq with h1 h2
      exact hsite ⟨h1, h2⟩

/-! ### The flush inside an engine -/

theorem eraseIters_subset (fs : List Filter) (its : List Nat) (fs1 : List Filter)
    (h : eraseIters fs its = some fs1) : ∀ f ∈ fs1, f ∈ fs := by
  induction its generalizing fs with
  | nil =>
    simp only [eraseIters, Option.some.injEq] at h
    subst h
    exact fun _ hf => hf
  | cons it rest ih =>
    simp only [eraseIters] at h
    split at h
    · intro f hf
      exact List.mem_of_mem_eraseIdx (ih _ h f hf)
    · simp at h

theorem Slot.cleanTrashOne_filters (s s1 : Slot) (h : s.cleanTrashOne = some s1) :
    ∀ f ∈ s1.filters, f ∈ s.filters := by
  unfold Slot.cleanTrashOne at h
  cases he : eraseIters s.filters s.trash with
  | none => simp [he] at h
  | some fs =>
    simp only [he, Option.some.injEq] at h
    subst h
    exact eraseIters_subset _ _ _ he

theorem cleanTrashOne_slots (slots ss : List Slot) (h : cleanTrashOne slots = some ss)
    (j : Nat) (s1 : Slot) (hj : ss[j]? = some s1) :
    ∃ s, slots[j]? = some s ∧ s.cleanTrashOne = some s1 := by
  induction slots generalizing ss j with
  | nil =>
    simp only [cleanTrashOne, Option.some.injEq] at h
    subst h
    simp at hj
  | cons s rest ih =>
    simp only [cleanTrashOne] at h
    cases hc : s.cleanTrashOne with
    | none => simp [hc] at h
    | some s0 =>
      cases hr : cleanTrashOne rest with
      | none => simp [hc, hr] at h
      | some rest1 =>
        simp only [hc, hr, Option.some.injEq] at h
        subst h
        cases j with
        | zero =>
          simp only [List.getElem?_cons_zero, Option.some.injEq] at hj
          subst hj
          exact ⟨s, by simp, hc⟩
        | succ j =>
          simp only [List.getElem?_cons_succ] at hj
          obtain ⟨s2, hs2, hc2⟩ := ih rest1 hr j hj
          exact ⟨s2, by simpa using hs2, hc2⟩

theorem Engine.cleanTrash_noObjectAt (E : TypeTag) (R : Nat) (O : ObjId) (en en1 : Engine)
    (hc : en.cleanTrash = some en1) (h : en.noObjectAt E R O) : en1.noObjectAt E R O := by
  unfold Engine.cleanTrash at hc
  cases hs : cleanTrashOne en.slots with
  | none => simp [hs] at hc
  | some ss =>
    simp only [hs, Option.some.injEq] at hc
    subst hc
    intro htag s1 hs1
    obtain ⟨s, hs0, hcl⟩ := cleanTrashOne_slots _ _ hs R s1 hs1
    intro f hf
    exact h htag s hs0 f (Slot.cleanTrashOne_filters s s1 hcl f hf)

/-! ### Veto: the invariant of the scene -/

theorem Event.silentFor_of_site_none (E : TypeTag) (R : Nat) (O : ObjId) (ev : Event)
    (h : ev.site = none) : ev.silentFor E R O :=
  Event.silentFor_of_site E R O ev (by simp [h])

theorem World.deliver_vetoed (coming : TypeTag → Nat → Filter → Bool)
    (E : TypeTag) (R : Nat) (O : ObjId) (hveto : ∀ f, f.object = O → coming E R f = false)
    (p : ObjId) (ns : List Notice) (w : World) (h : w.vetoed E R O) :
    (w.deliver coming p ns).vetoed E R O := by
  induction ns generalizing w with
  | nil => exact h
  | cons n ns ih =>
    cases n with
    | changed =>
      simp only [World.deliver]
      apply ih
      have hn := notifyObject_preserves coming p (w.heap p)
        (fun en hen => Engine.updateObject_veto coming E R O hveto p (w.heap p) false en hen)
        w.notifiers (w.heap p).notifiers w.engines h.1
      refine ⟨hn.1, ?_⟩
      intro ev hev
      rcases List.mem_append.1 hev with hev | hev
      · exact h.2 ev hev
      · exact hn.2 ev hev
    | trash b =>
      simp only [World.deliver]
      exact ih _ h

theorem World.step_vetoed (coming : TypeTag → Nat → Filter → Bool)
    (E : TypeTag) (R : Nat) (O : ObjId) (hveto : ∀ f, f.object = O → coming E R f = false)
    (w w1 : World) (op : Op) (hstep : w.step coming op = some w1) (h : w.vetoed E R O) :
    w1.vetoed E R O := by
  cases op with
  | addEngine tag reqs =>
    simp only [World.step, Option.some.injEq] at hstep
    subst hstep
    unfold World.addEngine
    split
    · exact h
    · have hnew : (newEngine tag reqs).noObjectAt E R O := by
        intro _ s hs f hf
        simp only [newEngine, List.getElem?_map] at hs
        cases hr : reqs[R]? with
        | none => simp [hr] at hs
        | some r =>
          simp only [hr, Option.map_some', Option.some.injEq] at hs
          subst hs
          simp at hf
      have hu := updateObjects_preserves coming w.heap
        (fun p en hen => Engine.updateObject_veto coming E R O hveto p (w.heap p) false en hen)
        w.objects _ hnew
      constructor
      · intro en hen
        rcases (mem_insertEngine _ _ _).1 hen with rfl | hen
        · exact hu.1
        · exact h.1 en hen
      · intro ev hev
        simp only [List.mem_append] at hev
        rcases hev with (hev | hev) | hev
        · exact h.2 ev hev
        · exact hu.2 ev hev
        · apply Event.silentFor_of_site_none
          split at hev
          · simp only [List.mem_singleton] at hev
            subst hev
            rfl
          · simp at hev
  | start =>
    simp only [World.step, Option.some.injEq] at hstep
    subst hstep
    unfold World.start
    split
    · exact h
    · refine ⟨h.1, ?_⟩
      intro ev hev
      simp only [List.mem_append, List.mem_map] at hev
      rcases hev with hev | ⟨en, _, rfl⟩
      · exact h.2 ev hev
      · exact Event.silentFor_of_site_none _ _ _ _ rfl
  | update =>
    simp only [World.step] at hstep
    unfold World.update at hstep
    split at hstep
    · simp only [Option.some.injEq] at hstep
      subst hstep
      exact h
    · cases hf : flushEngines w.engines with
      | none => simp [hf] at hstep
      | some r =>
        cases hc : cleanObjects w.heap w.objectsNeedClean with
        | none => simp [hf, hc] at hstep
        | some r1 =>
          simp only [hf, hc, Option.some.injEq] at hstep
          subst hstep
          have h1 := flushEngines_preserves
            (fun en en1 hcl hen => Engine.cleanTrash_noObjectAt E R O en en1 hcl hen)
            w.engines r hf h.1
          have h2 := cleanObjects_events _ _ r1 hc
          refine ⟨h1.1, ?_⟩
          intro ev hev
          simp only [List.mem_append] at hev
          rcases hev with (hev | hev) | hev
          · exact h.2 ev hev
          · exact Event.silentFor_of_site_none _ _ _ _ (h1.2 ev hev)
          · exact Event.silentFor_of_site_none _ _ _ _ (h2 ev hev)
  | addObject p =>
    simp only [World.step, Option.some.injEq] at hstep
    subst hstep
    unfold World.addObject
    split
    · exact h
    · have hn := forEngines_preserves
        (fun en hen => Engine.updateObject_veto coming E R O hveto p
          { w.heap p with notifiers := (w.heap p).notifiers + 1,
                          trashNotifiers := (w.heap p).trashNotifiers + 1 } false en hen)
        w.engines h.1
      refine ⟨hn.1, ?_⟩
      intro ev hev
      rcases List.mem_append.1 hev with hev | hev
      · exact h.2 ev hev
      · exact hn.2 ev hev
  | removeObject p =>
    simp only [World.step, Option.some.injEq] at hstep
    subst hstep
    unfold World.removeObject
    split
    · have hn := forEngines_preserves
        (fun en hen => Engine.updateObject_veto coming E R O hveto p (w.heap p) true en hen)
        w.engines h.1
      refine ⟨hn.1, ?_⟩
      intro ev hev
      rcases List.mem_append.1 hev with hev | hev
      · exact h.2 ev hev
      · exact hn.2 ev hev
    · exact h
  | addComponent p t payload =>
    simp only [World.step, Option.some.injEq] at hstep
    subst hstep
    exact World.deliver_vetoed coming E R O hveto p _ _ h
  | removeComponent p t =>
    simp only [World.step, Option.some.injEq] at hstep
    subst hstep
    exact World.deliver_vetoed coming E R O hveto p _ _ h
  | setActive p t b =>
    simp only [World.step] at hstep
    unfold World.setActive at hstep
    cases hs : (w.heap p).setActive t b with
    | none => simp [hs] at hstep
    | some r =>
      simp only [hs, Option.some.injEq] at hstep
      subst hstep
      exact World.deliver_vetoed coming E R O hveto p _ _ h

theorem World.run_vetoed (coming : TypeTag → Nat → Filter → Bool)
    (E : TypeTag) (R : Nat) (O : ObjId) (hveto : ∀ f, f.object = O → coming E R f = false)
    (ops : List Op) (w w1 : World) (hrun : w.run coming ops = some w1)
    (h : w.vetoed E R O) : w1.vetoed E R O := by
  induction ops generalizing w with
  | nil =>
    simp only [World.run, Option.some.injEq] at hrun
    subst hrun
    exact h
  | cons op ops ih =>
    simp only [World.run] at hrun
    cases hs : w.step coming op with
    | none => simp [hs] at hrun
    | some w2 =>
      simp only [hs] at hrun
      exact ih w2 hrun (World.step_vetoed coming E R O hveto w w2 op hs h)

theorem World.getEntities_of_vetoed (E : TypeTag) (R : Nat) (O : ObjId) (w : World)
    (h : w.vetoed E R O) : ∀ f ∈ w.getEntities E R, f.object ≠ O := by
  intro f hf
  unfold World.getEntities World.getEngine at hf
  cases hfind : List.find? (fun en => decide (en.tag = E)) w.engines with
  | none => simp [hfind] at hf
  | some en =>
    simp only [hfind, Engine.getEntities] at hf
    have hmem := List.mem_of_find?_eq_some hfind
    have htag : en.tag = E := by simpa using List.find?_some hfind
    cases hs : en.slots[R]? with
    | none => simp [hs] at hf
    | some s =>
      simp only [hs] at hf
      exact h.1 en hmem htag s hs f hf

/-- C4. Veto semantics: when the coming hook of requirement `R` of the engine
of type `E` refuses every filter generated for the object `O`, then after any
sequence of calls on a fresh scene no filter of `O` is stored for that
requirement, and the log holds no added and no removed call of that
requirement for a filter of `O`. -/
theorem veto_excludes_object (coming : TypeTag → Nat → Filter → Bool)
    (E : TypeTag) (R : Nat) (O : ObjId)
    (hveto : ∀ f : Filter, f.object = O → coming E R f = false)
    (ops : List Op) (w : World) (hrun : World.empty.run coming ops = some w) :
    (∀ f ∈ w.getEntities E R, f.object ≠ O) ∧
    (∀ f : Filter, f.object = O →
      Event.added E R f ∉ w.log ∧ Event.removed E R f ∉ w.log) := by
  have h0 : World.empty.vetoed E R O := by
    constructor <;> intro x hx <;> simp [World.empty] at hx
  have h := World.run_vetoed coming E R O hveto ops _ w hrun h0
  refine ⟨World.getEntities_of_vetoed E R O w h, ?_⟩
  intro f hfO
  constructor
  · intro hmem
    exact (h.2 _ hmem f hfO).1 rfl
  · intro hmem
    exact (h.2 _ hmem f hfO).2 rfl

/-! ### Scenarios -/

/-- C1. With an engine over the requirements `{1}` and `{2}` whose coming hook
refuses for the first requirement, an object of the scene that holds active
components of both types and passes both requirements gets no filter for the
second requirement, whose hook accepts; with the default hooks the same calls
give it one. -/
theorem veto_skips_later_requirement :
    ∃ w w1 : World,
      World.empty.run vetoFirst twoRequirementOps = some w ∧
      passFilter [2] (w.heap 0) = true ∧
      (∀ f, vetoFirst 7 1 f = true) ∧
      w.getEntities 7 1 = [] ∧
      World.empty.run acceptAll twoRequirementOps = some w1 ∧
      w1.getEntities 7 1 = [⟨0, true, [some 1]⟩] :=
  ⟨_, _, rfl, by decide, fun _ => rfl, by decide, rfl, by decide⟩

/-- C2. With an engine over the requirements `{1}` and `{1, 2}` whose coming
hook refuses for the first requirement and accepts for the second, an object
of the scene holding only an active component of type `1` is given a component
of type `2`: it then passes the second requirement, yet no added call of that
requirement is made and no filter is stored for it. -/
theorem added_not_fired_after_veto :
    ∃ w : World,
      World.empty.run vetoFirst reactivityOps = some w ∧
      0 ∈ w.objects ∧
      (w.heap 0).components = [(1, ⟨0, true, 0⟩)] ∧
      (∀ f, vetoFirst 7 1 f = true) ∧
      passFilter [1, 2] ((w.addComponent vetoFirst 0 2 0).1.heap 0) = true ∧
      (w.addComponent vetoFirst 0 2 0).1.log.countP (Event.isAdded 7 1) = 0 ∧
      (w.addComponent vetoFirst 0 2 0).1.getEntities 7 1 = [] :=
  ⟨_, rfl, by decide, by decide, fun _ => rfl, by decide, by decide, by decide⟩

/-- C5. With two filters queued for retirement at positions `0` and `1` and an
active filter at position `2`, the flush erases position `0`, then position
`1` of the shifted collection: the inactive filter of object `1` stays in
`getEntities` and the active filter of object `2` is dropped. -/
theorem cleanTrash_drops_active_filter :
    ∃ w w1 : World,
      World.empty.run acceptAll twoRetiredOps = some w ∧
      w.getEngine 7 = some ⟨7, [⟨[1],
        [⟨0, false, [some 0]⟩, ⟨1, false, [some 1]⟩, ⟨2, true, [some 2]⟩], [0, 1]⟩]⟩ ∧
      w.update = some w1 ∧
      w1.getEngine 7 = some ⟨7, [⟨[1], [⟨1, false, [some 1]⟩], []⟩]⟩ ∧
      (⟨[1], [⟨0, false, [some 0]⟩, ⟨1, false, [some 1]⟩, ⟨2, true, [some 2]⟩],
        [0, 1]⟩ : Slot).cleanTrashOne = some ⟨[1], [⟨1, false, [some 1]⟩], []⟩ :=
  ⟨_, _, rfl, by decide, rfl, by decide, by decide⟩

/-- C6. On an object that holds a component of type `1` whose removal is
already queued, `removeComponent` followed by `addComponent` returns the same
instance, active again, but the trash queue still contains the type, and the
next `cleanTrash` frees the reactivated instance. -/
theorem reactivation_leaves_trash_entry :
    queuedObject.getComponent 1 = some ⟨10, false, 42⟩ ∧
    queuedObject.trash = [1] ∧
    (queuedObject.removeComponent 1).2.1 = true ∧
    ((queuedObject.removeComponent 1).1.addComponent 1 11 0).2.1 = ⟨10, true, 42⟩ ∧
    ((queuedObject.removeComponent 1).1.addComponent 1 11 0).1.trash = [1] ∧
    (((queuedObject.removeComponent 1).1.addComponent 1 11 0).1.cleanTrash).map
      (fun o => o.getComponent 1) = some none := by
  decide

/-- C8. On an object that holds a component of type `1` whose removal is
already queued, `removeComponent` returns `true` and queues the same iterator
a second time; `cleanTrash` then erases the node and meets the second
iterator with its node gone. -/
theorem cleanTrash_after_second_remove :
    queuedObject.getComponent 1 = some ⟨10, false, 42⟩ ∧
    (queuedObject.removeComponent 1).2.1 = true ∧
    (queuedObject.removeComponent 1).1.getComponent 1 = some ⟨10, false, 42⟩ ∧
    (queuedObject.removeComponent 1).1.trash = [1, 1] ∧
    (queuedObject.removeComponent 1).1.cleanTrash = none := by
  decide

/-- C3. On a started scene whose one engine has the single requirement `{a}`
and a coming hook that accepts: adding an object without components calls no
hook; `addComponent` of type `a` then calls coming, then added, once each, and
`getEntities` has length 1; `removeComponent` then calls removed at once while
`getEntities` still has length 1, its filter being inactive; and the next
`update` leaves `getEntities` with length 0. -/
theorem scenario_single_requirement (coming : TypeTag → Nat → Filter → Bool)
    (e a : TypeTag) (o : ObjId) (payload : Nat)
    (hacc : ∀ f, coming e 0 f = true) :
    let w0 := scenarioScene coming e a
    let w1 := w0.addObject coming o
    let w2 := (w1.addComponent coming o a payload).1
    let w3 := (w2.removeComponent coming o a).1
    let f : Filter := { object := o, active := true, components := [some 0] }
    w1.log = w0.log ∧
    w2.log = w1.log ++ [Event.coming e 0 f, Event.added e 0 f] ∧
    (w2.getEntities e 0).length = 1 ∧
    w3.log = w2.log ++ [Event.removed e 0 { f with active := false }] ∧
    (w3.getEntities e 0).length = 1 ∧
    (∀ g ∈ w3.getEntities e 0, g.active = false) ∧
    ∃ w4, w3.update = some w4 ∧ (w4.getEntities e 0).length = 0 := by
  simp [scenarioScene, World.empty, World.addEngine, World.start, World.addObject,
    World.addComponent, World.removeComponent, World.update, World.getEntities,
    World.getEngine, World.setObject, World.deliver, updateObjects, newEngine, insertEngine,
    forEngines, Engine.updateObject, testFilter, Slot.testFilter, passFilter,
    passFilterComponent, Object.getComponent, Object.addComponent, Object.removeComponent,
    find, setActiveAt, notifyObject, notifyScene, atEngine, notifyTrash, trashCallback,
    makeFilter, isActiveFor, Engine.getEntities, hacc, Component.setActive,
    flushEngines, Engine.cleanTrash, cleanTrashOne, Slot.cleanTrashOne, eraseIters,
    cleanObjects, Object.cleanTrash, eraseNodes, eraseKey, List.findIdx_cons]

theorem scenario_single_requirement_witness :
    (∀ f, acceptAll 7 0 f = true) ∧
    ((((scenarioScene acceptAll 7 1).addObject acceptAll 5).addComponent
      acceptAll 5 1 0).1.getEntities 7 0).length = 1 :=
  ⟨fun _ => rfl, (scenario_single_requirement acceptAll 7 1 5 0 (fun _ => rfl)).2.2.1⟩

theorem veto_excludes_object_witness :
    (∀ f : Filter, f.object = 0 → vetoObjectZero 7 0 f = false) ∧
    ∃ w, World.empty.run vetoObjectZero twoRetiredOps = some w ∧
      (∀ f ∈ w.getEntities 7 0, f.object ≠ 0) ∧
      (∀ f : Filter, f.object = 0 →
        Event.added 7 0 f ∉ w.log ∧ Event.removed 7 0 f ∉ w.log) :=
  ⟨fun f hf => by simp [vetoObjectZero, hf],
   _, rfl, veto_excludes_object vetoObjectZero 7 0 0
      (fun f hf => by simp [vetoObjectZero, hf]) twoRetiredOps _ rfl⟩

/-- With an engine whose only requirement is `{a, b}` and whose coming hook
accepts, and an object of the scene holding only an active `a`: adding `b`
calls coming then added once, removing `b` calls removed once, and a further
`updateObject` after either call makes no hook call. -/
theorem reactivity_single_requirement (coming : TypeTag → Nat → Filter → Bool)
    (e a b : TypeTag) (o : ObjId) (pa pb : Nat) (hab : a ≠ b)
    (hacc : ∀ f, coming e 0 f = true) :
    let w0 := (World.empty.addEngine coming e [[a, b]]).addObject coming o
    let w1 := (w0.addComponent coming o a pa).1
    let w2 := (w1.addComponent coming o b pb).1
    let w3 := (w2.removeComponent coming o b).1
    let f : Filter := { object := o, active := true, components := [some 0, some 1] }
    w1.log = [] ∧
    w2.log = [Event.coming e 0 f, Event.added e 0 f] ∧
    (forEngines (fun en => en.updateObject coming o (w2.heap o) false) w2.engines).2 = [] ∧
    w3.log = w2.log ++ [Event.removed e 0 { f with active := false }] ∧
    (forEngines (fun en => en.updateObject coming o (w3.heap o) false) w3.engines).2 = [] := by
  have hba : b ≠ a := Ne.symm hab
  simp [World.empty, World.addEngine, World.addObject,
    World.addComponent, World.removeComponent,
    World.setObject, World.deliver, updateObjects, newEngine, insertEngine,
    forEngines, Engine.updateObject, testFilter, Slot.testFilter, passFilter,
    passFilterComponent, Object.getComponent, Object.addComponent, Object.removeComponent,
    find, setActiveAt, notifyObject, notifyScene, atEngine, notifyTrash, trashCallback,
    makeFilter, isActiveFor, hacc, Component.setActive, List.findIdx_cons, hab, hba]

/-! ### Frame: what the calls leave untouched -/

theorem Engine.updateObject_tag (coming : TypeTag → Nat → Filter → Bool) (en : Engine)
    (p : ObjId) (o : Object) (rm : Bool) : (en.updateObject coming p o rm).1.tag = en.tag :=
  rfl

theorem Engine.cleanTrash_tag (en en1 : Engine) (h : en.cleanTrash = some en1) :
    en1.tag = en.tag := by
  unfold Engine.cleanTrash at h
  cases hs : cleanTrashOne en.slots with
  | none => simp [hs] at h
  | some ss =>
    simp only [hs, Option.some.injEq] at h
    subst h
    rfl

theorem forEngines_tags {f : Engine → Engine × List Event} (hf : ∀ en, (f en).1.tag = en.tag)
    (es : List Engine) : (forEngines f es).1.map Engine.tag = es.map Engine.tag := by
  induction es with
  | nil => rfl
  | cons en es ih => simp [forEngines, hf, ih]

theorem atEngine_tags {f : Engine → Engine × List Event} (hf : ∀ en, (f en).1.tag = en.tag)
    (t : TypeTag) (es : List Engine) :
    (atEngine f t es).1.map Engine.tag = es.map Engine.tag := by
  induction es with
  | nil => rfl
  | cons en es ih =>
    by_cases ht : en.tag = t
    · simp [atEngine, ht, hf]
    · simp [atEngine, ht, ih]

theorem notifyScene_tags (coming : TypeTag → Nat → Filter → Bool) (p : ObjId) (o : Object)
    (ts : List TypeTag) (es : List Engine) :
    (notifyScene coming p o ts es).1.map Engine.tag = es.map Engine.tag := by
  induction ts generalizing es with
  | nil => rfl
  | cons t ts ih =>
    simp only [notifyScene]
    rw [ih, atEngine_tags (fun en => Engine.updateObject_tag coming en p o false)]

theorem notifyObject_tags (coming : TypeTag → Nat → Filter → Bool) (p : ObjId) (o : Object)
    (ts : List TypeTag) (n : Nat) (es : List Engine) :
    (notifyObject coming p o ts n es).1.map Engine.tag = es.map Engine.tag := by
  induction n generalizing es with
  | zero => rfl
  | succ n ih =>
    simp only [notifyObject]
    rw [ih, notifyScene_tags]

theorem updateObjects_tag (coming : TypeTag → Nat → Filter → Bool) (heap : ObjId → Object)
    (ps : List ObjId) (en : Engine) : (updateObjects coming heap ps en).1.tag = en.tag := by
  induction ps generalizing en with
  | nil => rfl
  | cons p ps ih =>
    simp only [updateObjects]
    rw [ih]
    rfl

theorem flushEngines_tags (es : List Engine) (r : List Engine × List Event)
    (h : flushEngines es = some r) : r.1.map Engine.tag = es.map Engine.tag := by
  induction es generalizing r with
  | nil =>
    simp only [flushEngines, Option.some.injEq] at h
    subst h
    rfl
  | cons en es ih =>
    simp only [flushEngines] at h
    cases hc : en.cleanTrash with
    | none => simp [hc] at h
    | some en1 =>
      cases hfl : flushEngines es with
      | none => simp [hc, hfl] at h
      | some r1 =>
        simp only [hc, hfl, Option.some.injEq] at h
        subst h
        simp [Engine.cleanTrash_tag en en1 hc, ih r1 hfl]

theorem insertEngine_tags_nodup (en : Engine) (es : List Engine)
    (hn : en.tag ∉ es.map Engine.tag) (h : (es.map Engine.tag).Nodup) :
    ((insertEngine en es).map Engine.tag).Nodup := by
  induction es with
  | nil => simp [insertEngine]
  | cons x xs ih =>
    simp only [List.map_cons, List.mem_cons, not_or] at hn
    simp only [List.map_cons, List.nodup_cons] at h
    by_cases hlt : en.tag < x.tag
    · simp only [insertEngine, hlt, if_true, List.map_cons, List.nodup_cons, List.mem_cons,
        not_or]
      exact ⟨⟨hn.1, hn.2⟩, h.1, h.2⟩
    · simp only [insertEngine, hlt, if_false, List.map_cons, List.nodup_cons]
      refine ⟨?_, ih hn.2 h.2⟩
      intro hm
      rw [List.mem_map] at hm
      obtain ⟨y, hy, hyt⟩ := hm
      rcases (mem_insertEngine en y xs).1 hy with rfl | hy
      · exact hn.1 hyt
      · exact h.1 (List.mem_map.2 ⟨y, hy, hyt⟩)

theorem World.deliver_frame (coming : TypeTag → Nat → Filter → Bool) (p : ObjId)
    (ns : List Notice) (w : World) :
    (w.deliver coming p ns).objects = w.objects ∧
    (w.deliver coming p ns).started = w.started ∧
    (w.deliver coming p ns).heap = w.heap ∧
    (w.deliver coming p ns).notifiers = w.notifiers ∧
    (w.deliver coming p ns).nextAddr = w.nextAddr ∧
    (w.deliver coming p ns).engines.map Engine.tag = w.engines.map Engine.tag := by
  induction ns generalizing w with
  | nil => simp [World.deliver]
  | cons n ns ih =>
    cases n with
    | changed =>
      simp only [World.deliver]
      obtain ⟨h1, h2, h3, h4, h5, h6⟩ := ih
        { w with
          engines := (notifyObject coming p (w.heap p) w.notifiers (w.heap p).notifiers
            w.engines).1,
          log := w.log ++ (notifyObject coming p (w.heap p) w.notifiers (w.heap p).notifiers
            w.engines).2 }
      refine ⟨h1, h2, h3, h4, h5, ?_⟩
      rw [h6]
      exact notifyObject_tags coming p _ _ _ _
    | trash b =>
      simp only [World.deliver]
      exact ih _

theorem World.step_registeredOnce (coming : TypeTag → Nat → Filter → Bool)
    (w w1 : World) (op : Op) (hstep : w.step coming op = some w1)
    (h : w.registeredOnce) : w1.registeredOnce := by
  cases op with
  | addEngine tag reqs =>
    simp only [World.step, Option.some.injEq] at hstep
    subst hstep
    unfold World.addEngine
    split
    · exact h
    · rename_i hany
      refine ⟨h.1, ?_⟩
      apply insertEngine_tags_nodup _ _ _ h.2
      rw [updateObjects_tag]
      intro hm
      apply hany
      rw [List.mem_map] at hm
      obtain ⟨y, hy, hyt⟩ := hm
      simp only [List.any_eq_true, decide_eq_true_eq]
      exact ⟨y, hy, hyt⟩
  | start =>
    simp only [World.step, Option.some.injEq] at hstep
    subst hstep
    unfold World.start
    split
    · exact h
    · exact h
  | update =>
    simp only [World.step] at hstep
    unfold World.update at hstep
    split at hstep
    · simp only [Option.some.injEq] at hstep
      subst hstep
      exact h
    · cases hf : flushEngines w.engines with
      | none => simp [hf] at hstep
      | some r =>
        cases hc : cleanObjects w.heap w.objectsNeedClean with
        | none => simp [hf, hc] at hstep
        | some r1 =>
          simp only [hf, hc, Option.some.injEq] at hstep
          subst hstep
          refine ⟨h.1, ?_⟩
          show (r.1.map Engine.tag).Nodup
          rw [flushEngines_tags _ r hf]
          exact h.2
  | addObject p =>
    simp only [World.step, Option.some.injEq] at hstep
    subst hstep
    unfold World.addObject
    split
    · exact h
    · rename_i hp
      constructor
      · show (w.objects ++ [p]).Nodup
        rw [List.nodup_append]
        refine ⟨h.1, by simp, ?_⟩
        intro a ha hb
        simp only [List.mem_singleton] at hb
        exact hp (hb ▸ ha)
      · show ((forEngines _ w.engines).1.map Engine.tag).Nodup
        rw [forEngines_tags (fun en => Engine.updateObject_tag coming en p _ false)]
        exact h.2
  | removeObject p =>
    simp only [World.step, Option.some.injEq] at hstep
    subst hstep
    unfold World.removeObject
    split
    · constructor
      · exact h.1.erase p
      · show ((forEngines _ w.engines).1.map Engine.tag).Nodup
        rw [forEngines_tags (fun en => Engine.updateObject_tag coming en p _ true)]
        exact h.2
    · exact h
  | addComponent p t payload =>
    simp only [World.step, Option.some.injEq] at hstep
    subst hstep
    unfold World.registeredOnce World.addComponent
    obtain ⟨h1, _, _, _, _, h6⟩ := World.deliver_frame coming p
      ((w.heap p).addComponent t w.nextAddr payload).2.2
      { w.setObject p ((w.heap p).addComponent t w.nextAddr payload).1 with
        nextAddr := w.nextAddr + 1 }
    simp only [h1, h6]
    exact h
  | removeComponent p t =>
    simp only [World.step, Option.some.injEq] at hstep
    subst hstep
    unfold World.registeredOnce World.removeComponent
    obtain ⟨h1, _, _, _, _, h6⟩ := World.deliver_frame coming p
      ((w.heap p).removeComponent t).2.2 (w.setObject p ((w.heap p).removeComponent t).1)
    simp only [h1, h6]
    exact h
  | setActive p t b =>
    simp only [World.step] at hstep
    unfold World.setActive at hstep
    cases hs : (w.heap p).setActive t b with
    | none => simp [hs] at hstep
    | some r =>
      simp only [hs, Option.some.injEq] at hstep
      subst hstep
      unfold World.registeredOnce
      obtain ⟨h1, _, _, _, _, h6⟩ := World.deliver_frame coming p r.2 (w.setObject p r.1)
      simp only [h1, h6]
      exact h

theorem World.run_registeredOnce (coming : TypeTag → Nat → Filter → Bool)
    (ops : List Op) (w w1 : World) (hrun : w.run coming ops = some w1)
    (h : w.registeredOnce) : w1.registeredOnce := by
  induction ops generalizing w with
  | nil =>
    simp only [World.run, Option.some.injEq] at hrun
    subst hrun
    exact h
  | cons op ops ih =>
    simp only [World.run] at hrun
    cases hs : w.step coming op with
    | none => simp [hs] at hrun
    | some w2 =>
      simp only [hs] at hrun
      exact ih w2 hrun (World.step_registeredOnce coming w w2 op hs h)

/-- C16. Duplicate registration is a no-op: `addObject` of an object already in
the object list and `addEngine` of an engine type already registered return
the state they were given (object list, engines and their filters, notifier
edges, log); and in every state reached from a fresh scene the object list has
no repetition and no two engines have the same type. -/
theorem duplicate_registration_noop (coming : TypeTag → Nat → Filter → Bool) :
    (∀ (w : World) (p : ObjId), p ∈ w.objects → w.addObject coming p = w) ∧
    (∀ (w : World) (tag : TypeTag) (reqs : List (List TypeTag)),
      (∃ en ∈ w.engines, en.tag = tag) → w.addEngine coming tag reqs = w) ∧
    (∀ (ops : List Op) (w : World), World.empty.run coming ops = some w →
      w.objects.Nodup ∧ (w.engines.map Engine.tag).Nodup) := by
  refine ⟨?_, ?_, ?_⟩
  · intro w p hp
    simp [World.addObject, hp]
  · intro w tag reqs hex
    obtain ⟨en, hen, htag⟩ := hex
    have : (w.engines.any fun en => decide (en.tag = tag)) = true := by
      simp only [List.any_eq_true, decide_eq_true_eq]
      exact ⟨en, hen, htag⟩
    simp [World.addEngine, this]
  · intro ops w hrun
    exact World.run_registeredOnce coming ops _ w hrun (by simp [World.registeredOnce, World.empty])

theorem duplicate_registration_noop_witness :
    0 ∈ (World.empty.addObject acceptAll 0).objects ∧
    (World.empty.addObject acceptAll 0).addObject acceptAll 0
      = World.empty.addObject acceptAll 0 :=
  ⟨by decide, (duplicate_registration_noop acceptAll).1 _ 0 (by decide)⟩

/-! ### Invariants of the engines over all calls -/

theorem World.deliver_engines (coming : TypeTag → Nat → Filter → Bool) (P : Engine → Prop)
    (hu : ∀ en p o rm, P en → P (en.updateObject coming p o rm).1)
    (p : ObjId) (ns : List Notice) (w : World) (h : ∀ en ∈ w.engines, P en) :
    ∀ en ∈ (w.deliver coming p ns).engines, P en := by
  induction ns generalizing w with
  | nil => exact h
  | cons n ns ih =>
    cases n with
    | changed =>
      simp only [World.deliver]
      apply ih
      exact (notifyObject_preserves (G := fun _ => True) coming p (w.heap p)
        (fun en hen => ⟨hu en p (w.heap p) false hen, fun _ _ => trivial⟩)
        w.notifiers (w.heap p).notifiers w.engines h).1
    | trash b =>
      simp only [World.deliver]
      exact ih _ h

theorem World.step_engines (coming : TypeTag → Nat → Filter → Bool) (P : Engine → Prop)
    (hu : ∀ en p o rm, P en → P (en.updateObject coming p o rm).1)
    (hc : ∀ en en1, en.cleanTrash = some en1 → P en → P en1)
    (hn : ∀ tag reqs, P (newEngine tag reqs))
    (w w1 : World) (op : Op) (hstep : w.step coming op = some w1)
    (h : ∀ en ∈ w.engines, P en) : ∀ en ∈ w1.engines, P en := by
  cases op with
  | addEngine tag reqs =>
    simp only [World.step, Option.some.injEq] at hstep
    subst hstep
    unfold World.addEngine
    split
    · exact h
    · have hu1 := (updateObjects_preserves (G := fun _ => True) coming w.heap
        (fun p en hen => ⟨hu en p (w.heap p) false hen, fun _ _ => trivial⟩)
        w.objects _ (hn tag reqs)).1
      intro en hen
      rcases (mem_insertEngine _ _ _).1 hen with rfl | hen
      · exact hu1
      · exact h en hen
  | start =>
    simp only [World.step, Option.some.injEq] at hstep
    subst hstep
    unfold World.start
    split <;> exact h
  | update =>
    simp only [World.step] at hstep
    unfold World.update at hstep
    split at hstep
    · simp only [Option.some.injEq] at hstep
      subst hstep
      exact h
    · cases hf : flushEngines w.engines with
      | none => simp [hf] at hstep
      | some r =>
        cases hcl : cleanObjects w.heap w.objectsNeedClean with
        | none => simp [hf, hcl] at hstep
        | some r1 =>
          simp only [hf, hcl, Option.some.injEq] at hstep
          subst hstep
          exact (flushEngines_preserves hc w.engines r hf h).1
  | addObject p =>
    simp only [World.step, Option.some.injEq] at hstep
    subst hstep
    unfold World.addObject
    split
    · exact h
    · exact (forEngines_preserves (G := fun _ => True)
        (fun en hen => ⟨hu en p _ false hen, fun _ _ => trivial⟩) w.engines h).1
  | removeObject p =>
    simp only [World.step, Option.some.injEq] at hstep
    subst hstep
    unfold World.removeObject
    split
    · exact (forEngines_preserves (G := fun _ => True)
        (fun en hen => ⟨hu en p _ true hen, fun _ _ => trivial⟩) w.engines h).1
    · exact h
  | addComponent p t payload =>
    simp only [World.step, Option.some.injEq] at hstep
    subst hstep
    exact World.deliver_engines coming P hu p _ _ h
  | removeComponent p t =>
    simp only [World.step, Option.some.injEq] at hstep
    subst hstep
    exact World.deliver_engines coming P hu p _ _ h
  | setActive p t b =>
    simp only [World.step] at hstep
    unfold World.setActive at hstep
    cases hs : (w.heap p).setActive t b with
    | none => simp [hs] at hstep
    | some r =>
      simp only [hs, Option.some.injEq] at hstep
      subst hstep
      exact World.deliver_engines coming P hu p _ _ h

theorem World.run_engines (coming : TypeTag → Nat → Filter → Bool) (P : Engine → Prop)
    (hu : ∀ en p o rm, P en → P (en.updateObject coming p o rm).1)
    (hc : ∀ en en1, en.cleanTrash = some en1 → P en → P en1)
    (hn : ∀ tag reqs, P (newEngine tag reqs))
    (ops : List Op) (w w1 : World) (hrun : w.run coming ops = some w1)
    (h : ∀ en ∈ w.engines, P en) : ∀ en ∈ w1.engines, P en := by
  induction ops generalizing w with
  | nil =>
    simp only [World.run, Option.some.injEq] at hrun
    subst hrun
    exact h
  | cons op ops ih =>
    simp only [World.run] at hrun
    cases hs : w.step coming op with
    | none => simp [hs] at hrun
    | some w2 =>
      simp only [hs] at hrun
      exact ih w2 hrun (World.step_engines coming P hu hc hn w w2 op hs h)

/-! ### At most one active filter -/

theorem countP_set_le {α : Type} (pr : α → Bool) (l : List α) (i : Nat) (a : α)
    (ha : pr a = false) : (l.set i a).countP pr ≤ l.countP pr := by
  induction l generalizing i with
  | nil => simp
  | cons x xs ih =>
    cases i with
    | zero =>
      simp only [List.set_cons_zero, List.countP_cons, ha]
      simp
    | succ i =>
      simp only [List.set_cons_succ, List.countP_cons]
      exact Nat.add_le_add_right (ih i) _

theorem Slot.testFilter_atMostOne (c : Filter → Bool) (e : TypeTag) (i : Nat) (s : Slot)
    (p : ObjId) (o : Object) (rm : Bool) (hs : s.atMostOne) :
    (s.testFilter c e i p o rm).1.atMostOne := by
  unfold Slot.testFilter
  simp only
  split
  · split
    · rename_i hend
      split
      · intro q
        have hzero : s.filters.countP (isActiveFor p) = 0 := by
          rw [List.countP_eq_zero]
          intro f hf
          have := (List.findIdx_eq_length.1 hend) f hf
          simp [this]
        simp only [List.countP_append, List.countP_cons, List.countP_nil]
        by_cases hq : q = p
        · subst hq
          rw [hzero]
          simp [isActiveFor, makeFilter]
        · have : isActiveFor q (makeFilter s.req p o) = false := by
            simp [isActiveFor, makeFilter, Ne.symm hq]
          simp only [this]
          simpa using hs q
      · exact hs
    · exact hs
  · split
    · intro q
      exact Nat.le_trans (countP_set_le _ _ _ _ (by simp [isActiveFor])) (hs q)
    · exact hs

theorem Engine.updateObject_atMostOne (coming : TypeTag → Nat → Filter → Bool)
    (en : Engine) (p : ObjId) (o : Object) (rm : Bool) (h : en.atMostOne) :
    (en.updateObject coming p o rm).1.atMostOne := by
  intro s1 hs1
  obtain ⟨j, hj⟩ := List.mem_iff_getElem?.1 hs1
  simp only [Engine.updateObject] at hj
  obtain ⟨s, hs, hor⟩ := testFilter_slots _ _ _ _ _ _ _ _ _ hj
  have hs0 := h s (List.getElem?_mem hs)
  rcases hor with rfl | rfl
  · exact hs0
  · exact Slot.testFilter_atMostOne _ _ _ _ _ _ _ hs0

theorem eraseIters_sublist (fs : List Filter) (its : List Nat) (fs1 : List Filter)
    (h : eraseIters fs its = some fs1) : fs1.Sublist fs := by
  induction its generalizing fs with
  | nil =>
    simp only [eraseIters, Option.some.injEq] at h
    subst h
    exact List.Sublist.refl _
  | cons it rest ih =>
    simp only [eraseIters] at h
    split at h
    · exact (ih _ h).trans (List.eraseIdx_sublist _ _)
    · simp at h

theorem Engine.cleanTrash_atMostOne (en en1 : Engine) (hc : en.cleanTrash = some en1)
    (h : en.atMostOne) : en1.atMostOne := by
  unfold Engine.cleanTrash at hc
  cases hs : cleanTrashOne en.slots with
  | none => simp [hs] at hc
  | some ss =>
    simp only [hs, Option.some.injEq] at hc
    subst hc
    intro s1 hs1
    obtain ⟨j, hj⟩ := List.mem_iff_getElem?.1 hs1
    obtain ⟨s, hs0, hcl⟩ := cleanTrashOne_slots _ _ hs j s1 hj
    intro q
    unfold Slot.cleanTrashOne at hcl
    cases he : eraseIters s.filters s.trash with
    | none => simp [he] at hcl
    | some fs =>
      simp only [he, Option.some.injEq] at hcl
      subst hcl
      exact Nat.le_trans ((eraseIters_sublist _ _ _ he).countP_le _)
        (h s (List.getElem?_mem hs0) q)

theorem newEngine_atMostOne (tag : TypeTag) (reqs : List (List TypeTag)) :
    (newEngine tag reqs).atMostOne := by
  intro s hs q
  simp only [newEngine, List.mem_map] at hs
  obtain ⟨r, _, rfl⟩ := hs
  simp

theorem World.run_atMostOne (coming : TypeTag → Nat → Filter → Bool)
    (ops : List Op) (w : World) (hrun : World.empty.run coming ops = some w) :
    ∀ en ∈ w.engines, en.atMostOne :=
  World.run_engines coming Engine.atMostOne
    (fun en p o rm h => Engine.updateObject_atMostOne coming en p o rm h)
    Engine.cleanTrash_atMostOne newEngine_atMostOne ops _ w hrun
    (by intro en hen; simp [World.empty] at hen)

/-- C19. In every state reached from a fresh scene by any sequence of calls
(addEngine, start, update, addObject, removeObject, addComponent,
removeComponent, setActive), every requirement of every engine holds at most
one active filter for each object. -/
theorem at_most_one_active_filter (coming : TypeTag → Nat → Filter → Bool)
    (ops : List Op) (w : World) (hrun : World.empty.run coming ops = some w) :
    ∀ en ∈ w.engines, ∀ (j : Nat) (p : ObjId),
      (en.getEntities j).countP (isActiveFor p) ≤ 1 := by
  intro en hen j p
  have h := World.run_atMostOne coming ops w hrun en hen
  unfold Engine.getEntities
  cases hs : en.slots[j]? with
  | none => simp
  | some s => exact h s (List.getElem?_mem hs) p

theorem at_most_one_active_filter_witness :
    ∃ w, World.empty.run acceptAll twoRetiredOps = some w ∧
      ∀ en ∈ w.engines, ∀ (j : Nat) (p : ObjId),
        (en.getEntities j).countP (isActiveFor p) ≤ 1 :=
  ⟨_, rfl, at_most_one_active_filter acceptAll twoRetiredOps _ rfl⟩

/-! ### Flush order and dangling filters -/

/-- C17. On a started scene with two engines, `update` calls `cleanTrash` of
the first engine before `onUpdate` of the second: the calls are, in order,
onUpdate 7, cleanTrash 7, onUpdate 8, cleanTrash 8. -/
theorem update_flushes_before_later_onUpdate :
    ∃ w w1 : World,
      World.empty.run acceptAll twoEngineOps = some w ∧
      w.started = true ∧
      w.update = some w1 ∧
      w1.log = w.log ++ [Event.onUpdate 7, Event.engineCleanTrash 7,
        Event.onUpdate 8, Event.engineCleanTrash 8] :=
  ⟨_, _, rfl, by decide, rfl, by decide⟩

/-- C20. After a component is removed twice and attached again, `update`
frees the instance that the new active filter has captured: the filter stays
active in `getEntities` while its object no longer stores the component.  An
active filter is also left with an inactive, then freed, component when an
earlier requirement of its engine refuses the object. -/
theorem active_filter_outlives_component :
    ∃ w w1 : World,
      World.empty.run acceptAll reattachOps = some w ∧
      w.getEntities 7 0 = [⟨0, true, [some 0]⟩] ∧
      (w.heap 0).getComponent 1 = none ∧
      Filter.intact (w.heap 0) [1] ⟨0, true, [some 0]⟩ = false ∧
      World.empty.run vetoFirst staleFilterOps = some w1 ∧
      w1.getEntities 7 1 = [⟨0, true, [some 0, some 1]⟩] ∧
      (w1.heap 0).getComponent 2 = none ∧
      Filter.intact (w1.heap 0) [1, 2] ⟨0, true, [some 0, some 1]⟩ = false :=
  ⟨_, _, rfl, by decide, by decide, by decide, rfl, by decide, by decide, by decide⟩

theorem slotIntact_of_pass (o : Object) (t : TypeTag)
    (h : passFilterComponent (o.getComponent t) = true) :
    slotIntact o t ((o.getComponent t).map Component.addr) = true := by
  cases hg : o.getComponent t with
  | none => simp [hg, passFilterComponent] at h
  | some c =>
    simp only [hg, passFilterComponent] at h
    simp [slotIntact, hg, h]

/-- A filter built by `makeFilter` for an object that passes the requirement
has every slot non-null, stored and active: this is the filter handed to the
coming hook. -/
theorem makeFilter_intact (req : List TypeTag) (p : ObjId) (o : Object)
    (h : passFilter req o = true) : Filter.intact o req (makeFilter req p o) = true := by
  unfold Filter.intact makeFilter
  simp only [List.length_map, decide_True, Bool.true_and]
  unfold passFilter at h
  induction req with
  | nil => rfl
  | cons t ts ih =>
    simp only [List.all_cons, Bool.and_eq_true] at h
    simp only [List.map_cons, List.zip_cons_cons, List.all_cons, Bool.and_eq_true]
    exact ⟨slotIntact_of_pass o t h.1, ih h.2⟩

/-! ### The log of the per-requirement hooks -/

theorem Engine.updateObject_site (coming : TypeTag → Nat → Filter → Bool) (en : Engine)
    (p : ObjId) (o : Object) (rm : Bool) :
    ∀ ev ∈ (en.updateObject coming p o rm).2, ∃ j, ev.site = some (en.tag, j) := by
  intro ev hev
  simp only [Engine.updateObject] at hev
  obtain ⟨j, s, _, hin⟩ := testFilter_events _ _ _ _ _ _ _ _ hev
  exact ⟨0 + j, Slot.testFilter_site _ _ _ _ _ _ _ _ hin⟩

theorem Engine.updateObject_site_ne (coming : TypeTag → Nat → Filter → Bool) (en : Engine)
    (p : ObjId) (o : Object) (rm : Bool) :
    ∀ ev ∈ (en.updateObject coming p o rm).2, ev.site ≠ none := by
  intro ev hev
  obtain ⟨j, hj⟩ := Engine.updateObject_site coming en p o rm ev hev
  simp [hj]

theorem World.deliver_log (coming : TypeTag → Nat → Filter → Bool) (p : ObjId)
    (ns : List Notice) (w : World) :
    ∃ evs, (w.deliver coming p ns).log = w.log ++ evs ∧ ∀ ev ∈ evs, ev.site ≠ none := by
  induction ns generalizing w with
  | nil => exact ⟨[], by simp [World.deliver], by simp⟩
  | cons n ns ih =>
    cases n with
    | changed =>
      simp only [World.deliver]
      obtain ⟨evs, h1, h2⟩ := ih
        { w with
          engines := (notifyObject coming p (w.heap p) w.notifiers (w.heap p).notifiers
            w.engines).1,
          log := w.log ++ (notifyObject coming p (w.heap p) w.notifiers (w.heap p).notifiers
            w.engines).2 }
      refine ⟨(notifyObject coming p (w.heap p) w.notifiers (w.heap p).notifiers
        w.engines).2 ++ evs, by rw [h1]; simp, ?_⟩
      intro ev hev
      rcases List.mem_append.1 hev with hev | hev
      · exact (notifyObject_preserves (P := fun _ => True) coming p (w.heap p)
          (fun en _ => ⟨trivial, Engine.updateObject_site_ne coming en p _ false⟩)
          w.notifiers (w.heap p).notifiers w.engines (fun _ _ => trivial)).2 ev hev
      · exact h2 ev hev
    | trash b =>
      simp only [World.deliver]
      exact ih _

theorem World.step_onObject (coming : TypeTag → Nat → Filter → Bool)
    (w w1 : World) (op : Op) (hstep : w.step coming op = some w1) (hop : op.onObject = true) :
    w1.started = w.started ∧
    w1.engines.map Engine.tag = w.engines.map Engine.tag ∧
    ∃ evs, w1.log = w.log ++ evs ∧ ∀ ev ∈ evs, ev.site ≠ none := by
  cases op with
  | addEngine tag reqs => simp [Op.onObject] at hop
  | start => simp [Op.onObject] at hop
  | update => simp [Op.onObject] at hop
  | addObject p =>
    simp only [World.step, Option.some.injEq] at hstep
    subst hstep
    unfold World.addObject
    split
    · exact ⟨rfl, rfl, [], by simp, by simp⟩
    · refine ⟨rfl, forEngines_tags (fun en => Engine.updateObject_tag coming en p _ false) _,
        _, rfl, ?_⟩
      exact (forEngines_preserves (P := fun _ => True)
        (fun en _ => ⟨trivial, Engine.updateObject_site_ne coming en p _ false⟩)
        w.engines (fun _ _ => trivial)).2
  | removeObject p =>
    simp only [World.step, Option.some.injEq] at hstep
    subst hstep
    unfold World.removeObject
    split
    · refine ⟨rfl, forEngines_tags (fun en => Engine.updateObject_tag coming en p _ true) _,
        _, rfl, ?_⟩
      exact (forEngines_preserves (P := fun _ => True)
        (fun en _ => ⟨trivial, Engine.updateObject_site_ne coming en p _ true⟩)
        w.engines (fun _ _ => trivial)).2
    · exact ⟨rfl, rfl, [], by simp, by simp⟩
  | addComponent p t payload =>
    simp only [World.step, Option.some.injEq] at hstep
    subst hstep
    unfold World.addComponent
    obtain ⟨_, h2, _, _, _, h6⟩ := World.deliver_frame coming p
      ((w.heap p).addComponent t w.nextAddr payload).2.2
      { w.setObject p ((w.heap p).addComponent t w.nextAddr payload).1 with
        nextAddr := w.nextAddr + 1 }
    exact ⟨h2, h6, World.deliver_log coming p _ _⟩
  | removeComponent p t =>
    simp only [World.step, Option.some.injEq] at hstep
    subst hstep
    unfold World.removeComponent
    obtain ⟨_, h2, _, _, _, h6⟩ := World.deliver_frame coming p
      ((w.heap p).removeComponent t).2.2 (w.setObject p ((w.heap p).removeComponent t).1)
    exact ⟨h2, h6, World.deliver_log coming p _ _⟩
  | setActive p t b =>
    simp only [World.step] at hstep
    unfold World.setActive at hstep
    cases hs : (w.heap p).setActive t b with
    | none => simp [hs] at hstep
    | some r =>
      simp only [hs, Option.some.injEq] at hstep
      subst hstep
      obtain ⟨_, h2, _, _, _, h6⟩ := World.deliver_frame coming p r.2 (w.setObject p r.1)
      exact ⟨h2, h6, World.deliver_log coming p _ _⟩

/-! ### The scene-driven hooks -/

theorem Event.ne_lifecycle_of_site (ev : Event) (h : ev.site ≠ none) (e : TypeTag) :
    ev ≠ Event.onStart e ∧ ev ≠ Event.onUpdate e := by
  constructor <;> rintro rfl <;> exact h rfl

theorem flushEngines_not_onStart (es : List Engine) (r : List Engine × List Event)
    (hr : flushEngines es = some r) : ∀ ev ∈ r.2, ∀ e, ev ≠ Event.onStart e := by
  induction es generalizing r with
  | nil =>
    simp only [flushEngines, Option.some.injEq] at hr
    subst hr
    simp
  | cons en es ih =>
    simp only [flushEngines] at hr
    cases hc : en.cleanTrash with
    | none => simp [hc] at hr
    | some en1 =>
      cases hfl : flushEngines es with
      | none => simp [hc, hfl] at hr
      | some r1 =>
        simp only [hc, hfl, Option.some.injEq] at hr
        subst hr
        intro ev hev e
        simp only [List.mem_cons] at hev
        rcases hev with rfl | rfl | hev
        · simp
        · simp
        · exact ih r1 hfl ev hev e

theorem cleanObjects_not_onStart (heap : ObjId → Object) (ps : List ObjId)
    (r : (ObjId → Object) × List Event) (hr : cleanObjects heap ps = some r) :
    ∀ ev ∈ r.2, ∀ e, ev ≠ Event.onStart e := by
  induction ps generalizing heap r with
  | nil =>
    simp only [cleanObjects, Option.some.injEq] at hr
    subst hr
    simp
  | cons p ps ih =>
    simp only [cleanObjects] at hr
    cases hc : (heap p).cleanTrash with
    | none => simp [hc] at hr
    | some o1 =>
      cases hcl : cleanObjects (fun q => if q = p then o1 else heap q) ps with
      | none => simp [hc, hcl] at hr
      | some r1 =>
        simp only [hc, hcl, Option.some.injEq] at hr
        subst hr
        intro ev hev e
        simp only [List.mem_cons] at hev
        rcases hev with rfl | hev
        · simp
        · exact ih _ r1 hcl ev hev e

theorem count_onStart_map (t : TypeTag) (es : List Engine) :
    (es.map fun en => Event.onStart en.tag).count (Event.onStart t)
      = (es.map Engine.tag).count t := by
  induction es with
  | nil => rfl
  | cons en es ih =>
    simp only [List.map_cons, List.count_cons, ih]
    by_cases h : en.tag = t
    · simp [h]
    · simp [h]

theorem World.lifecycle_of_append (w w1 : World) (evs : List Event)
    (hst : w1.started = w.started)
    (htags : w1.engines.map Engine.tag = w.engines.map Engine.tag)
    (hlog : w1.log = w.log ++ evs)
    (hevs : ∀ ev ∈ evs, ∀ e, ev ≠ Event.onStart e ∧ (w.started = false → ev ≠ Event.onUpdate e))
    (h : w.lifecycle) : w1.lifecycle := by
  obtain ⟨h1, h2, h3, h4⟩ := h
  unfold World.lifecycle
  rw [hst, htags, hlog]
  refine ⟨h1, ?_, ?_, ?_⟩
  · intro hs ev hev e
    rcases List.mem_append.1 hev with hev | hev
    · exact h2 hs ev hev e
    · exact ⟨(hevs ev hev e).1, (hevs ev hev e).2 hs⟩
  · intro hs t ht
    rw [List.count_append, h3 hs t ht]
    have : evs.count (Event.onStart t) = 0 :=
      List.count_eq_zero.2 (fun hm => (hevs _ hm t).1 rfl)
    omega
  · intro e he
    rcases List.mem_append.1 he with he | he
    · exact h4 e he
    · exact absurd rfl (hevs _ he e).1

theorem World.step_lifecycle (coming : TypeTag → Nat → Filter → Bool)
    (w w1 : World) (op : Op) (hstep : w.step coming op = some w1)
    (h : w.lifecycle) : w1.lifecycle := by
  by_cases hop : op.onObject = true
  · obtain ⟨h1, h2, evs, h3, h4⟩ := World.step_onObject coming w w1 op hstep hop
    exact World.lifecycle_of_append w w1 evs h1 h2 h3
      (fun ev hev e => ⟨(Event.ne_lifecycle_of_site ev (h4 ev hev) e).1,
        fun _ => (Event.ne_lifecycle_of_site ev (h4 ev hev) e).2⟩) h
  · cases op with
    | addObject p => simp [Op.onObject] at hop
    | removeObject p => simp [Op.onObject] at hop
    | addComponent p t payload => simp [Op.onObject] at hop
    | removeComponent p t => simp [Op.onObject] at hop
    | setActive p t b => simp [Op.onObject] at hop
    | addEngine tag reqs =>
      simp only [World.step, Option.some.injEq] at hstep
      subst hstep
      unfold World.addEngine
      split
      · exact h
      · rename_i hany
        obtain ⟨h1, h2, h3, h4⟩ := h
        have hnot : tag ∉ w.engines.map Engine.tag := by
          intro hm
          apply hany
          rw [List.mem_map] at hm
          obtain ⟨y, hy, hyt⟩ := hm
          simp only [List.any_eq_true, decide_eq_true_eq]
          exact ⟨y, hy, hyt⟩
        have hev := (updateObjects_preserves (P := fun _ => True) coming w.heap
          (fun p en _ => ⟨trivial, Engine.updateObject_site_ne coming en p _ false⟩)
          w.objects (newEngine tag reqs) trivial).2
        have htag : (updateObjects coming w.heap w.objects (newEngine tag reqs)).1.tag = tag :=
          updateObjects_tag coming w.heap w.objects (newEngine tag reqs)
        have hmem : ∀ t, t ∈ (insertEngine
            (updateObjects coming w.heap w.objects (newEngine tag reqs)).1 w.engines).map
            Engine.tag ↔ t = tag ∨ t ∈ w.engines.map Engine.tag := by
          intro t
          simp only [List.mem_map, mem_insertEngine]
          constructor
          · rintro ⟨y, hy | hy, rfl⟩
            · exact Or.inl (hy ▸ htag)
            · exact Or.inr ⟨y, hy, rfl⟩
          · rintro (rfl | ⟨y, hy, rfl⟩)
            · exact ⟨_, Or.inl rfl, htag⟩
            · exact ⟨y, Or.inr hy, rfl⟩
        have hzero : ∀ t, (updateObjects coming w.heap w.objects
            (newEngine tag reqs)).2.count (Event.onStart t) = 0 := by
          intro t
          exact List.count_eq_zero.2
            (fun hm => (Event.ne_lifecycle_of_site _ (hev _ hm) t).1 rfl)
        refine ⟨?_, ?_, ?_, ?_⟩
        · apply insertEngine_tags_nodup _ _ _ h1
          rw [htag]
          exact hnot
        · intro hs ev hev1 e
          have hs' : w.started = false := hs
          simp only [hs', Bool.false_eq_true, if_false, List.append_nil,
            List.mem_append] at hev1
          rcases hev1 with hev1 | hev1
          · exact h2 hs' ev hev1 e
          · exact Event.ne_lifecycle_of_site ev (hev ev hev1) e
        · intro hs t ht
          have hs' : w.started = true := hs
          rcases (hmem t).1 ht with rfl | ht
          · have hlog : w.log.count (Event.onStart t) = 0 :=
              List.count_eq_zero.2 (fun hm => hnot (h4 t hm))
            simp only [hs', if_true, List.count_append, hlog, hzero]
            simp
          · have hne : tag ≠ t := fun heq => hnot (heq ▸ ht)
            have hz : [Event.onStart tag].count (Event.onStart t) = 0 :=
              List.count_eq_zero.2 (by simp [Ne.symm hne])
            simp only [hs', if_true, List.count_append, h3 hs' t ht, hzero, hz]
        · intro e he
          rw [hmem]
          simp only [List.mem_append] at he
          rcases he with (he | he) | he
          · exact Or.inr (h4 e he)
          · exact absurd rfl (Event.ne_lifecycle_of_site _ (hev _ he) e).1
          · split at he
            · simp only [List.mem_singleton, Event.onStart.injEq] at he
              exact Or.inl he
            · simp at he
    | start =>
      simp only [World.step, Option.some.injEq] at hstep
      subst hstep
      unfold World.start
      split
      · exact h
      · rename_i hns
        have hs' : w.started = false := by simpa using hns
        obtain ⟨h1, h2, h3, h4⟩ := h
        refine ⟨h1, ?_, ?_, ?_⟩
        · intro hs
          simp at hs
        · intro _ t ht
          have hlog : w.log.count (Event.onStart t) = 0 :=
            List.count_eq_zero.2 (fun hm => (h2 hs' _ hm t).1 rfl)
          show (w.log ++ w.engines.map fun en => Event.onStart en.tag).count (Event.onStart t) = 1
          rw [List.count_append, hlog, count_onStart_map, Nat.zero_add]
          exact List.count_eq_one_of_mem h1 ht
        · intro e he
          have he' : Event.onStart e ∈ w.log ++ w.engines.map fun en => Event.onStart en.tag := he
          rcases List.mem_append.1 he' with he' | he'
          · exact h4 e he'
          · simp only [List.mem_map, Event.onStart.injEq] at he'
            obtain ⟨en, hen, rfl⟩ := he'
            exact List.mem_map.2 ⟨en, hen, rfl⟩
    | update =>
      simp only [World.step] at hstep
      unfold World.update at hstep
      split at hstep
      · simp only [Option.some.injEq] at hstep
        subst hstep
        exact h
      · rename_i hns
        have hs' : w.started = true := by simpa using hns
        cases hf : flushEngines w.engines with
        | none => simp [hf] at hstep
        | some r =>
          cases hcl : cleanObjects w.heap w.objectsNeedClean with
          | none => simp [hf, hcl] at hstep
          | some r1 =>
            simp only [hf, hcl, Option.some.injEq] at hstep
            subst hstep
            refine World.lifecycle_of_append w _ (r.2 ++ r1.2) ?_ ?_ ?_ ?_ h
            · rfl
            · exact flushEngines_tags _ r hf
            · simp
            intro ev hev e
            refine ⟨?_, fun hs => by simp [hs'] at hs⟩
            rcases List.mem_append.1 hev with hev | hev
            · exact flushEngines_not_onStart _ r hf ev hev e
            · exact cleanObjects_not_onStart _ _ r1 hcl ev hev e

theorem World.step_started (coming : TypeTag → Nat → Filter → Bool)
    (w w1 : World) (op : Op) (hstep : w.step coming op = some w1) :
    w1.started = (w.started || decide (op = Op.start)) := by
  by_cases hop : op.onObject = true
  · rw [(World.step_onObject coming w w1 op hstep hop).1]
    cases op <;> simp [Op.onObject] at hop ⊢
  · cases op with
    | addObject p => simp [Op.onObject] at hop
    | removeObject p => simp [Op.onObject] at hop
    | addComponent p t payload => simp [Op.onObject] at hop
    | removeComponent p t => simp [Op.onObject] at hop
    | setActive p t b => simp [Op.onObject] at hop
    | addEngine tag reqs =>
      simp only [World.step, Option.some.injEq] at hstep
      subst hstep
      unfold World.addEngine
      split <;> simp
    | start =>
      simp only [World.step, Option.some.injEq] at hstep
      subst hstep
      unfold World.start
      split
      · rename_i hs
        simp [hs]
      · simp
    | update =>
      simp only [World.step] at hstep
      unfold World.update at hstep
      split at hstep
      · simp only [Option.some.injEq] at hstep
        subst hstep
        simp
      · cases hf : flushEngines w.engines with
        | none => simp [hf] at hstep
        | some r =>
          cases hcl : cleanObjects w.heap w.objectsNeedClean with
          | none => simp [hf, hcl] at hstep
          | some r1 =>
            simp only [hf, hcl, Option.some.injEq] at hstep
            subst hstep
            simp

theorem World.run_started (coming : TypeTag → Nat → Filter → Bool)
    (ops : List Op) (w w1 : World) (hrun : w.run coming ops = some w1) :
    w1.started = (w.started || decide (Op.start ∈ ops)) := by
  induction ops generalizing w with
  | nil =>
    simp only [World.run, Option.some.injEq] at hrun
    subst hrun
    simp
  | cons op ops ih =>
    simp only [World.run] at hrun
    cases hs : w.step coming op with
    | none => simp [hs] at hrun
    | some w2 =>
      simp only [hs] at hrun
      rw [ih w2 hrun, World.step_started coming w w2 op hs]
      by_cases h1 : op = Op.start
      · simp [h1]
      · by_cases h2 : Op.start ∈ ops
        · simp [h2]
        · have h3 : ¬ Op.start = op := fun h => h1 h.symm
          simp [h1, h2, h3]

theorem World.run_lifecycle (coming : TypeTag → Nat → Filter → Bool)
    (ops : List Op) (w w1 : World) (hrun : w.run coming ops = some w1)
    (h : w.lifecycle) : w1.lifecycle := by
  induction ops generalizing w with
  | nil =>
    simp only [World.run, Option.some.injEq] at hrun
    subst hrun
    exact h
  | cons op ops ih =>
    simp only [World.run] at hrun
    cases hs : w.step coming op with
    | none => simp [hs] at hrun
    | some w2 =>
      simp only [hs] at hrun
      exact ih w2 hrun (World.step_lifecycle coming w w2 op hs h)

/-- C15. Lifecycle gating: `update` on a scene that is not started returns the
state it was given and a second `start` likewise; the first `start` calls
`onStart` of each registered engine, and `addEngine` on a started scene ends
with the `onStart` call of the new engine; over every sequence of calls on a
fresh scene, no `onStart` and no `onUpdate` call is logged when `start` is not
in the sequence, and when it is, each registered engine has exactly one
`onStart` call in the log. -/
theorem lifecycle_gating (coming : TypeTag → Nat → Filter → Bool) :
    (∀ w : World, w.started = false → w.update = some w) ∧
    (∀ w : World, w.started = true → w.start = w) ∧
    (∀ w : World, w.started = false →
      w.start.log = w.log ++ w.engines.map fun en => Event.onStart en.tag) ∧
    (∀ (w : World) (tag : TypeTag) (reqs : List (List TypeTag)), w.started = true →
      (∀ en ∈ w.engines, en.tag ≠ tag) →
      ∃ evs, (w.addEngine coming tag reqs).log = w.log ++ evs ++ [Event.onStart tag] ∧
        ∀ ev ∈ evs, ev.site ≠ none) ∧
    (∀ (ops : List Op) (w : World), World.empty.run coming ops = some w →
      (Op.start ∉ ops →
        ∀ e, Event.onStart e ∉ w.log ∧ Event.onUpdate e ∉ w.log) ∧
      (Op.start ∈ ops →
        ∀ en ∈ w.engines, w.log.count (Event.onStart en.tag) = 1)) := by
  refine ⟨?_, ?_, ?_, ?_, ?_⟩
  · intro w hs
    simp [World.update, hs]
  · intro w hs
    simp [World.start, hs]
  · intro w hs
    simp [World.start, hs]
  · intro w tag reqs hs hnew
    have hany : (w.engines.any fun en => decide (en.tag = tag)) = false := by
      rw [List.any_eq_false]
      intro en hen
      simpa using hnew en hen
    refine ⟨(updateObjects coming w.heap w.objects (newEngine tag reqs)).2, ?_, ?_⟩
    · simp [World.addEngine, hany, hs]
    · exact (updateObjects_preserves (P := fun _ => True) coming w.heap
        (fun p en _ => ⟨trivial, Engine.updateObject_site_ne coming en p _ false⟩)
        w.objects (newEngine tag reqs) trivial).2
  · intro ops w hrun
    have h0 : World.empty.lifecycle := by
      refine ⟨by simp [World.empty], ?_, ?_, ?_⟩ <;> simp [World.empty]
    obtain ⟨_, h2, h3, _⟩ := World.run_lifecycle coming ops _ w hrun h0
    have hst := World.run_started coming ops _ w hrun
    constructor
    · intro hno e
      have hs : w.started = false := by
        rw [hst]
        simp [World.empty, hno]
      exact ⟨fun hm => (h2 hs _ hm e).1 rfl, fun hm => (h2 hs _ hm e).2 rfl⟩
    · intro hyes en hen
      have hs : w.started = true := by
        rw [hst]
        simp [hyes]
      exact h3 hs en.tag (List.mem_map.2 ⟨en, hen, rfl⟩)

theorem lifecycle_gating_witness :
    ∃ w, World.empty.run acceptAll twoEngineOps = some w ∧
      Op.start ∈ twoEngineOps ∧
      ∀ en ∈ w.engines, w.log.count (Event.onStart en.tag) = 1 :=
  ⟨_, rfl, by decide,
    ((lifecycle_gating acceptAll).2.2.2.2 twoEngineOps _ rfl).2 (by decide)⟩

/-! ### Retirement of an object -/

theorem retire_none (p : ObjId) (k : Nat) (fs : List Filter)
    (h : ∀ f ∈ fs, isActiveFor p f = false) :
    retireAll p fs = fs ∧ activePositions p k fs = [] ∧ fs.filter (isActiveFor p) = [] := by
  induction fs generalizing k with
  | nil => exact ⟨rfl, rfl, rfl⟩
  | cons x xs ih =>
    have hx := h x (List.mem_cons_self _ _)
    obtain ⟨h1, h2, h3⟩ := ih (k + 1) (fun f hf => h f (List.mem_cons_of_mem _ hf))
    unfold retireAll at h1 ⊢
    refine ⟨?_, ?_, ?_⟩
    · simp [hx, h1]
    · simp [activePositions, hx, h2]
    · simp [hx, h3]

theorem retire_one (p : ObjId) (k : Nat) (fs : List Filter) (f : Filter)
    (hone : fs.countP (isActiveFor p) ≤ 1)
    (hf : fs[fs.findIdx (isActiveFor p)]? = some f) :
    retireAll p fs = fs.set (fs.findIdx (isActiveFor p)) { f with active := false } ∧
    activePositions p k fs = [k + fs.findIdx (isActiveFor p)] ∧
    fs.filter (isActiveFor p) = [f] := by
  induction fs generalizing k with
  | nil => simp at hf
  | cons x xs ih =>
    by_cases hx : isActiveFor p x = true
    · have hidx : (x :: xs).findIdx (isActiveFor p) = 0 := by
        simp [List.findIdx_cons, hx]
      rw [hidx] at hf ⊢
      simp only [List.getElem?_cons_zero, Option.some.injEq] at hf
      subst hf
      have hzero : ∀ g ∈ xs, isActiveFor p g = false := by
        simp only [List.countP_cons, hx, if_true] at hone
        have : xs.countP (isActiveFor p) = 0 := by omega
        intro g hg
        have := (List.countP_eq_zero.1 this) g hg
        simpa using this
      obtain ⟨h1, h2, h3⟩ := retire_none p (k + 1) xs hzero
      unfold retireAll at h1 ⊢
      refine ⟨?_, ?_, ?_⟩
      · simp [hx, h1]
      · simp [activePositions, hx, h2]
      · simp [hx, h3]
    · have hx' : isActiveFor p x = false := by simpa using hx
      have hidx : (x :: xs).findIdx (isActiveFor p) = xs.findIdx (isActiveFor p) + 1 := by
        simp [List.findIdx_cons, hx']
      rw [hidx] at hf ⊢
      simp only [List.getElem?_cons_succ] at hf
      have hone1 : xs.countP (isActiveFor p) ≤ 1 := by
        simpa [List.countP_cons, hx'] using hone
      obtain ⟨h1, h2, h3⟩ := ih (k + 1) hone1 hf
      unfold retireAll at h1 ⊢
      refine ⟨?_, ?_, ?_⟩
      · simp [hx', h1]
      · simp only [activePositions, hx', Bool.false_eq_true, if_false, List.nil_append, h2]
        congr 1
        omega
      · simp [hx', h3]

theorem Slot.testFilter_retire (c : Filter → Bool) (e : TypeTag) (i : Nat) (s : Slot)
    (p : ObjId) (o : Object) (h : s.atMostOne) :
    s.testFilter c e i p o true = (s.retired p, s.removedCalls e i p, true) := by
  unfold Slot.testFilter Slot.retired Slot.removedCalls
  simp only [Bool.not_true, Bool.false_and, Bool.false_eq_true, if_false]
  cases hf : s.filters[s.filters.findIdx (isActiveFor p)]? with
  | some f =>
    obtain ⟨h1, h2, h3⟩ := retire_one p 0 s.filters f (h p) hf
    simp [h1, h2, h3]
  | none =>
    have hlen : s.filters.findIdx (isActiveFor p) = s.filters.length := by
      have h1 := List.getElem?_eq_none_iff.1 hf
      have h2 : s.filters.findIdx (isActiveFor p) ≤ s.filters.length :=
        List.findIdx_le_length _
      omega
    obtain ⟨h1, h2, h3⟩ := retire_none p 0 s.filters (List.findIdx_eq_length.1 hlen)
    simp [h1, h2, h3]

theorem testFilter_remove (coming : Nat → Filter → Bool) (e : TypeTag) (p : ObjId)
    (o : Object) (i : Nat) (slots : List Slot) (h : ∀ s ∈ slots, s.atMostOne) :
    testFilter coming e p o true i slots
      = (slots.map (Slot.retired p), removedCallsFrom e p i slots) := by
  induction slots generalizing i with
  | nil => rfl
  | cons s rest ih =>
    simp only [testFilter,
      Slot.testFilter_retire _ e i s p o (h s (List.mem_cons_self _ _)), if_true,
      ih (i + 1) (fun x hx => h x (List.mem_cons_of_mem _ hx)), List.map_cons,
      removedCallsFrom]

theorem forEngines_remove (coming : TypeTag → Nat → Filter → Bool) (p : ObjId) (o : Object)
    (es : List Engine) (h : ∀ en ∈ es, en.atMostOne) :
    forEngines (fun en => en.updateObject coming p o true) es
      = (es.map (Engine.retired p), es.flatMap (Engine.removedCalls p)) := by
  induction es with
  | nil => rfl
  | cons en es ih =>
    have ih1 := ih (fun x hx => h x (List.mem_cons_of_mem _ hx))
    simp only [forEngines]
    rw [ih1]
    simp only [Engine.updateObject,
      testFilter_remove _ _ _ _ _ _ (h en (List.mem_cons_self _ _)), List.map_cons,
      List.flatMap_cons, Engine.retired, Engine.removedCalls]

/-- C11. In a state reached from a fresh scene, `removeObject` of a registered
object deactivates, in every requirement of every engine, each active filter
of the object, queues its position for retirement and passes it once to the
removed hook, whether the object passes the requirement or not; it creates no
filter, makes no other hook call, removes the object from the object list and
leaves the rest of the state as it was.  For an object that is not registered
it returns the state it was given. -/
theorem removeObject_retires_everywhere (coming : TypeTag → Nat → Filter → Bool)
    (ops : List Op) (w : World) (hrun : World.empty.run coming ops = some w) (O : ObjId) :
    (O ∈ w.objects →
      (w.removeObject coming O).engines = w.engines.map (Engine.retired O) ∧
      (w.removeObject coming O).log = w.log ++ w.engines.flatMap (Engine.removedCalls O) ∧
      (w.removeObject coming O).objects = w.objects.erase O ∧
      O ∉ (w.removeObject coming O).objects ∧
      (∀ en ∈ (w.removeObject coming O).engines, ∀ s ∈ en.slots, ∀ f ∈ s.filters,
        f.object = O → f.active = false) ∧
      (w.removeObject coming O).heap = w.heap ∧
      (w.removeObject coming O).objectsNeedClean = w.objectsNeedClean ∧
      (w.removeObject coming O).started = w.started) ∧
    (O ∉ w.objects → w.removeObject coming O = w) := by
  constructor
  · intro hO
    have hone := World.run_atMostOne coming ops w hrun
    have hreg := World.run_registeredOnce coming ops _ w hrun
      (by simp [World.registeredOnce, World.empty])
    have hfe := forEngines_remove coming O (w.heap O) w.engines hone
    simp only [World.removeObject, hO, if_true, hfe]
    refine ⟨trivial, trivial, trivial, ?_, ?_, trivial, trivial, trivial⟩
    · exact fun hm => (List.Nodup.mem_erase_iff hreg.1).1 hm |>.1 rfl
    · intro en hen s hs f hf hfO
      simp only [List.mem_map] at hen
      obtain ⟨en0, _, rfl⟩ := hen
      simp only [Engine.retired, List.mem_map] at hs
      obtain ⟨s0, _, rfl⟩ := hs
      simp only [Slot.retired, retireAll, List.mem_map] at hf
      obtain ⟨f0, _, rfl⟩ := hf
      by_cases hact : isActiveFor O f0 = true
      · simp [hact]
      · simp only [hact, Bool.false_eq_true, if_false] at hfO ⊢
        simpa [isActiveFor, hfO] using hact
  · intro hO
    simp [World.removeObject, hO]

theorem removeObject_retires_everywhere_witness :
    ∃ w, World.empty.run acceptAll twoRetiredOps = some w ∧ 2 ∈ w.objects ∧
      (w.removeObject acceptAll 2).engines = w.engines.map (Engine.retired 2) ∧
      2 ∉ (w.removeObject acceptAll 2).objects :=
  ⟨_, rfl, by decide,
    ((removeObject_retires_everywhere acceptAll twoRetiredOps _ rfl 2).1 (by decide)).1,
    ((removeObject_retires_everywhere acceptAll twoRetiredOps _ rfl 2).1 (by decide)).2.2.2.1⟩

/-! ### Order of the callbacks on an acyclic net -/

theorem forEachEdge_mono {β : Type} (f f1 : Nat → Option (List β))
    (h : ∀ m t, f m = some t → f1 m = some t) (ms : List Nat) (ts : List β)
    (hms : forEachEdge f ms = some ts) : forEachEdge f1 ms = some ts := by
  induction ms generalizing ts with
  | nil => simpa [forEachEdge] using hms
  | cons m ms ih =>
    simp only [forEachEdge] at hms ⊢
    cases hf : f m with
    | none => simp [hf] at hms
    | some t =>
      cases hr : forEachEdge f ms with
      | none => simp [hf, hr] at hms
      | some ts1 =>
        simp only [hf, hr, Option.some.injEq] at hms
        simp [h m t hf, ih ts1 hr, hms]

theorem notify_succ {α : Type} (g : Net) (a : α) (fuel n : Nat) (t : List (Nat × α))
    (h : notify g a fuel n = some t) : notify g a (fuel + 1) n = some t := by
  induction fuel generalizing n t with
  | zero => simp [notify] at h
  | succ fuel ih =>
    simp only [notify] at h ⊢
    cases hr : forEachEdge (notify g a fuel) (g n).notifiers with
    | none => simp [hr] at h
    | some ts =>
      simp only [hr, Option.some.injEq] at h
      have := forEachEdge_mono (notify g a fuel) (notify g a (fuel + 1))
        (fun m t hm => ih m t hm) _ ts hr
      simp only [notify] at this
      simp [this, h]

theorem notify_le {α : Type} (g : Net) (a : α) (fuel fuel1 n : Nat) (t : List (Nat × α))
    (hle : fuel ≤ fuel1) (h : notify g a fuel n = some t) : notify g a fuel1 n = some t := by
  induction hle with
  | refl => exact h
  | step _ ih => exact notify_succ g a _ n t ih

theorem notifyLast_succ {α : Type} (g : Net) (a : α) (fuel n : Nat) (t : List (Nat × α))
    (h : notifyLast g a fuel n = some t) : notifyLast g a (fuel + 1) n = some t := by
  induction fuel generalizing n t with
  | zero => simp [notifyLast] at h
  | succ fuel ih =>
    simp only [notifyLast] at h ⊢
    cases hr : forEachEdge (notifyLast g a fuel) (g n).notifiers with
    | none => simp [hr] at h
    | some ts =>
      simp only [hr, Option.some.injEq] at h
      have := forEachEdge_mono (notifyLast g a fuel) (notifyLast g a (fuel + 1))
        (fun m t hm => ih m t hm) _ ts hr
      simp only [notifyLast] at this
      simp [this, h]

theorem notifyLast_le {α : Type} (g : Net) (a : α) (fuel fuel1 n : Nat) (t : List (Nat × α))
    (hle : fuel ≤ fuel1) (h : notifyLast g a fuel n = some t) :
    notifyLast g a fuel1 n = some t := by
  induction hle with
  | refl => exact h
  | step _ ih => exact notifyLast_succ g a _ n t ih

theorem count_ownCall {α : Type} [DecidableEq α] (g : Net) (a : α) (n m : Nat) :
    (ownCall g a n).count (m, a)
      = if (g m).callback = true then (if n = m then 1 else 0) else 0 := by
  unfold ownCall
  by_cases hnm : n = m
  · subst hnm
    by_cases hc : (g n).callback = true
    · simp [hc]
    · simp [hc]
  · have hne : ((n, a) == (m, a)) = false := by simp [hnm]
    by_cases hc : (g n).callback = true
    · simp [hc, hnm, List.count_cons, hne]
    · simp [hc, hnm]

theorem notify_spec {α : Type} [DecidableEq α] (g : Net) (rank : Nat → Nat)
    (hacyclic : ∀ n, ∀ m ∈ (g n).notifiers, rank m < rank n) (a : α) (fuel n : Nat)
    (hfuel : rank n < fuel) :
    ∃ t, notify g a fuel n = some t ∧ PreOrder g a n t ∧ (∀ x ∈ t, x.2 = a) ∧
      ∀ m, t.count (m, a) = if (g m).callback = true then pathCount g fuel n m else 0 := by
  induction fuel generalizing n with
  | zero => omega
  | succ fuel ih =>
    have hlist : ∀ ms : List Nat, (∀ m ∈ ms, rank m < fuel) →
        ∃ ts, forEachEdge (notify g a fuel) ms = some ts ∧ PreOrderEach g a ms ts ∧
          (∀ x ∈ ts, x.2 = a) ∧
          ∀ m, ts.count (m, a)
            = if (g m).callback = true then (ms.map fun b => pathCount g fuel b m).sum
              else 0 := by
      intro ms
      induction ms with
      | nil =>
        intro _
        exact ⟨[], rfl, PreOrderEach.nil, by simp, by simp⟩
      | cons b bs ihb =>
        intro hb
        obtain ⟨t, h1, h2, h3, h4⟩ := ih b (hb b (List.mem_cons_self _ _))
        obtain ⟨ts, k1, k2, k3, k4⟩ := ihb (fun m hm => hb m (List.mem_cons_of_mem _ hm))
        refine ⟨t ++ ts, by simp [forEachEdge, h1, k1], PreOrderEach.cons b bs t ts h2 k2,
          ?_, ?_⟩
        · intro x hx
          rcases List.mem_append.1 hx with hx | hx
          · exact h3 x hx
          · exact k3 x hx
        · intro m
          rw [List.count_append, h4 m, k4 m]
          by_cases hc : (g m).callback = true
          · simp [hc]
          · simp [hc]
    obtain ⟨ts, k1, k2, k3, k4⟩ := hlist (g n).notifiers
      (fun m hm => by have := hacyclic n m hm; omega)
    refine ⟨ownCall g a n ++ ts, by simp [notify, k1], PreOrder.node n ts k2, ?_, ?_⟩
    · intro x hx
      rcases List.mem_append.1 hx with hx | hx
      · unfold ownCall at hx
        split at hx
        · simp only [List.mem_singleton] at hx
          rw [hx]
        · simp at hx
      · exact k3 x hx
    · intro m
      rw [List.count_append, count_ownCall, k4 m]
      by_cases hc : (g m).callback = true
      · simp [hc, pathCount]
      · simp [hc]

theorem notifyLast_spec {α : Type} [DecidableEq α] (g : Net) (rank : Nat → Nat)
    (hacyclic : ∀ n, ∀ m ∈ (g n).notifiers, rank m < rank n) (a : α) (fuel n : Nat)
    (hfuel : rank n < fuel) :
    ∃ t, notifyLast g a fuel n = some t ∧ PostOrder g a n t ∧ (∀ x ∈ t, x.2 = a) ∧
      ∀ m, t.count (m, a) = if (g m).callback = true then pathCount g fuel n m else 0 := by
  induction fuel generalizing n with
  | zero => omega
  | succ fuel ih =>
    have hlist : ∀ ms : List Nat, (∀ m ∈ ms, rank m < fuel) →
        ∃ ts, forEachEdge (notifyLast g a fuel) ms = some ts ∧ PostOrderEach g a ms ts ∧
          (∀ x ∈ ts, x.2 = a) ∧
          ∀ m, ts.count (m, a)
            = if (g m).callback = true then (ms.map fun b => pathCount g fuel b m).sum
              else 0 := by
      intro ms
      induction ms with
      | nil =>
        intro _
        exact ⟨[], rfl, PostOrderEach.nil, by simp, by simp⟩
      | cons b bs ihb =>
        intro hb
        obtain ⟨t, h1, h2, h3, h4⟩ := ih b (hb b (List.mem_cons_self _ _))
        obtain ⟨ts, k1, k2, k3, k4⟩ := ihb (fun m hm => hb m (List.mem_cons_of_mem _ hm))
        refine ⟨t ++ ts, by simp [forEachEdge, h1, k1], PostOrderEach.cons b bs t ts h2 k2,
          ?_, ?_⟩
        · intro x hx
          rcases List.mem_append.1 hx with hx | hx
          · exact h3 x hx
          · exact k3 x hx
        · intro m
          rw [List.count_append, h4 m, k4 m]
          by_cases hc : (g m).callback = true
          · simp [hc]
          · simp [hc]
    obtain ⟨ts, k1, k2, k3, k4⟩ := hlist (g n).notifiers
      (fun m hm => by have := hacyclic n m hm; omega)
    refine ⟨ts ++ ownCall g a n, by simp [notifyLast, k1], PostOrder.node n ts k2, ?_, ?_⟩
    · intro x hx
      rcases List.mem_append.1 hx with hx | hx
      · exact k3 x hx
      · unfold ownCall at hx
        split at hx
        · simp only [List.mem_singleton] at hx
          rw [hx]
        · simp at hx
    · intro m
      rw [List.count_append, count_ownCall, k4 m]
      by_cases hc : (g m).callback = true
      · simp [hc, pathCount, Nat.add_comm]
      · simp [hc]

/-- C14. On a net whose edges all go down a rank (an acyclic net), `notify` on
`n` returns with any depth bound above the rank of `n`, and the callback calls
it makes are in pre-order: the callback of `n` first when it is set, then the
whole sequence of each outgoing edge in insertion order; `notifyLast` returns
likewise and its calls are in post-order, the callback of `n` last.  Every
call carries the argument given, and the callback of a notifier is called as
many times as there are paths from `n` to it. -/
theorem notify_order {α : Type} [DecidableEq α] (g : Net) (rank : Nat → Nat)
    (hacyclic : ∀ n, ∀ m ∈ (g n).notifiers, rank m < rank n) (a : α) (n : Nat) :
    ∃ t t1 : List (Nat × α),
      (∀ fuel, rank n < fuel → notify g a fuel n = some t) ∧
      PreOrder g a n t ∧
      (∀ fuel, rank n < fuel → notifyLast g a fuel n = some t1) ∧
      PostOrder g a n t1 ∧
      (∀ x ∈ t, x.2 = a) ∧ (∀ x ∈ t1, x.2 = a) ∧
      ∀ m, (g m).callback = true →
        t.count (m, a) = pathCount g (rank n + 1) n m ∧
        t1.count (m, a) = pathCount g (rank n + 1) n m := by
  obtain ⟨t, h1, h2, h3, h4⟩ := notify_spec g rank hacyclic a (rank n + 1) n (by omega)
  obtain ⟨t1, k1, k2, k3, k4⟩ := notifyLast_spec g rank hacyclic a (rank n + 1) n (by omega)
  refine ⟨t, t1, ?_, h2, ?_, k2, h3, k3, ?_⟩
  · intro fuel hf
    exact notify_le g a _ fuel n t (by omega) h1
  · intro fuel hf
    exact notifyLast_le g a _ fuel n t1 (by omega) k1
  · intro m hm
    exact ⟨by rw [h4 m]; simp [hm], by rw [k4 m]; simp [hm]⟩

theorem diamondNet_acyclic :
    ∀ n, ∀ m ∈ (diamondNet n).notifiers, diamondRank m < diamondRank n := by
  intro n m hm
  rcases n with _ | _ | _ | _ | n
  · simp [diamondNet, Net.connect, Net.set] at hm
    rcases hm with rfl | rfl <;> decide
  · simp [diamondNet, Net.connect, Net.set] at hm
    subst hm
    decide
  · simp [diamondNet, Net.connect, Net.set] at hm
    subst hm
    decide
  · simp [diamondNet, Net.connect, Net.set] at hm
  · simp [diamondNet, Net.connect, Net.set] at hm

theorem notify_order_witness :
    (∀ n, ∀ m ∈ (diamondNet n).notifiers, diamondRank m < diamondRank n) ∧
    ∃ t t1 : List (Nat × Char),
      (∀ fuel, diamondRank 0 < fuel → notify diamondNet 'x' fuel 0 = some t) ∧
      PreOrder diamondNet 'x' 0 t ∧
      (∀ fuel, diamondRank 0 < fuel → notifyLast diamondNet 'x' fuel 0 = some t1) ∧
      PostOrder diamondNet 'x' 0 t1 ∧
      (∀ x ∈ t, x.2 = 'x') ∧ (∀ x ∈ t1, x.2 = 'x') ∧
      ∀ m, (diamondNet m).callback = true →
        t.count (m, 'x') = pathCount diamondNet (diamondRank 0 + 1) 0 m ∧
        t1.count (m, 'x') = pathCount diamondNet (diamondRank 0 + 1) 0 m :=
  ⟨diamondNet_acyclic, notify_order diamondNet diamondRank diamondNet_acyclic 'x' 0⟩

/-! ### Edges of the net -/

theorem Net.connect_notifiers (g : Net) (a b x : Nat) :
    ((g.connect a b) x).notifiers
      = if x = a then (g a).notifiers ++ [b] else (g x).notifiers := by
  unfold Net.connect Net.set
  by_cases hxa : x = a <;> by_cases hxb : x = b <;> by_cases hba : b = a <;>
    simp [hxa, hxb, hba] <;> simp_all

theorem Net.connect_notifiedBy (g : Net) (a b y : Nat) :
    ((g.connect a b) y).notifiedBy
      = if y = b then (g b).notifiedBy ++ [a] else (g y).notifiedBy := by
  unfold Net.connect Net.set
  by_cases hya : y = a <;> by_cases hyb : y = b <;> by_cases hba : b = a <;>
    simp [hya, hyb, hba] <;> simp_all

/-- After `connect`, the edge relation is still mutually consistent, with one
more edge from `a` to `b` on both sides. -/
theorem Net.connect_consistent (g : Net) (a b : Nat) (h : g.consistent) :
    (g.connect a b).consistent ∧
    ((g.connect a b) a).notifiers.count b = (g a).notifiers.count b + 1 ∧
    ((g.connect a b) b).notifiedBy.count a = (g b).notifiedBy.count a + 1 := by
  refine ⟨?_, ?_, ?_⟩
  · intro x y
    rw [Net.connect_notifiers, Net.connect_notifiedBy]
    have hxy := h x y
    by_cases hxa : x = a <;> by_cases hyb : y = b
    · subst hxa hyb
      simp [List.count_append, hxy]
    · subst hxa
      have : ¬ b = y := fun hb => hyb hb.symm
      simp [hyb, List.count_append, List.count_cons, this, hxy]
    · subst hyb
      have : ¬ a = x := fun ha => hxa ha.symm
      simp [hxa, List.count_append, List.count_cons, this, hxy]
    · simp [hxa, hyb, hxy]
  · rw [Net.connect_notifiers]
    simp [List.count_append]
  · rw [Net.connect_notifiedBy]
    simp [List.count_append]

/-- C12. After `0.connect(1)` and `0.connect(2)` the call `0.disconnect(1)`
erases `1` from `_notifiers` of `0` and then `0` from `_notifiedBy` of `2`,
the element the iterator designates after the erasure: `1` keeps `0` in
`_notifiedBy` without being notified by it, and `2` is notified by `0` without
having it in `_notifiedBy`.  With the single edge `0 → 1` the iterator is past
the end after the erasure. -/
theorem disconnect_breaks_consistency :
    (fanNet 0).notifiers = [1, 2] ∧ (fanNet 1).notifiedBy = [0] ∧
    (fanNet 2).notifiedBy = [0] ∧
    (fanNet.disconnect 0 1).map
      (fun g => ((g 0).notifiers, (g 1).notifiedBy, (g 2).notifiedBy))
      = some ([2], [0], []) ∧
    ((Net.empty.connect 0 1).disconnect 0 1).isNone = true := by
  decide

/-- C13. After `0.connect(1)` the destruction of `0` leaves `0` in `_notifiedBy`
of the surviving notifier `1`; the destructor only visits the notifiers that
notify it, as after `1.connect(0)`, where `0` is erased from `_notifiers` of
`1`. -/
theorem destroy_leaves_incoming_entry :
    ((Net.empty.connect 0 1) 1).notifiedBy = [0] ∧
    (((Net.empty.connect 0 1).destroy 0) 1).notifiedBy = [0] ∧
    ((Net.empty.connect 1 0) 1).notifiers = [0] ∧
    (((Net.empty.connect 1 0).destroy 0) 1).notifiers = [] := by
  decide

/-! ### The destroy hook of a component -/

theorem eraseNodesCalls_no_onDestroy (ts : List TypeTag) (cs : List (TypeTag × Component))
    (a : Addr) : ((eraseNodesCalls cs ts).getD []).count (Call.componentOnDestroy a) = 0 := by
  induction ts generalizing cs with
  | nil => simp [eraseNodesCalls]
  | cons t ts ih =>
    simp only [eraseNodesCalls]
    cases hf : find t cs with
    | none => simp
    | some c =>
      have := ih (eraseKey t cs)
      cases hr : eraseNodesCalls (eraseKey t cs) ts with
      | none => simp
      | some calls =>
        simp only [hr, Option.getD_some] at this
        simp [List.count_cons, this]

/-- C18. `Object::cleanTrash` frees a queued component and the destructor of an
object frees the stored components without any call of `Component::onDestroy`:
the only virtual call made is `Object::onDestroy`, in the destructor. -/
theorem component_onDestroy_never_called :
    queuedObject.trash = [1] ∧
    queuedObject.cleanTrashCalls = some [Call.deleteComponent 10] ∧
    queuedObject.destroyCalls 0 = [Call.objectOnDestroy 0, Call.deleteComponent 10] ∧
    (∀ (o : Object) (a : Addr),
      (o.cleanTrashCalls.getD []).count (Call.componentOnDestroy a) = 0) ∧
    (∀ (p : ObjId) (o : Object) (a : Addr),
      (o.destroyCalls p).count (Call.componentOnDestroy a) = 0) := by
  refine ⟨by decide, by decide, by decide, ?_, ?_⟩
  · intro o a
    exact eraseNodesCalls_no_onDestroy o.trash o.components a
  · intro p o a
    rw [List.count_eq_zero]
    simp [Object.destroyCalls]

/-! ### The invariant of the object store -/

theorem not_mem_keys_of_find_eq_none (t : TypeTag) (cs : List (TypeTag × Component))
    (h : find t cs = none) : t ∉ cs.map Prod.fst := by
  induction cs with
  | nil => simp
  | cons x cs ih =>
    obtain ⟨k, c⟩ := x
    by_cases hk : k = t
    · simp [find, hk] at h
    · simp only [find, hk, if_false] at h
      simp only [List.map_cons, List.mem_cons, not_or]
      exact ⟨fun heq => hk heq.symm, ih h⟩

theorem find_append_single (u t : TypeTag) (c : Component) (cs : List (TypeTag × Component)) :
    find u (cs ++ [(t, c)])
      = match find u cs with
        | some x => some x
        | none => if t = u then some c else none := by
  induction cs with
  | nil => simp [find]
  | cons x cs ih =>
    obtain ⟨k, d⟩ := x
    by_cases hk : k = u
    · simp [find, hk]
    · simp [find, hk, ih]

theorem eraseNodes_some (ts : List TypeTag) (cs cs1 : List (TypeTag × Component))
    (hk : keysDistinct cs) (h : eraseNodes cs ts = some cs1) :
    keysDistinct cs1 ∧ ∀ u, find u cs1 = if u ∈ ts then none else find u cs := by
  induction ts generalizing cs with
  | nil =>
    simp only [eraseNodes, Option.some.injEq] at h
    subst h
    exact ⟨hk, by simp⟩
  | cons t ts ih =>
    simp only [eraseNodes] at h
    cases hf : find t cs with
    | none => simp [hf] at h
    | some c =>
      simp only [hf] at h
      obtain ⟨h1, h2⟩ := ih (eraseKey t cs) (keysDistinct_eraseKey t cs hk) h
      refine ⟨h1, ?_⟩
      intro u
      rw [h2 u]
      by_cases hut : u = t
      · subst hut
        by_cases hmem : u ∈ ts
        · simp [hmem]
        · simp [hmem, find_eraseKey_self u cs hk]
      · by_cases hmem : u ∈ ts
        · simp [hmem]
        · simp [hmem, hut, find_eraseKey_other t u cs hut]

theorem find_setActiveAt_ne_none (t u : TypeTag) (b : Bool) (cs : List (TypeTag × Component))
    (h : find u cs ≠ none) : find u (setActiveAt t b cs) ≠ none := by
  by_cases hut : u = t
  · subst hut
    rw [find_setActiveAt_self]
    cases hf : find u cs with
    | none => exact absurd hf h
    | some c => simp
  · rw [find_setActiveAt_other t u b cs hut]
    exact h

theorem Object.step_stored (o o1 : Object) (op : ObjectOp) (hstep : o.step op = some o1)
    (hk : keysDistinct o.components) (hs : o.trashStored) :
    keysDistinct o1.components ∧ o1.trashStored := by
  unfold Object.trashStored Object.getComponent at hs ⊢
  cases op with
  | addComponent t fresh payload =>
    simp only [Object.step, Option.some.injEq] at hstep
    subst hstep
    unfold Object.addComponent
    cases hf : find t o.components with
    | some c =>
      by_cases ha : c.active = true
      · simp only [ha, if_true]
        exact ⟨hk, hs⟩
      · simp only [ha, Bool.false_eq_true, if_false]
        have hk1 : keysDistinct (setActiveAt t true o.components) := by
          unfold keysDistinct
          rw [keys_setActiveAt]
          exact hk
        split
        · refine ⟨hk1, ?_⟩
          intro u hu
          exact find_setActiveAt_ne_none t u true _ (hs u (List.mem_of_mem_erase hu))
        · refine ⟨hk1, ?_⟩
          intro u hu
          exact find_setActiveAt_ne_none t u true _ (hs u hu)
    | none =>
      simp only
      constructor
      · unfold keysDistinct at hk ⊢
        rw [List.map_append, List.nodup_append]
        refine ⟨hk, by simp, ?_⟩
        intro a ha hb
        simp only [List.map_cons, List.map_nil, List.mem_singleton] at hb
        exact not_mem_keys_of_find_eq_none t _ hf (hb ▸ ha)
      · intro u hu
        rw [find_append_single]
        cases hfu : find u o.components with
        | none => exact absurd hfu (hs u hu)
        | some x => simp
  | removeComponent t =>
    simp only [Object.step, Option.some.injEq] at hstep
    subst hstep
    unfold Object.removeComponent
    cases hf : find t o.components with
    | none => exact ⟨hk, hs⟩
    | some c =>
      simp only
      constructor
      · unfold keysDistinct
        rw [keys_setActiveAt]
        exact hk
      · intro u hu
        simp only [List.mem_append, List.mem_singleton] at hu
        apply find_setActiveAt_ne_none
        rcases hu with hu | rfl
        · exact hs u hu
        · simp [hf]
  | cleanTrash =>
    simp only [Object.step] at hstep
    unfold Object.cleanTrash at hstep
    cases he : eraseNodes o.components o.trash with
    | none => simp [he] at hstep
    | some cs1 =>
      simp only [he, Option.some.injEq] at hstep
      subst hstep
      exact ⟨(eraseNodes_some _ _ _ hk he).1, by simp⟩
  | setActive t b =>
    simp only [Object.step] at hstep
    unfold Object.setActive at hstep
    cases hf : find t o.components with
    | none => simp [hf] at hstep
    | some c =>
      simp only [hf, Option.some.injEq] at hstep
      subst hstep
      constructor
      · unfold keysDistinct
        rw [keys_setActiveAt]
        exact hk
      · intro u hu
        exact find_setActiveAt_ne_none t u b _ (hs u hu)

theorem Object.step_inactiveQueuedAt (T : TypeTag) (o o1 : Object) (op : ObjectOp)
    (hstep : o.step op = some o1) (hop : op ≠ ObjectOp.setActive T false)
    (hk : keysDistinct o.components) (hq : o.inactiveQueuedAt T) : o1.inactiveQueuedAt T := by
  unfold Object.inactiveQueuedAt Object.getComponent at hq ⊢
  cases op with
  | addComponent t fresh payload =>
    simp only [Object.step, Option.some.injEq] at hstep
    subst hstep
    unfold Object.addComponent
    cases hf : find t o.components with
    | some c =>
      by_cases ha : c.active = true
      · simp only [ha, if_true]
        exact hq
      · simp only [ha, Bool.false_eq_true, if_false]
        have key : ∀ d : Component,
            find T (setActiveAt t true o.components) = some d → d.active = false →
            T ≠ t ∧ T ∈ o.trash := by
          intro d hd hda
          by_cases hut : T = t
          · subst hut
            rw [find_setActiveAt_self, hf] at hd
            simp only [Option.map_some', Option.some.injEq] at hd
            rw [← hd] at hda
            simp [Component.setActive] at hda
          · rw [find_setActiveAt_other t T true _ hut] at hd
            exact ⟨hut, hq d hd hda⟩
        split
        · intro d hd hda
          obtain ⟨hne, hmem⟩ := key d hd hda
          exact (List.mem_erase_of_ne hne).2 hmem
        · intro d hd hda
          exact (key d hd hda).2
    | none =>
      simp only
      intro d hd hda
      rw [find_append_single] at hd
      cases hfu : find T o.components with
      | some x =>
        simp only [hfu, Option.some.injEq] at hd
        subst hd
        exact hq x hfu hda
      | none =>
        simp only [hfu] at hd
        split at hd
        · simp only [Option.some.injEq] at hd
          rw [← hd] at hda
          simp at hda
        · simp at hd
  | removeComponent t =>
    simp only [Object.step, Option.some.injEq] at hstep
    subst hstep
    unfold Object.removeComponent
    cases hf : find t o.components with
    | none => exact hq
    | some c =>
      simp only
      intro d hd hda
      by_cases hut : T = t
      · simp [hut]
      · rw [find_setActiveAt_other t T false _ hut] at hd
        exact List.mem_append_left _ (hq d hd hda)
  | cleanTrash =>
    simp only [Object.step] at hstep
    unfold Object.cleanTrash at hstep
    cases he : eraseNodes o.components o.trash with
    | none => simp [he] at hstep
    | some cs1 =>
      simp only [he, Option.some.injEq] at hstep
      subst hstep
      intro d hd hda
      simp only at hd
      rw [(eraseNodes_some _ _ _ hk he).2 T] at hd
      by_cases hmem : T ∈ o.trash
      · simp [hmem] at hd
      · simp only [hmem, if_false] at hd
        exact absurd (hq d hd hda) hmem
  | setActive t b =>
    simp only [Object.step] at hstep
    unfold Object.setActive at hstep
    cases hf : find t o.components with
    | none => simp [hf] at hstep
    | some c =>
      simp only [hf, Option.some.injEq] at hstep
      subst hstep
      intro d hd hda
      simp only at hd
      by_cases hut : T = t
      · subst hut
        cases b with
        | false => exact absurd rfl hop
        | true =>
          rw [find_setActiveAt_self, hf] at hd
          simp only [Option.map_some', Option.some.injEq] at hd
          rw [← hd] at hda
          simp [Component.setActive] at hda
      · rw [find_setActiveAt_other t T b _ hut] at hd
        exact hq d hd hda

theorem Object.run_stored (ops : List ObjectOp) (o o1 : Object) (hrun : o.run ops = some o1)
    (hk : keysDistinct o.components) (hs : o.trashStored) :
    keysDistinct o1.components ∧ o1.trashStored := by
  induction ops generalizing o with
  | nil =>
    simp only [Object.run, Option.some.injEq] at hrun
    subst hrun
    exact ⟨hk, hs⟩
  | cons op ops ih =>
    simp only [Object.run] at hrun
    cases hst : o.step op with
    | none => simp [hst] at hrun
    | some o2 =>
      simp only [hst] at hrun
      obtain ⟨h1, h2⟩ := Object.step_stored o o2 op hst hk hs
      exact ih o2 hrun h1 h2

theorem Object.run_inactiveQueuedAt (T : TypeTag) (ops : List ObjectOp) (o o1 : Object)
    (hrun : o.run ops = some o1) (hops : ∀ op ∈ ops, op ≠ ObjectOp.setActive T false)
    (hk : keysDistinct o.components) (hs : o.trashStored) (hq : o.inactiveQueuedAt T) :
    o1.inactiveQueuedAt T := by
  induction ops generalizing o with
  | nil =>
    simp only [Object.run, Option.some.injEq] at hrun
    subst hrun
    exact hq
  | cons op ops ih =>
    simp only [Object.run] at hrun
    cases hst : o.step op with
    | none => simp [hst] at hrun
    | some o2 =>
      simp only [hst] at hrun
      obtain ⟨h1, h2⟩ := Object.step_stored o o2 op hst hk hs
      exact ih o2 hrun (fun x hx => hops x (List.mem_cons_of_mem _ hx)) h1 h2
        (Object.step_inactiveQueuedAt T o o2 op hst (hops op (List.mem_cons_self _ _)) hk hq)

/-- With a direct `setActive(false)` among the calls the invariant fails: after
`addComponent` and `setActive(false)` the component is stored and inactive and
the trash is empty. -/
theorem setActive_false_not_queued :
    ¬ ∀ (ops : List ObjectOp) (o : Object), Object.created.run ops = some o →
      o.inactiveQueued ∧ o.trashStored := by
  intro h
  have h1 := (h [ObjectOp.addComponent 1 10 0, ObjectOp.setActive 1 false] _ rfl).1
    1 ⟨10, false, 0⟩ (by decide) rfl
  simp [Object.created, Object.addComponent, Object.setActive, find, setActiveAt] at h1

/-- C21, amended. In every state of an object reached through `addComponent`,
`removeComponent`, `cleanTrash` and `setActive`, every entry of the trash
refers to a component that is stored, and a `cleanTrash` that returns leaves
the trash empty, frees the queued types and keeps the instance of every other
type; and a component that is stored and inactive is queued in the trash when
no call was a direct `setActive(false)` on its type. -/
theorem object_trash_invariant (ops : List ObjectOp) (o : Object)
    (hrun : Object.created.run ops = some o) :
    o.trashStored ∧
    (∀ o1, o.cleanTrash = some o1 → o1.trash = [] ∧
      ∀ u, o1.getComponent u = if u ∈ o.trash then none else o.getComponent u) ∧
    (∀ t : TypeTag, (∀ op ∈ ops, op ≠ ObjectOp.setActive t false) →
      ∀ c : Component, o.getComponent t = some c → c.active = false → t ∈ o.trash) := by
  have hk0 : keysDistinct Object.created.components := by
    simp [keysDistinct, Object.created]
  have hs0 : Object.created.trashStored := by
    intro t ht
    simp [Object.created] at ht
  obtain ⟨hk, hs⟩ := Object.run_stored ops _ o hrun hk0 hs0
  refine ⟨hs, ?_, ?_⟩
  · intro o1 hcl
    unfold Object.cleanTrash at hcl
    cases he : eraseNodes o.components o.trash with
    | none => simp [he] at hcl
    | some cs1 =>
      simp only [he, Option.some.injEq] at hcl
      subst hcl
      exact ⟨rfl, (eraseNodes_some _ _ _ hk he).2⟩
  · intro t hops
    have hq0 : Object.created.inactiveQueuedAt t := by
      intro c hc
      simp [Object.created, Object.getComponent, find] at hc
    exact Object.run_inactiveQueuedAt t ops _ o hrun hops hk0 hs0 hq0

theorem object_trash_invariant_witness :
    ∃ o, Object.created.run
        [ObjectOp.addComponent 1 10 0, ObjectOp.removeComponent 1,
         ObjectOp.addComponent 2 11 0, ObjectOp.setActive 2 false] = some o ∧
      o.trashStored ∧
      o.getComponent 1 = some ⟨10, false, 0⟩ ∧ 1 ∈ o.trash :=
  ⟨_, rfl,
    (object_trash_invariant
      [ObjectOp.addComponent 1 10 0, ObjectOp.removeComponent 1,
       ObjectOp.addComponent 2 11 0, ObjectOp.setActive 2 false] _ rfl).1,
    by decide,
    (object_trash_invariant
      [ObjectOp.addComponent 1 10 0, ObjectOp.removeComponent 1,
       ObjectOp.addComponent 2 11 0, ObjectOp.setActive 2 false] _ rfl).2.2 1 (by decide)
      ⟨10, false, 0⟩ (by decide) rfl⟩

/-! ### The pending-cleanup list of the scene -/

theorem World.deliver_needClean (coming : TypeTag → Nat → Filter → Bool) (p : ObjId)
    (ns : List Notice) (w : World) :
    (w.deliver coming p ns).objectsNeedClean
      = trashNotices p (w.heap p).trashNotifiers ns w.objectsNeedClean := by
  induction ns generalizing w with
  | nil => rfl
  | cons n ns ih =>
    cases n with
    | changed =>
      simp only [World.deliver, trashNotices]
      rw [ih]
    | trash b =>
      simp only [World.deliver, trashNotices]
      rw [ih]

theorem count_notifyTrash_other (O p : ObjId) (b : Bool) (n : Nat) (l : List ObjId)
    (h : p ≠ O) : (notifyTrash p b n l).count O = l.count O := by
  induction n generalizing l with
  | zero => rfl
  | succ n ih =>
    simp only [notifyTrash]
    rw [ih]
    unfold trashCallback
    cases b with
    | true =>
      simp only [if_true, List.count_append]
      have : [p].count O = 0 := List.count_eq_zero.2 (by simp [Ne.symm h])
      omega
    | false =>
      simp only [Bool.false_eq_true, if_false]
      exact List.count_erase_of_ne (Ne.symm h) l

theorem count_trashNotices_other (O p : ObjId) (n : Nat) (ns : List Notice) (l : List ObjId)
    (h : p ≠ O) : (trashNotices p n ns l).count O = l.count O := by
  induction ns generalizing l with
  | nil => rfl
  | cons x ns ih =>
    cases x with
    | changed => simpa [trashNotices] using ih l
    | trash b =>
      simp only [trashNotices]
      rw [ih, count_notifyTrash_other O p b n l h]

theorem trashNotices_zero (p : ObjId) (ns : List Notice) (l : List ObjId) :
    trashNotices p 0 ns l = l := by
  induction ns generalizing l with
  | nil => rfl
  | cons x ns ih =>
    cases x with
    | changed => simpa [trashNotices] using ih l
    | trash b => simpa [trashNotices, notifyTrash] using ih l

theorem Object.cleanTrash_edges (o o1 : Object) (h : o.cleanTrash = some o1) :
    o1.trash = [] ∧ o1.trashNotifiers = o.trashNotifiers := by
  unfold Object.cleanTrash at h
  cases he : eraseNodes o.components o.trash with
  | none => simp [he] at h
  | some cs =>
    simp only [he, Option.some.injEq] at h
    subst h
    exact ⟨rfl, rfl⟩

theorem cleanObjects_heap (O : ObjId) (ps : List ObjId) (heap : ObjId → Object)
    (r : (ObjId → Object) × List Event) (hr : cleanObjects heap ps = some r) :
    (r.1 O).trashNotifiers = (heap O).trashNotifiers ∧
    (O ∈ ps → (r.1 O).trash = []) ∧ (O ∉ ps → r.1 O = heap O) := by
  induction ps generalizing heap r with
  | nil =>
    simp only [cleanObjects, Option.some.injEq] at hr
    subst hr
    simp
  | cons p ps ih =>
    simp only [cleanObjects] at hr
    cases hc : (heap p).cleanTrash with
    | none => simp [hc] at hr
    | some o1 =>
      cases hcl : cleanObjects (fun q => if q = p then o1 else heap q) ps with
      | none => simp [hc, hcl] at hr
      | some r1 =>
        simp only [hc, hcl, Option.some.injEq] at hr
        subst hr
        obtain ⟨h1, h2, h3⟩ := ih _ r1 hcl
        obtain ⟨k1, k2⟩ := Object.cleanTrash_edges _ _ hc
        by_cases hOp : O = p
        · subst hOp
          simp only [if_true] at h1 h3
          refine ⟨by rw [h1, k2], ?_, by simp⟩
          intro _
          by_cases hmem : O ∈ ps
          · exact h2 hmem
          · rw [h3 hmem, k1]
        · simp only [hOp, if_false] at h1 h3
          refine ⟨h1, ?_, ?_⟩
          · intro hmem
            rcases List.mem_cons.1 hmem with hmem | hmem
            · exact absurd hmem hOp
            · exact h2 hmem
          · intro hmem
            exact h3 (fun hm => hmem (List.mem_cons_of_mem _ hm))

theorem World.update_heap (O : ObjId) (w w1 : World) (h : w.update = some w1) :
    (w1.heap O).trashNotifiers = (w.heap O).trashNotifiers ∧ w1.objects = w.objects ∧
    (w.started = false → w1 = w) ∧
    (w.started = true → w1.objectsNeedClean = [] ∧
      (O ∈ w.objectsNeedClean → (w1.heap O).trash = []) ∧
      (O ∉ w.objectsNeedClean → w1.heap O = w.heap O)) := by
  unfold World.update at h
  split at h
  · rename_i hs
    simp only [Option.some.injEq] at h
    subst h
    have hs' : w.started = false := by simpa using hs
    exact ⟨rfl, rfl, fun _ => rfl, fun hc => by simp [hs'] at hc⟩
  · rename_i hs
    have hs' : w.started = true := by simpa using hs
    cases hf : flushEngines w.engines with
    | none => simp [hf] at h
    | some r =>
      cases hc : cleanObjects w.heap w.objectsNeedClean with
      | none => simp [hf, hc] at h
      | some r1 =>
        simp only [hf, hc, Option.some.injEq] at h
        subst h
        obtain ⟨h1, h2, h3⟩ := cleanObjects_heap O _ _ r1 hc
        exact ⟨h1, rfl, fun hc => by simp [hs'] at hc, fun _ => ⟨rfl, h2, h3⟩⟩

theorem Object.addComponent_trash (o : Object) (t : TypeTag) (fresh : Addr) (payload : Nat) :
    (o.addComponent t fresh payload).1.trashNotifiers = o.trashNotifiers ∧
    (((o.addComponent t fresh payload).1.trash = o.trash ∧
        ∀ b, Notice.trash b ∉ (o.addComponent t fresh payload).2.2) ∨
      (t ∈ o.trash ∧ (o.addComponent t fresh payload).1.trash = o.trash.erase t ∧
        (o.addComponent t fresh payload).2.2 = [Notice.changed, Notice.trash false])) := by
  cases hf : find t o.components with
  | none =>
    have hv : o.addComponent t fresh payload
        = ({ o with components := o.components ++ [(t, ⟨fresh, true, payload⟩)] },
            ⟨fresh, true, payload⟩, [Notice.changed]) := by
      simp [Object.addComponent, hf]
    rw [hv]
    exact ⟨rfl, Or.inl ⟨rfl, by simp⟩⟩
  | some c =>
    by_cases ha : c.active = true
    · have hv : o.addComponent t fresh payload = (o, c, []) := by
        simp [Object.addComponent, hf, ha]
      rw [hv]
      exact ⟨rfl, Or.inl ⟨rfl, by simp⟩⟩
    · by_cases hq : t ∈ o.trash
      · have hv : o.addComponent t fresh payload
            = ({ o with components := setActiveAt t true o.components,
                        trash := o.trash.erase t }, c.setActive true,
                [Notice.changed, Notice.trash false]) := by
          simp [Object.addComponent, hf, ha, hq]
        rw [hv]
        exact ⟨rfl, Or.inr ⟨hq, rfl, rfl⟩⟩
      · have hv : o.addComponent t fresh payload
            = ({ o with components := setActiveAt t true o.components }, c.setActive true,
                [Notice.changed]) := by
          simp [Object.addComponent, hf, ha, hq]
        rw [hv]
        exact ⟨rfl, Or.inl ⟨rfl, by simp⟩⟩

theorem trashNotices_none (p : ObjId) (n : Nat) (ns : List Notice) (l : List ObjId)
    (h : ∀ b, Notice.trash b ∉ ns) : trashNotices p n ns l = l := by
  induction ns generalizing l with
  | nil => rfl
  | cons x ns ih =>
    cases x with
    | changed =>
      simp only [trashNotices]
      exact ih l (fun b hb => h b (List.mem_cons_of_mem _ hb))
    | trash b => exact absurd (List.mem_cons_self _ _) (h b)

theorem World.onObject_other (coming : TypeTag → Nat → Filter → Bool) (O p : ObjId)
    (w : World) (o1 : Object) (a : Addr) (ns : List Notice) (h : p ≠ O) :
    (({ w.setObject p o1 with nextAddr := a }).deliver coming p ns).objects = w.objects ∧
    (({ w.setObject p o1 with nextAddr := a }).deliver coming p ns).heap O = w.heap O ∧
    (({ w.setObject p o1 with nextAddr := a }).deliver coming p ns).objectsNeedClean.count O
      = w.objectsNeedClean.count O := by
  obtain ⟨h1, _, h3, _, _, _⟩ := World.deliver_frame coming p ns
    { w.setObject p o1 with nextAddr := a }
  refine ⟨h1, ?_, ?_⟩
  · rw [h3]
    simp [World.setObject, Ne.symm h]
  · rw [World.deliver_needClean, count_trashNotices_other O p _ _ _ h]
    rfl

theorem World.onObject_self (coming : TypeTag → Nat → Filter → Bool) (O : ObjId)
    (w : World) (o1 : Object) (a : Addr) (ns : List Notice) :
    (({ w.setObject O o1 with nextAddr := a }).deliver coming O ns).objects = w.objects ∧
    (({ w.setObject O o1 with nextAddr := a }).deliver coming O ns).heap O = o1 ∧
    (({ w.setObject O o1 with nextAddr := a }).deliver coming O ns).objectsNeedClean
      = trashNotices O o1.trashNotifiers ns w.objectsNeedClean := by
  obtain ⟨h1, _, h3, _, _, _⟩ := World.deliver_frame coming O ns
    { w.setObject O o1 with nextAddr := a }
  refine ⟨h1, ?_, ?_⟩
  · rw [h3]
    simp [World.setObject]
  · rw [World.deliver_needClean]
    simp [World.setObject]

theorem World.step_trashBalanced (coming : TypeTag → Nat → Filter → Bool) (O : ObjId)
    (w w1 : World) (op : Op) (hstep : w.step coming op = some w1)
    (hop : op ≠ Op.removeObject O) (h : w.trashBalanced O) : w1.trashBalanced O := by
  obtain ⟨hO, hedge, hcount⟩ := h
  unfold World.trashBalanced
  cases op with
  | addEngine tag reqs =>
    simp only [World.step, Option.some.injEq] at hstep
    subst hstep
    unfold World.addEngine
    split <;> exact ⟨hO, hedge, hcount⟩
  | start =>
    simp only [World.step, Option.some.injEq] at hstep
    subst hstep
    unfold World.start
    split <;> exact ⟨hO, hedge, hcount⟩
  | update =>
    simp only [World.step] at hstep
    obtain ⟨h1, h2, h3, h4⟩ := World.update_heap O w w1 hstep
    cases hs : w.started with
    | false =>
      rw [h3 hs]
      exact ⟨hO, hedge, hcount⟩
    | true =>
      obtain ⟨k1, k2, k3⟩ := h4 hs
      refine ⟨h2 ▸ hO, h1 ▸ hedge, ?_⟩
      rw [k1]
      by_cases hmem : O ∈ w.objectsNeedClean
      · simp [k2 hmem]
      · rw [k3 hmem, ← hcount, List.count_eq_zero.2 hmem]
        rfl
  | addObject p =>
    simp only [World.step, Option.some.injEq] at hstep
    subst hstep
    unfold World.addObject
    split
    · exact ⟨hO, hedge, hcount⟩
    · rename_i hp
      have hne : O ≠ p := fun heq => hp (heq ▸ hO)
      refine ⟨List.mem_append_left _ hO, ?_, ?_⟩
      · simpa [World.setObject, hne] using hedge
      · simpa [World.setObject, hne] using hcount
  | removeObject p =>
    simp only [World.step, Option.some.injEq] at hstep
    subst hstep
    have hne : O ≠ p := fun heq => hop (by rw [heq])
    unfold World.removeObject
    split
    · exact ⟨(List.mem_erase_of_ne hne).2 hO, hedge, hcount⟩
    · exact ⟨hO, hedge, hcount⟩
  | addComponent p t payload =>
    simp only [World.step, Option.some.injEq] at hstep
    subst hstep
    unfold World.addComponent
    by_cases hp : p = O
    · subst hp
      obtain ⟨h1, h2, h3⟩ := World.onObject_self coming p w
        ((w.heap p).addComponent t w.nextAddr payload).1 (w.nextAddr + 1)
        ((w.heap p).addComponent t w.nextAddr payload).2.2
      obtain ⟨k1, k2⟩ := Object.addComponent_trash (w.heap p) t w.nextAddr payload
      simp only [h1, h2, h3, k1]
      refine ⟨hO, hedge, ?_⟩
      rcases k2 with ⟨k3, k4⟩ | ⟨k3, k4, k5⟩
      · rw [trashNotices_none _ _ _ _ k4, k3]
        exact hcount
      · rw [k5, k4, hedge]
        simp only [trashNotices, notifyTrash, trashCallback, Bool.false_eq_true, if_false]
        rw [List.count_erase_self, List.length_erase_of_mem k3, hcount]
    · obtain ⟨h1, h2, h3⟩ := World.onObject_other coming O p w
        ((w.heap p).addComponent t w.nextAddr payload).1 (w.nextAddr + 1)
        ((w.heap p).addComponent t w.nextAddr payload).2.2 hp
      simp only [h1, h2, h3]
      exact ⟨hO, hedge, hcount⟩
  | removeComponent p t =>
    simp only [World.step, Option.some.injEq] at hstep
    subst hstep
    unfold World.removeComponent
    by_cases hp : p = O
    · subst hp
      obtain ⟨h1, h2, h3⟩ := World.onObject_self coming p w
        ((w.heap p).removeComponent t).1 w.nextAddr ((w.heap p).removeComponent t).2.2
      have hw : ({ w.setObject p ((w.heap p).removeComponent t).1 with
          nextAddr := w.nextAddr } : World) = w.setObject p ((w.heap p).removeComponent t).1 :=
        rfl
      rw [hw] at h1 h2 h3
      simp only [h1, h2, h3]
      refine ⟨hO, ?_⟩
      unfold Object.removeComponent
      cases hf : find t (w.heap p).components with
      | none => exact ⟨hedge, by simpa [trashNotices] using hcount⟩
      | some c =>
        refine ⟨hedge, ?_⟩
        simp only [hedge, trashNotices, notifyTrash, trashCallback, if_true, List.count_append,
          List.length_append, List.length_singleton, hcount]
        simp
    · obtain ⟨h1, h2, h3⟩ := World.onObject_other coming O p w
        ((w.heap p).removeComponent t).1 w.nextAddr ((w.heap p).removeComponent t).2.2 hp
      have hw : ({ w.setObject p ((w.heap p).removeComponent t).1 with
          nextAddr := w.nextAddr } : World) = w.setObject p ((w.heap p).removeComponent t).1 :=
        rfl
      rw [hw] at h1 h2 h3
      simp only [h1, h2, h3]
      exact ⟨hO, hedge, hcount⟩
  | setActive p t b =>
    simp only [World.step] at hstep
    unfold World.setActive at hstep
    cases hs : (w.heap p).setActive t b with
    | none => simp [hs] at hstep
    | some r =>
      simp only [hs, Option.some.injEq] at hstep
      subst hstep
      have hw : ({ w.setObject p r.1 with nextAddr := w.nextAddr } : World)
          = w.setObject p r.1 := rfl
      unfold Object.setActive at hs
      cases hf : find t (w.heap p).components with
      | none => simp [hf] at hs
      | some c =>
        simp only [hf, Option.some.injEq] at hs
        subst hs
        by_cases hp : p = O
        · subst hp
          obtain ⟨h1, h2, h3⟩ := World.onObject_self coming p w
            { w.heap p with components := setActiveAt t b (w.heap p).components } w.nextAddr
            [Notice.changed]
          rw [hw] at h1 h2 h3
          simp only [h1, h2, h3]
          exact ⟨hO, hedge, by simpa [trashNotices] using hcount⟩
        · obtain ⟨h1, h2, h3⟩ := World.onObject_other coming O p w
            { w.heap p with components := setActiveAt t b (w.heap p).components } w.nextAddr
            [Notice.changed] hp
          rw [hw] at h1 h2 h3
          simp only [h1, h2, h3]
          exact ⟨hO, hedge, hcount⟩

theorem World.step_unregistered (coming : TypeTag → Nat → Filter → Bool) (O : ObjId)
    (w w1 : World) (op : Op) (hstep : w.step coming op = some w1)
    (hadd : op ≠ Op.addObject O) (hrem : ∀ t, op ≠ Op.removeComponent O t)
    (h : w.unregistered O) : w1.unregistered O := by
  obtain ⟨hO, hedge, htrash, hcount⟩ := h
  unfold World.unregistered
  cases op with
  | addEngine tag reqs =>
    simp only [World.step, Option.some.injEq] at hstep
    subst hstep
    unfold World.addEngine
    split <;> exact ⟨hO, hedge, htrash, hcount⟩
  | start =>
    simp only [World.step, Option.some.injEq] at hstep
    subst hstep
    unfold World.start
    split <;> exact ⟨hO, hedge, htrash, hcount⟩
  | update =>
    simp only [World.step] at hstep
    obtain ⟨h1, h2, h3, h4⟩ := World.update_heap O w w1 hstep
    cases hs : w.started with
    | false =>
      rw [h3 hs]
      exact ⟨hO, hedge, htrash, hcount⟩
    | true =>
      obtain ⟨k1, _, k3⟩ := h4 hs
      have hmem : O ∉ w.objectsNeedClean := List.count_eq_zero.1 hcount
      refine ⟨h2 ▸ hO, h1 ▸ hedge, ?_, ?_⟩
      · rw [k3 hmem]
        exact htrash
      · rw [k1]
        rfl
  | addObject p =>
    simp only [World.step, Option.some.injEq] at hstep
    subst hstep
    have hne : O ≠ p := fun heq => hadd (by rw [heq])
    unfold World.addObject
    split
    · exact ⟨hO, hedge, htrash, hcount⟩
    · refine ⟨?_, ?_, ?_, hcount⟩
      · intro hm
        rcases List.mem_append.1 hm with hm | hm
        · exact hO hm
        · exact hne (by simpa using hm)
      · simpa [World.setObject, hne] using hedge
      · simpa [World.setObject, hne] using htrash
  | removeObject p =>
    simp only [World.step, Option.some.injEq] at hstep
    subst hstep
    unfold World.removeObject
    split
    · exact ⟨fun hm => hO (List.mem_of_mem_erase hm), hedge, htrash, hcount⟩
    · exact ⟨hO, hedge, htrash, hcount⟩
  | addComponent p t payload =>
    simp only [World.step, Option.some.injEq] at hstep
    subst hstep
    unfold World.addComponent
    by_cases hp : p = O
    · subst hp
      obtain ⟨h1, h2, h3⟩ := World.onObject_self coming p w
        ((w.heap p).addComponent t w.nextAddr payload).1 (w.nextAddr + 1)
        ((w.heap p).addComponent t w.nextAddr payload).2.2
      obtain ⟨k1, k2⟩ := Object.addComponent_trash (w.heap p) t w.nextAddr payload
      simp only [h1, h2, h3, k1, hedge, trashNotices_zero]
      refine ⟨hO, trivial, ?_, hcount⟩
      rcases k2 with ⟨k3, _⟩ | ⟨k3, _, _⟩
      · rw [k3]
        exact htrash
      · rw [htrash] at k3
        simp at k3
    · obtain ⟨h1, h2, h3⟩ := World.onObject_other coming O p w
        ((w.heap p).addComponent t w.nextAddr payload).1 (w.nextAddr + 1)
        ((w.heap p).addComponent t w.nextAddr payload).2.2 hp
      simp only [h1, h2, h3]
      exact ⟨hO, hedge, htrash, hcount⟩
  | removeComponent p t =>
    simp only [World.step, Option.some.injEq] at hstep
    subst hstep
    have hp : p ≠ O := fun heq => hrem t (by rw [heq])
    unfold World.removeComponent
    obtain ⟨h1, h2, h3⟩ := World.onObject_other coming O p w
      ((w.heap p).removeComponent t).1 w.nextAddr ((w.heap p).removeComponent t).2.2 hp
    have hw : ({ w.setObject p ((w.heap p).removeComponent t).1 with
        nextAddr := w.nextAddr } : World) = w.setObject p ((w.heap p).removeComponent t).1 :=
      rfl
    rw [hw] at h1 h2 h3
    simp only [h1, h2, h3]
    exact ⟨hO, hedge, htrash, hcount⟩
  | setActive p t b =>
    simp only [World.step] at hstep
    unfold World.setActive at hstep
    cases hs : (w.heap p).setActive t b with
    | none => simp [hs] at hstep
    | some r =>
      simp only [hs, Option.some.injEq] at hstep
      subst hstep
      have hw : ({ w.setObject p r.1 with nextAddr := w.nextAddr } : World)
          = w.setObject p r.1 := rfl
      unfold Object.setActive at hs
      cases hf : find t (w.heap p).components with
      | none => simp [hf] at hs
      | some c =>
        simp only [hf, Option.some.injEq] at hs
        subst hs
        by_cases hp : p = O
        · subst hp
          obtain ⟨h1, h2, h3⟩ := World.onObject_self coming p w
            { w.heap p with components := setActiveAt t b (w.heap p).components } w.nextAddr
            [Notice.changed]
          rw [hw] at h1 h2 h3
          simp only [h1, h2, h3]
          exact ⟨hO, hedge, htrash, by simpa [trashNotices] using hcount⟩
        · obtain ⟨h1, h2, h3⟩ := World.onObject_other coming O p w
            { w.heap p with components := setActiveAt t b (w.heap p).components } w.nextAddr
            [Notice.changed] hp
          rw [hw] at h1 h2 h3
          simp only [h1, h2, h3]
          exact ⟨hO, hedge, htrash, hcount⟩

theorem World.addObject_trashBalanced (coming : TypeTag → Nat → Filter → Bool) (O : ObjId)
    (w : World) (h : w.unregistered O) : (w.addObject coming O).trashBalanced O := by
  obtain ⟨hO, hedge, htrash, hcount⟩ := h
  unfold World.trashBalanced World.addObject
  simp only [hO, if_false]
  refine ⟨by simp, ?_, ?_⟩
  · simp [World.setObject, hedge]
  · simp [World.setObject, htrash, hcount]

theorem World.run_append (coming : TypeTag → Nat → Filter → Bool) (xs ys : List Op)
    (w : World) :
    w.run coming (xs ++ ys)
      = match w.run coming xs with
        | some w1 => w1.run coming ys
        | none => none := by
  induction xs generalizing w with
  | nil => simp [World.run]
  | cons x xs ih =>
    simp only [List.cons_append, World.run]
    cases hs : w.step coming x with
    | none => simp
    | some w2 => simp [ih]

theorem World.run_unregistered (coming : TypeTag → Nat → Filter → Bool) (O : ObjId)
    (ops : List Op) (w w1 : World) (hrun : w.run coming ops = some w1)
    (hops : ∀ op ∈ ops, op ≠ Op.addObject O ∧ ∀ t, op ≠ Op.removeComponent O t)
    (h : w.unregistered O) : w1.unregistered O := by
  induction ops generalizing w with
  | nil =>
    simp only [World.run, Option.some.injEq] at hrun
    subst hrun
    exact h
  | cons op ops ih =>
    simp only [World.run] at hrun
    cases hs : w.step coming op with
    | none => simp [hs] at hrun
    | some w2 =>
      simp only [hs] at hrun
      have hop := hops op (List.mem_cons_self _ _)
      exact ih w2 hrun (fun x hx => hops x (List.mem_cons_of_mem _ hx))
        (World.step_unregistered coming O w w2 op hs hop.1 hop.2 h)

theorem World.run_trashBalanced (coming : TypeTag → Nat → Filter → Bool) (O : ObjId)
    (ops : List Op) (w w1 : World) (hrun : w.run coming ops = some w1)
    (hops : ∀ op ∈ ops, op ≠ Op.removeObject O)
    (h : w.trashBalanced O) : w1.trashBalanced O := by
  induction ops generalizing w with
  | nil =>
    simp only [World.run, Option.some.injEq] at hrun
    subst hrun
    exact h
  | cons op ops ih =>
    simp only [World.run] at hrun
    cases hs : w.step coming op with
    | none => simp [hs] at hrun
    | some w2 =>
      simp only [hs] at hrun
      exact ih w2 hrun (fun x hx => hops x (List.mem_cons_of_mem _ hx))
        (World.step_trashBalanced coming O w w2 op hs (hops op (List.mem_cons_self _ _)) h)

/-- Trash bookkeeping for an object that is added to the scene once and not
removed from it, with no component removed before it was added: after every
later call it occurs in the pending-cleanup list as many times as its trash
has entries, and an `update` of the started scene that returns leaves the
pending-cleanup list and the trash of the object empty. -/
theorem trash_bookkeeping_registered_once (coming : TypeTag → Nat → Filter → Bool)
    (O : ObjId) (before after : List Op) (w : World)
    (hbefore : ∀ op ∈ before, op ≠ Op.addObject O ∧ ∀ t, op ≠ Op.removeComponent O t)
    (hafter : ∀ op ∈ after, op ≠ Op.removeObject O)
    (hrun : World.empty.run coming (before ++ Op.addObject O :: after) = some w) :
    O ∈ w.objects ∧
    w.objectsNeedClean.count O = (w.heap O).trash.length ∧
    ∀ w1, w.started = true → w.update = some w1 →
      w1.objectsNeedClean = [] ∧ (w1.heap O).trash = [] := by
  rw [World.run_append] at hrun
  cases h1 : World.empty.run coming before with
  | none => simp [h1] at hrun
  | some wa =>
    simp only [h1, World.run, World.step] at hrun
    have hun : wa.unregistered O :=
      World.run_unregistered coming O before _ wa h1 hbefore
        (by simp [World.unregistered, World.empty])
    have hbal := World.run_trashBalanced coming O after _ w hrun hafter
      (World.addObject_trashBalanced coming O wa hun)
    refine ⟨hbal.1, hbal.2.2, ?_⟩
    intro w1 hs hup
    obtain ⟨_, _, _, h4⟩ := World.update_heap O w w1 hup
    obtain ⟨k1, k2, k3⟩ := h4 hs
    refine ⟨k1, ?_⟩
    by_cases hmem : O ∈ w.objectsNeedClean
    · exact k2 hmem
    · rw [k3 hmem]
      have hz : w.objectsNeedClean.count O = 0 := List.count_eq_zero.2 hmem
      rw [hbal.2.2] at hz
      exact List.length_eq_zero.1 hz

/-! ### Objects that leave the scene or come back -/

/-- C22. An object that holds a component of type `1` is removed from the
scene: it leaves the object list and its filter is retired.  A later
`addComponent` on it still reaches the engine, whose requirement `{1}` it
passes: the coming and added hooks are called for it and it has an active
filter again, without being in the object list. -/
theorem removed_object_rejoins_engine :
    ∃ w w1 : World,
      World.empty.run acceptAll removedObjectOps = some w ∧
      0 ∉ w.objects ∧
      w.getEntities 7 0 = [⟨0, false, [some 0]⟩] ∧
      w.step acceptAll (Op.addComponent 0 2 0) = some w1 ∧
      0 ∉ w1.objects ∧
      w1.log = w.log ++ [Event.coming 7 0 ⟨0, true, [some 0]⟩,
        Event.added 7 0 ⟨0, true, [some 0]⟩] ∧
      w1.getEntities 7 0 = [⟨0, false, [some 0]⟩, ⟨0, true, [some 0]⟩] :=
  ⟨_, _, rfl, by decide, by decide, rfl, by decide, by decide, by decide⟩

/-- C23. An object that was added to the scene, removed and added again has
two edges from its trash notifier to the scene: after `addComponent` and
`removeComponent` of one type it occurs twice in the pending-cleanup list
while its trash holds one entry.  And for an object added once whose component
is removed twice, the two lists agree but the `update` of the started scene
does not return: `cleanTrash` of the object meets the repeated entry. -/
theorem readded_object_queued_twice :
    ∃ w w1 : World,
      World.empty.run acceptAll reAddedOps = some w ∧
      0 ∈ w.objects ∧
      (w.heap 0).trashNotifiers = 2 ∧
      (w.heap 0).trash = [1] ∧
      w.objectsNeedClean = [0, 0] ∧
      w.objectsNeedClean.count 0 ≠ (w.heap 0).trash.length ∧
      World.empty.run acceptAll doubleRemoveOps = some w1 ∧
      w1.started = true ∧
      (w1.heap 0).trash = [1, 1] ∧
      w1.objectsNeedClean = [0, 0] ∧
      w1.update.isNone = true :=
  ⟨_, _, rfl, by decide, by decide, by decide, by decide, by decide, rfl, by decide,
    by decide, by decide, by decide⟩

end dn
